import Mathlib

/-!
# Verification of the numeric procedures of the `mhy` rig plugins

Shallow embedding of

* `angleSliceSolver/angleSliceSolver.cpp` (`AngleSliceSolver`),
* `tensionNode/tensionNode.cpp` (`tensionNode`), and
* `constraint/BufferReaderNode.cpp`, `constraint/GPUBufferReader.cpp`,
  `constraint/GeometryInfo.cpp` (the buffer reader and `LSGeometryInfo`).

## Arithmetic model

The C++ code computes on `double`.  The embedding is exact: a `double` is a
value of a linearly ordered field `K` (think `ℝ`; `ℚ` for evaluation), or one
of the IEEE special values that a division by zero produces (`+inf`, `-inf`,
`NaN`).  There is no overflow, and no rounding with one exception: the sum
`radians + M_PI * 2.0` of `computeRadians` is an operation of the library
(`Libm.addTwoPi`), because its rounding decides whether an angle stays below
`2 pi` or is exactly `2 pi`, the angle of the closing sample.  Zeros are
unsigned, every zero divisor is treated as `+0` (all divisors in the code are
lengths, sums of non-negative terms, or converted non-negative integers).

Attribute inputs of the host (positions, locations) are finite, so they have
type `K`.  The C math library (`atan2`, `pow`, `M_PI`) and the host's
`MVector::length` (a square root) are not part of the repository; they are
taken as a parameter `Libm K`, and every theorem states the property of the
library it relies on.
-/

set_option linter.unusedSectionVars false

namespace Mhy

/-! ## `double` with the special values of a division by zero -/

/-- A `double`: an exact finite value, or `+inf`, `-inf`, `NaN`. -/
inductive Dbl (K : Type) where
  | fin (x : K)
  | pinf
  | ninf
  | nan
deriving DecidableEq

namespace Dbl

variable {K : Type} [LinearOrderedField K]

/-- Unary minus. -/
def neg : Dbl K → Dbl K
  | fin x => fin (-x)
  | pinf => ninf
  | ninf => pinf
  | nan => nan

/-- Addition: `inf + (-inf)` and anything with `NaN` is `NaN`. -/
def add : Dbl K → Dbl K → Dbl K
  | fin a, fin b => fin (a + b)
  | nan, _ => nan
  | _, nan => nan
  | pinf, ninf => nan
  | ninf, pinf => nan
  | pinf, _ => pinf
  | _, pinf => pinf
  | ninf, _ => ninf
  | _, ninf => ninf

/-- Subtraction `a - b = a + (-b)`. -/
def sub (a b : Dbl K) : Dbl K := add a (neg b)

/-- The infinity with the sign of `x` times the sign of the infinity `pos`; `0 * inf = NaN`. -/
def infTimes (pos : Bool) (x : K) : Dbl K :=
  if x = 0 then nan else if (0 < x) = pos then pinf else ninf

/-- Multiplication. -/
def mul : Dbl K → Dbl K → Dbl K
  | fin a, fin b => fin (a * b)
  | nan, _ => nan
  | _, nan => nan
  | pinf, fin b => infTimes true b
  | ninf, fin b => infTimes false b
  | fin a, pinf => infTimes true a
  | fin a, ninf => infTimes false a
  | pinf, pinf => pinf
  | ninf, ninf => pinf
  | pinf, ninf => ninf
  | ninf, pinf => ninf

/-- Division: `x / 0` is `+inf`, `-inf` or `NaN` by the sign of `x`; `x / inf = 0`;
`inf / inf = NaN`. -/
def div : Dbl K → Dbl K → Dbl K
  | fin a, fin b =>
    if b = 0 then (if a = 0 then nan else if 0 < a then pinf else ninf) else fin (a / b)
  | nan, _ => nan
  | _, nan => nan
  | fin _, pinf => fin 0
  | fin _, ninf => fin 0
  | pinf, fin b => if 0 ≤ b then pinf else ninf
  | ninf, fin b => if 0 ≤ b then ninf else pinf
  | pinf, pinf => nan
  | pinf, ninf => nan
  | ninf, pinf => nan
  | ninf, ninf => nan

/-- Comparison `a < b`; false as soon as one side is `NaN`. -/
def lt : Dbl K → Dbl K → Bool
  | fin a, fin b => decide (a < b)
  | fin _, pinf => true
  | ninf, fin _ => true
  | ninf, pinf => true
  | _, _ => false

/-- Comparison `a <= b`; false as soon as one side is `NaN`. -/
def le : Dbl K → Dbl K → Bool
  | fin a, fin b => decide (a ≤ b)
  | fin _, pinf => true
  | ninf, fin _ => true
  | ninf, ninf => true
  | pinf, pinf => true
  | ninf, pinf => true
  | _, _ => false

instance : Neg (Dbl K) := ⟨neg⟩
instance : Add (Dbl K) := ⟨add⟩
instance : Sub (Dbl K) := ⟨sub⟩
instance : Mul (Dbl K) := ⟨mul⟩
instance : Div (Dbl K) := ⟨div⟩

end Dbl

/-! ## The math library the code links against -/

/-- The functions of the C math library and of the host that the code calls.
`pow` may receive the special values (`1.0 / edgeNum` with `edgeNum = 0`). -/
structure Libm (K : Type) where
  /-- The constant `M_PI`. -/
  pi : K
  /-- The function `atan2(y, x)`. -/
  atan2 : K → K → K
  /-- The function `sqrt`, called through `MVector::length`. -/
  sqrt : K → K
  /-- The function `pow(x, y)`. -/
  pow : Dbl K → Dbl K → Dbl K
  /-- The `double` sum `radians + M_PI * 2.0` of `computeRadians`. -/
  addTwoPi : K → K


variable {K : Type} [LinearOrderedField K]

/-! ## Host value types -/

/-- Host `MVector` (three `double` components). -/
structure MVector (K : Type) where
  x : K
  y : K
  z : K

/-- Host `MPoint` in cartesian form (`w = 1` is not stored). -/
structure MPoint (K : Type) where
  x : K
  y : K
  z : K

/-- The host function `MVector::length()`. -/
def MVector.length (L : Libm K) (v : MVector K) : K :=
  L.sqrt (v.x * v.x + v.y * v.y + v.z * v.z)

/-- The difference `MPoint - MPoint`, an `MVector`. -/
def MPoint.sub (p q : MPoint K) : MVector K :=
  ⟨p.x - q.x, p.y - q.y, p.z - q.z⟩

/-- Host `MColor` (red, green, blue, alpha); the narrowing to `float` is exact here. -/
structure MColor (K : Type) where
  r : Dbl K
  g : Dbl K
  b : Dbl K
  a : Dbl K

/-! ## `tensionNode` (tensionNode.cpp) -/

/-- One vertex of a host mesh as `MItMeshVertex` presents it: `position()` and
`getConnectedVertices()`. -/
structure MeshVertex (K : Type) where
  position : MPoint K
  connectedVertices : List Nat

/-- A host mesh: its vertices by vertex index (`MItMeshVertex::count()` is the length). -/
abbrev Mesh (K : Type) := List (MeshVertex K)

/-- The loop of `updateTension` over the connected vertices of vertex `id`
(tensionNode.cpp 132-144): `delta *= deformV.length() / neutralV.length()`.
`none` when an iterator is asked for a vertex the mesh does not have. -/
def edgeLoop (L : Libm K) (neutral deformed : Mesh K) (id : Nat) :
    List Nat → Dbl K → Option (Dbl K)
  | [], delta => some delta
  | c :: rest, delta => do
    let neutralP0 ← (neutral[id]?).map MeshVertex.position
    let neutralP1 ← (neutral[c]?).map MeshVertex.position
    let deformP0 ← (deformed[id]?).map MeshVertex.position
    let deformP1 ← (deformed[c]?).map MeshVertex.position
    let deformV := deformP1.sub deformP0
    let neutralV := neutralP1.sub neutralP0
    edgeLoop L neutral deformed id rest
      (delta * (Dbl.fin (deformV.length L) / Dbl.fin (neutralV.length L)))

/-- The mapping of the stretch factor to the stored tension (tensionNode.cpp 147-154). -/
def tensionValue (delta : Dbl K) : Dbl K :=
  if Dbl.lt (Dbl.fin 1) delta then
    Dbl.fin 1 - Dbl.fin 1 / delta
  else
    delta - Dbl.fin 1

/-- The stretch factor of vertex `id` after `delta = pow(delta, 1.0 / edgeNum)`
(tensionNode.cpp 126-145). -/
def vertexDelta (L : Libm K) (neutral deformed : Mesh K) (id : Nat) : Option (Dbl K) := do
  let v ← neutral[id]?
  let connectedVertices := v.connectedVertices
  let edgeNum := connectedVertices.length
  let delta ← edgeLoop L neutral deformed id connectedVertices (Dbl.fin 1)
  some (L.pow delta (Dbl.fin 1 / Dbl.fin (edgeNum : K)))

/-- The body of the vertex loop of `updateTension` for vertex `id`: the value stored
in `tensionArray[id]` (tensionNode.cpp 126-154). -/
def vertexTension (L : Libm K) (neutral deformed : Mesh K) (id : Nat) : Option (Dbl K) :=
  (vertexDelta L neutral deformed id).map tensionValue

/-- The host function `MDoubleArray::setLength`: truncate, or pad with zero entries. -/
def setLength (arr : List (Dbl K)) (n : Nat) : List (Dbl K) :=
  arr.take n ++ List.replicate (n - arr.length) (Dbl.fin 0)

/-- The vertex loop of `updateTension` (tensionNode.cpp 124-157): `id` is the index
of the vertex iterator, `remaining` the number of vertices left. -/
def vertexLoop (L : Libm K) (neutral deformed : Mesh K) :
    Nat → Nat → List (Dbl K) → Option (List (Dbl K))
  | _, 0, tensionArray => some tensionArray
  | id, remaining + 1, tensionArray => do
    let t ← vertexTension L neutral deformed id
    vertexLoop L neutral deformed (id + 1) remaining (tensionArray.set id t)

/-- The function `tensionNode::updateTension` (tensionNode.cpp 108-158): the new `tensionArray`. -/
def updateTension (L : Libm K) (tensionArray : List (Dbl K)) (neutral deformed : Mesh K) :
    Option (List (Dbl K)) :=
  vertexLoop L neutral deformed 0 neutral.length (setLength tensionArray neutral.length)

/-- The colour of one vertex (tensionNode.cpp 86-95). -/
def vertexColor (tension : Dbl K) : MColor K :=
  let vertColor : MColor K := ⟨Dbl.fin 0, Dbl.fin 0, Dbl.fin 0, Dbl.fin 1⟩
  if Dbl.le (Dbl.fin 0) tension then
    { vertColor with g := tension }
  else
    { vertColor with r := -tension }

/-- The colour loop of `tensionNode::compute` (tensionNode.cpp 77-100): the arrays
`vertColors` and `vertIds` passed to `setVertexColors`, `none` when there is no vertex. -/
def vertexColors (tensionArray : List (Dbl K)) : Option (List (MColor K) × List Nat) :=
  let numVerts := tensionArray.length
  if 0 < numVerts then
    some (tensionArray.map vertexColor, List.range numVerts)
  else
    none

/-! ## `AngleSliceSolver` (angleSliceSolver.cpp) -/

/-- One element of the `inputList` compound attribute (the name child is not read). -/
structure ControlPoint (K : Type) where
  inputLocationX : K
  inputLocationY : K
  inputValue : K

/-- The member variables of `AngleSliceSolver` (angleSliceSolver.h 37-45). -/
structure AngleSliceSolver (K : Type) where
  splitAngles : List K
  splitMagnitudes : List K
  values : List K
  startDir : MVector K
  currentAngle : K
  currentMagnitude : K
  floorIndex : Int
  ceilIndex : Int
  elementNum : Int

/-- The function `AngleSliceSolver::computeRadians` (angleSliceSolver.cpp 103-111). -/
def computeRadians (L : Libm K) (startDir dir : MVector K) : K :=
  let radians := L.atan2 dir.y dir.x - L.atan2 startDir.y startDir.x
  if radians < 0 then L.addTwoPi radians else radians

/-- The loop of `updateBlendIndices` (angleSliceSolver.cpp 170-189) from index `index`
on, over the remaining split angles; returns `(floorIndex, ceilIndex)`. -/
def blendLoop (currentAngle : K) : List K → Nat → K → K → Int → Int → Int × Int
  | [], _, _, _, floorIndex, ceilIndex => (floorIndex, ceilIndex)
  | splitAngle :: rest, index, floorAngle, ceilAngle, floorIndex, ceilIndex =>
    if splitAngle = currentAngle then
      (index, index)
    else if splitAngle > currentAngle ∧ splitAngle < ceilAngle then
      blendLoop currentAngle rest (index + 1) floorAngle splitAngle floorIndex index
    else if splitAngle < currentAngle ∧ splitAngle > floorAngle then
      blendLoop currentAngle rest (index + 1) splitAngle ceilAngle index ceilIndex
    else
      blendLoop currentAngle rest (index + 1) floorAngle ceilAngle floorIndex ceilIndex

/-- The function `AngleSliceSolver::updateBlendIndices` (angleSliceSolver.cpp 163-190). -/
def updateBlendIndices (L : Libm K) (s : AngleSliceSolver K) : AngleSliceSolver K :=
  let r := blendLoop s.currentAngle s.splitAngles 0 (-L.pi) (3 * L.pi) (-1) (-1)
  { s with floorIndex := r.1, ceilIndex := r.2 }

/-- The direction of a control point, `MVector dir(x, y, 0.0)`. -/
def ControlPoint.dir (p : ControlPoint K) : MVector K :=
  ⟨p.inputLocationX, p.inputLocationY, 0⟩

/-- The function `AngleSliceSolver::updateAttributes` (angleSliceSolver.cpp 113-161) on the elements of
`inputList` and the `location` attribute.  With no element the first `inputValue` fails and
the function returns its status (`none`). -/
def updateAttributes (L : Libm K) (inputList : List (ControlPoint K))
    (locationX locationY : K) : Option (AngleSliceSolver K) :=
  match inputList with
  | [] => none
  | first :: rest =>
    let startDir : MVector K := first.dir
    let currentDir : MVector K := ⟨locationX, locationY, 0⟩
    some (updateBlendIndices L
      { splitAngles :=
          (0 :: rest.map (fun p => computeRadians L startDir p.dir)) ++ [2 * L.pi]
        values := (first.inputValue :: rest.map ControlPoint.inputValue) ++ [first.inputValue]
        splitMagnitudes :=
          (startDir.length L :: rest.map (fun p => p.dir.length L)) ++ [startDir.length L]
        startDir := startDir
        currentAngle := computeRadians L startDir currentDir
        currentMagnitude := currentDir.length L
        floorIndex := -1
        ceilIndex := -1
        elementNum := (inputList.length : Int) })

/-- The `outputValue` array attribute: a sparse array, logical index to element. -/
abbrev OutArray (K : Type) := Nat → Option (Dbl K)

/-- The call `jumpToElement(index)` followed by `outputValue().setDouble(v)`.  `none` when the
array has no element at `index` (the jump fails and the handle is not positioned). -/
def OutArray.setAt (out : OutArray K) (index : Int) (v : Dbl K) : Option (OutArray K) :=
  if 0 ≤ index ∧ (out index.toNat).isSome then
    some (Function.update out index.toNat (some v))
  else
    none

/-- The read `array[index]` on an `MDoubleArray`; `none` outside the array. -/
def readAt (arr : List K) (index : Int) : Option K :=
  if 0 ≤ index then arr[index.toNat]? else none

/-- The blend ratio of `computeOutputValues` (angleSliceSolver.cpp 205-207). -/
def blendRatio (s : AngleSliceSolver K) : Option (Dbl K) := do
  let floorAngle ← readAt s.splitAngles s.floorIndex
  let ceilAngle ← readAt s.splitAngles s.ceilIndex
  some ((Dbl.fin s.currentAngle - Dbl.fin floorAngle) / (Dbl.fin ceilAngle - Dbl.fin floorAngle))

/-- The pair `(floorValue, ceilValue)` of `computeOutputValues` for a bracket of two
different indices (angleSliceSolver.cpp 203-221). -/
def bracketValues (s : AngleSliceSolver K) (clamp : Bool) : Option (Dbl K × Dbl K) := do
  let floorMagnitude ← readAt s.splitMagnitudes s.floorIndex
  let ceilMagnitude ← readAt s.splitMagnitudes s.ceilIndex
  let floorValue := Dbl.fin s.currentMagnitude / Dbl.fin floorMagnitude
  let ceilValue := Dbl.fin s.currentMagnitude / Dbl.fin ceilMagnitude
  let ratio ← blendRatio s
  let ceilValue := ceilValue * ratio
  let floorValue := floorValue * (Dbl.fin 1 - ratio)
  let magnitude := ceilValue + floorValue
  let ceilValue := ceilValue * Dbl.fin s.currentMagnitude / magnitude
  let floorValue := floorValue * Dbl.fin s.currentMagnitude / magnitude
  if clamp then
    let scale := Dbl.fin 1 / (ceilValue + floorValue)
    if Dbl.lt scale (Dbl.fin 1) then
      some (floorValue * scale, ceilValue * scale)
    else
      some (floorValue, ceilValue)
  else
    some (floorValue, ceilValue)

/-- The function `AngleSliceSolver::computeOutputValues` (angleSliceSolver.cpp 192-236). -/
def computeOutputValues (s : AngleSliceSolver K) (out : OutArray K) (clamp : Bool) :
    Option (OutArray K) :=
  if s.floorIndex = s.ceilIndex then do
    let magnitude ← readAt s.splitMagnitudes s.floorIndex
    out.setAt s.floorIndex (Dbl.fin s.currentMagnitude / Dbl.fin magnitude)
  else do
    let (floorValue, ceilValue) ← bracketValues s clamp
    let out ← out.setAt s.floorIndex floorValue
    if s.ceilIndex = s.elementNum then
      out.setAt 0 ceilValue
    else
      out.setAt s.ceilIndex ceilValue

/-- The zero-fill loop of `compute` (angleSliceSolver.cpp 250-267): every index below
`elementNum` gets an element (added through the builder when missing) holding `0.0`. -/
def zeroFill (out : OutArray K) : Nat → OutArray K
  | 0 => out
  | index + 1 => Function.update (zeroFill out index) index (some (Dbl.fin 0))

/-- The function `AngleSliceSolver::compute` for the `outputValue` plug (angleSliceSolver.cpp 238-276):
the solver state after `updateAttributes` and the new output array. -/
def compute (L : Libm K) (out : OutArray K) (inputList : List (ControlPoint K))
    (locationX locationY : K) (clamp : Bool) : Option (AngleSliceSolver K × OutArray K) := do
  let s ← updateAttributes L inputList locationX locationY
  let out := zeroFill out s.elementNum.toNat
  let out ← computeOutputValues s out clamp
  some (s, out)


/-! ## Properties of the math library and its exact real instance -/

/-- The value `pow(+1, y)` is `1` for every `y`, also infinite or `NaN` (C99 F.9.4.4). -/
def Libm.PowOne (L : Libm K) : Prop :=
  ∀ y : Dbl K, L.pow (Dbl.fin 1) y = Dbl.fin 1

/-- The function `pow` takes exact roots: `pow(x^n, 1/n) = x` for `x > 0` and `n >= 1`. -/
def Libm.PowRoot (L : Libm K) : Prop :=
  ∀ (x : K) (n : Nat), 0 < x → 0 < n →
    L.pow (Dbl.fin (x ^ n)) (Dbl.fin (1 / (n : K))) = Dbl.fin x

/-- The function `sqrt` is the exact non-negative square root on non-negative arguments. -/
def Libm.SqrtExact (L : Libm K) : Prop :=
  ∀ x : K, 0 ≤ x → 0 ≤ L.sqrt x ∧ L.sqrt x * L.sqrt x = x

/-- The constant `M_PI` is positive, `atan2` returns an angle in `(-pi, pi]`, and the sum
`radians + M_PI * 2.0` of a negative `radians` above `-2 pi` lies in `[0, 2 pi)`: it is not
rounded up to `2 pi`. -/
def Libm.Atan2Range (L : Libm K) : Prop :=
  0 < L.pi ∧ (∀ y x : K, -L.pi < L.atan2 y x ∧ L.atan2 y x ≤ L.pi) ∧
    ∀ r : K, -(2 * L.pi) < r → r < 0 → 0 ≤ L.addTwoPi r ∧ L.addTwoPi r < 2 * L.pi

/-- The constant `M_PI` is positive, `atan2` returns an angle in `(-pi, pi]`, and the sum
`radians + M_PI * 2.0` of a negative `radians` above `-2 pi` lies in `[0, 2 pi]`: as in
`double` arithmetic, it may be rounded up to `2 pi`. -/
def Libm.Atan2Closed (L : Libm K) : Prop :=
  0 < L.pi ∧ (∀ y x : K, -L.pi < L.atan2 y x ∧ L.atan2 y x ≤ L.pi) ∧
    ∀ r : K, -(2 * L.pi) < r → r < 0 → 0 ≤ L.addTwoPi r ∧ L.addTwoPi r ≤ 2 * L.pi

/-- Exact real `pow` with the special cases of C99 F.9.4.4 (zeros are unsigned). -/
noncomputable def realPow (x y : Dbl ℝ) : Dbl ℝ :=
  if x = Dbl.fin 1 ∨ y = Dbl.fin 0 then Dbl.fin 1 else
  match x, y with
  | Dbl.nan, _ => Dbl.nan
  | _, Dbl.nan => Dbl.nan
  | Dbl.fin a, Dbl.fin b =>
    if 0 < a then Dbl.fin (a ^ b)
    else if a = 0 then (if 0 < b then Dbl.fin 0 else Dbl.pinf)
    else if (⌊b⌋ : ℝ) = b then Dbl.fin (a ^ ⌊b⌋) else Dbl.nan
  | Dbl.fin a, Dbl.pinf =>
    if |a| < 1 then Dbl.fin 0 else if |a| = 1 then Dbl.fin 1 else Dbl.pinf
  | Dbl.fin a, Dbl.ninf =>
    if |a| < 1 then Dbl.pinf else if |a| = 1 then Dbl.fin 1 else Dbl.fin 0
  | Dbl.pinf, Dbl.fin b => if b < 0 then Dbl.fin 0 else Dbl.pinf
  | Dbl.pinf, Dbl.pinf => Dbl.pinf
  | Dbl.pinf, Dbl.ninf => Dbl.fin 0
  | Dbl.ninf, Dbl.fin b =>
    if b < 0 then Dbl.fin 0
    else if (⌊b⌋ : ℝ) = b ∧ ⌊b⌋ % 2 = 1 then Dbl.ninf else Dbl.pinf
  | Dbl.ninf, Dbl.pinf => Dbl.pinf
  | Dbl.ninf, Dbl.ninf => Dbl.fin 0

/-- The math library over the reals: `M_PI = π`, `atan2(y, x)` the argument of `x + i y`
(so `atan2(0, 0) = 0`), the real square root, `realPow`, and the exact sum. -/
noncomputable def realLibm : Libm ℝ where
  pi := Real.pi
  atan2 := fun y x => Complex.arg ⟨x, y⟩
  sqrt := Real.sqrt
  pow := realPow
  addTwoPi := fun r => r + Real.pi * 2

/-- The function `atan2` does not see a positive common factor of its arguments. -/
def Libm.Atan2Scale (L : Libm K) : Prop :=
  ∀ c y x : K, 0 < c → L.atan2 (c * y) (c * x) = L.atan2 y x

/-- Four control points evenly spaced by `π/2`, all of magnitude `2`. -/
noncomputable def crossControls : List (ControlPoint ℝ) :=
  [⟨2, 0, 10⟩, ⟨0, 2, 20⟩, ⟨-2, 0, 30⟩, ⟨0, -2, 40⟩]

/-- Two opposite control points of magnitude `2`. -/
noncomputable def oppositeControls : List (ControlPoint ℝ) :=
  [⟨2, 0, 10⟩, ⟨-2, 0, 20⟩]

/-- A single control point on the negative `x` axis. -/
noncomputable def singleControl : List (ControlPoint ℝ) :=
  [⟨-1, 0, 7⟩]

/-- The solver state of `crossControls` with the location `(0, 3)`. -/
noncomputable def crossState : AngleSliceSolver ℝ where
  splitAngles := [0, Real.pi / 2, Real.pi, 3 * Real.pi / 2, 2 * Real.pi]
  splitMagnitudes := [2, 2, 2, 2, 2]
  values := [10, 20, 30, 40, 10]
  startDir := ⟨2, 0, 0⟩
  currentAngle := Real.pi / 2
  currentMagnitude := 3
  floorIndex := 1
  ceilIndex := 1
  elementNum := 4

/-- The solver state of `oppositeControls` with the location `(0, 3)`. -/
noncomputable def oppositeState : AngleSliceSolver ℝ where
  splitAngles := [0, Real.pi, 2 * Real.pi]
  splitMagnitudes := [2, 2, 2]
  values := [10, 20, 10]
  startDir := ⟨2, 0, 0⟩
  currentAngle := Real.pi / 2
  currentMagnitude := 3
  floorIndex := 0
  ceilIndex := 1
  elementNum := 2

/-- The solver state of `singleControl` with the location `(0, 0)`. -/
noncomputable def singleState : AngleSliceSolver ℝ where
  splitAngles := [0, 2 * Real.pi]
  splitMagnitudes := [1, 1]
  values := [7, 7]
  startDir := ⟨-1, 0, 0⟩
  currentAngle := Real.pi
  currentMagnitude := 0
  floorIndex := 0
  ceilIndex := 1
  elementNum := 1

/-- An output array with no element yet. -/
def emptyOut (K : Type) : OutArray K := fun _ => none

/-! ## Meshes for the tension properties -/

/-- Every connected vertex of every vertex of `M` exists in `M`, and the edge to it has
non-zero length as `updateTension` measures it. -/
def EdgesNonZero (L : Libm K) (M : Mesh K) : Prop :=
  ∀ (id c : Nat) (v : MeshVertex K), M[id]? = some v → c ∈ v.connectedVertices →
    ∃ w, M[c]? = some w ∧ (w.position.sub v.position).length L ≠ 0

/-- The mesh `M` with every position multiplied by `s`. -/
def scaleMesh (s : K) (M : Mesh K) : Mesh K :=
  M.map fun v =>
    { v with position := ⟨s * v.position.x, s * v.position.y, s * v.position.z⟩ }

/-- A mesh of one edge between two vertices. -/
noncomputable def segmentMesh : Mesh ℝ :=
  [⟨⟨0, 0, 0⟩, [1]⟩, ⟨⟨3, 4, 0⟩, [0]⟩]

/-- A mesh of one edge and one isolated vertex. -/
noncomputable def pointedSegment : Mesh ℝ :=
  [⟨⟨0, 0, 0⟩, [1]⟩, ⟨⟨3, 4, 0⟩, [0]⟩, ⟨⟨5, 5, 5⟩, []⟩]

/-! ## The solver state after `updateAttributes` -/

/-- What `updateAttributes` establishes on `N` control points: the sizes of the sample
arrays, the first and the closing sample angle, the range of the current angle, and the
indices left by `updateBlendIndices`. -/
structure SolverState (L : Libm K) (N : Nat) (s : AngleSliceSolver K) : Prop where
  pos : 1 ≤ N
  elementNum : s.elementNum = (N : Int)
  angles_length : s.splitAngles.length = N + 1
  mags_length : s.splitMagnitudes.length = N + 1
  first : s.splitAngles[0]? = some 0
  last : s.splitAngles[N]? = some (2 * L.pi)
  cur_nonneg : 0 ≤ s.currentAngle
  cur_lt : s.currentAngle < 2 * L.pi
  pi_pos : 0 < L.pi
  indices : blendLoop s.currentAngle s.splitAngles 0 (-L.pi) (3 * L.pi) (-1) (-1) =
    (s.floorIndex, s.ceilIndex)

/-! ## Exact values of the interpolation of `computeOutputValues` -/

/-- The value of `ratio` (angleSliceSolver.cpp 207) when the bracket has non-zero width. -/
def ratioOf (t af ac : K) : K := (t - af) / (ac - af)

/-- The value of `floorValue` after angleSliceSolver.cpp 209. -/
def weightedFloor (cm mf r : K) : K := cm / mf * (1 - r)

/-- The value of `ceilValue` after angleSliceSolver.cpp 208. -/
def weightedCeil (cm mc r : K) : K := cm / mc * r

/-- The value of `floorValue` after the renormalisation, angleSliceSolver.cpp 212. -/
def renormFloor (cm mf mc r : K) : K :=
  weightedFloor cm mf r * cm / (weightedCeil cm mc r + weightedFloor cm mf r)

/-- The value of `ceilValue` after the renormalisation, angleSliceSolver.cpp 211. -/
def renormCeil (cm mf mc r : K) : K :=
  weightedCeil cm mc r * cm / (weightedCeil cm mc r + weightedFloor cm mf r)

/-- The readings of `computeOutputValues` on a bracket of two indices: floor index `f`
with sample `(af, mf)`, ceil index `c` with sample `(ac, mc)`. -/
structure Bracket (s : AngleSliceSolver K) (f c : Nat) (af ac mf mc : K) : Prop where
  floorIndex : s.floorIndex = (f : Int)
  ceilIndex : s.ceilIndex = (c : Int)
  floorAngle : s.splitAngles[f]? = some af
  ceilAngle : s.splitAngles[c]? = some ac
  floorMagnitude : s.splitMagnitudes[f]? = some mf
  ceilMagnitude : s.splitMagnitudes[c]? = some mc

/-- Three control points that are not in angular order: angles `0`, `3π/2`, `π/2`. -/
noncomputable def unorderedControls : List (ControlPoint ℝ) :=
  [⟨2, 0, 10⟩, ⟨0, -2, 20⟩, ⟨0, 2, 30⟩]

/-! ## The tension of the specification -/

/-- The function `pow` takes exact roots of non-negative numbers: `pow(x^n, 1/n) = x` for
`x >= 0` and `n >= 1`. -/
def Libm.PowNonnegRoot (L : Libm K) : Prop :=
  ∀ (x : K) (n : Nat), 0 ≤ x → 0 < n →
    L.pow (Dbl.fin (x ^ n)) (Dbl.fin (1 / (n : K))) = Dbl.fin x

/-- The position of vertex `i` of a mesh (the origin when the mesh has no such vertex). -/
def positionOf (M : Mesh K) (i : Nat) : MPoint K :=
  ((M[i]?).map MeshVertex.position).getD ⟨0, 0, 0⟩

/-- The ratio of the specification for the edge from vertex `v` to its neighbour `u`:
deformed edge length over neutral edge length, `|D(u) - D(v)| / |N(u) - N(v)|`. -/
def edgeRatio (L : Libm K) (neutral deformed : Mesh K) (v u : Nat) : K :=
  ((positionOf deformed u).sub (positionOf deformed v)).length L /
    ((positionOf neutral u).sub (positionOf neutral v)).length L

/-- The product of the edge ratios over the neighbours of vertex `v` in the neutral mesh. -/
def stretchProduct (L : Libm K) (neutral deformed : Mesh K) (v : Nat) : K :=
  ((((neutral[v]?).map MeshVertex.connectedVertices).getD []).map
    (edgeRatio L neutral deformed v)).prod

/-! ## The buffer reader (BufferReaderNode.cpp, GPUBufferReader.cpp, GeometryInfo.cpp)

The host objects the code only passes around (data blocks, plugs, OpenCL events) are left
out.  What the host and the OpenCL driver return is an input of the model: `FrameInput`
for the data block and the evaluation node, `CLCalls` for the status of every OpenCL call.
Positions have an arbitrary value type `F` (the narrowing from `double` to `float` is
exact here), the output attributes of the geometry-info node an arbitrary type `G` with
the host's write operation as a parameter `setOutputs`. -/

/-- Host `MStatus` codes returned by the code. -/
inductive MStatus where
  | kSuccess
  | kFailure
  | kUnknownParameter
deriving DecidableEq

/-- The values of `MPxGPUDeformer::DeformerStatus` returned by `evaluate`. -/
inductive DeformerStatus where
  | kDeformerSuccess
  | kDeformerFailure
deriving DecidableEq

/-- The OpenCL status `CL_SUCCESS`. -/
def CL_SUCCESS : Int := 0

/-- The size `sizeof(int)` in bytes. -/
def sizeofInt : Nat := 4

/-- The state of an `LSGeometryInfo` node that `updateBuffer` reads and writes:
`isGPUOverride()` (no connection into `targetGeometry`), the element indices of the
`coordinate` array attribute, and the `translate` / `rotate` output arrays. -/
structure LSGeometryInfo (G : Type) where
  gpuOverride : Bool
  coordinateIndices : List Nat
  outputs : G

/-- The loop of `LSGeometryInfo::updateBuffer` (GeometryInfo.cpp 79-118) over the remaining
elements of `coordinate`: returns `false` as soon as the buffer is exhausted, otherwise
writes three consecutive values to the outputs of the element.  `none` when a read is
outside `positions`. -/
def updateBufferLoop {F G : Type} (setOutputs : G → Nat → F × F × F → G)
    (positions : List F) (size : Nat) : List Nat → Nat → G → Option (Bool × G)
  | [], _, outputs => some (true, outputs)
  | index :: rest, offset, outputs =>
    if offset + 3 > size then
      some (false, outputs)
    else do
      let p0 ← positions[offset]?
      let p1 ← positions[offset + 1]?
      let p2 ← positions[offset + 2]?
      updateBufferLoop setOutputs positions size rest (offset + 3)
        (setOutputs outputs index (p0, p1, p2))

/-- The function `LSGeometryInfo::updateBuffer` (GeometryInfo.cpp 64-120). -/
def LSGeometryInfo.updateBuffer {F G : Type} (setOutputs : G → Nat → F × F × F → G)
    (g : LSGeometryInfo G) (positions : List F) (size : Nat) :
    Option (Bool × LSGeometryInfo G) :=
  if !g.gpuOverride then
    some (true, g)
  else
    (updateBufferLoop setOutputs positions size g.coordinateIndices 0 g.outputs).map
      fun r => (r.1, { g with outputs := r.2 })

/-- The state of an `LSBufferReaderNode`: its `positions` vector and the geometry-info node
found by `getGeometryInfo()` (`none` for `nullptr`). -/
structure LSBufferReaderNode (F G : Type) where
  positions : List F
  geometryInfo : Option (LSGeometryInfo G)

/-- The function `LSBufferReaderNode::updateBuffer` (BufferReaderNode.cpp 111-118). -/
def LSBufferReaderNode.updateBuffer {F G : Type} (setOutputs : G → Nat → F × F × F → G)
    (node : LSBufferReaderNode F G) (buffer : List F) (size : Nat) :
    Option (LSBufferReaderNode F G) :=
  match node.geometryInfo with
  | none => some node
  | some g =>
    (g.updateBuffer setOutputs buffer size).map
      fun r => { node with geometryInfo := some r.2 }

/-- The member variables of `lsGPUBufferReader` (GPUBufferReader.h 31-38); an `MAutoCLMem`
or `MAutoCLKernel` is `true` when it holds an object, `false` when it is null. -/
structure lsGPUBufferReader (F : Type) where
  fCLParameterIndices : Bool
  output_CLMemPtr : Bool
  indexBufferSize : Nat
  pointsBufferSize : Nat
  indicesNum : Nat
  fKernel : Bool
  positions : List F

/-- The constructor of `lsGPUBufferReader` (GPUBufferReader.cpp 12-17). -/
def lsGPUBufferReader.new (F : Type) : lsGPUBufferReader F where
  fCLParameterIndices := false
  output_CLMemPtr := false
  indexBufferSize := 0
  pointsBufferSize := 0
  indicesNum := 0
  fKernel := false
  positions := []

/-- The renderer's GPU memory accounting: the totals passed to `holdGPUMemory` and to
`releaseGPUMemory`. -/
structure GPUMemory where
  held : Nat
  released : Nat

/-- The host call `holdGPUMemory(size)`. -/
def GPUMemory.holdGPUMemory (mem : GPUMemory) (size : Nat) : GPUMemory :=
  { mem with held := mem.held + size }

/-- The host call `releaseGPUMemory(size)`. -/
def GPUMemory.releaseGPUMemory (mem : GPUMemory) (size : Nat) : GPUMemory :=
  { mem with released := mem.released + size }

/-- What the host hands to one evaluation: validity of the input positions buffer,
`hasAttributeBeenModified` for `kernelParameters` and for `indexList`, the status of
`inputValue(aParameters)`, and the data of `indexList` (`none` for a null data object). -/
structure FrameInput where
  inputPositionsValid : Bool
  parametersModified : Bool
  indicesModified : Bool
  parametersStatus : Bool
  indices : Option (List Int)

/-- The status reported by every OpenCL call of one evaluation, the work group size query,
whether `getOpenCLKernel` returns a kernel, and the values the device returns for the
read-back (`readData i` for slot `i`). -/
structure CLCalls (F : Type) where
  setKernelArgOutput : Int
  setKernelArgInput : Int
  setKernelArgIndices : Int
  setKernelArgCount : Int
  getKernelWorkGroupInfo : Int
  workGroupSize : Nat
  retSize : Nat
  enqueueNDRangeKernel : Int
  createIndexBuffer : Int
  createOutputBuffer : Int
  enqueueWriteBuffer : Int
  enqueueReadBuffer : Int
  getOpenCLKernel : Bool
  readData : Nat → F

/-- The call `std::vector::resize(n)`: truncate, or pad with zeros. -/
def resizeVec {F : Type} [Zero F] (v : List F) (n : Nat) : List F :=
  v.take n ++ List.replicate (n - v.length) 0

/-- The release of an index buffer that is too small (GPUBufferReader.cpp 253-258). -/
def releaseSmallIndexBuffer {F : Type} (r : lsGPUBufferReader F) (mem : GPUMemory) :
    lsGPUBufferReader F × GPUMemory :=
  if r.fCLParameterIndices && decide (r.indexBufferSize < r.indicesNum * sizeofInt) then
    ({ r with fCLParameterIndices := false, indexBufferSize := 0 },
      mem.releaseGPUMemory r.indexBufferSize)
  else
    (r, mem)

/-- The release of an output buffer that is too small (GPUBufferReader.cpp 259-264). -/
def releaseSmallOutputBuffer {F : Type} (r : lsGPUBufferReader F) (mem : GPUMemory) :
    lsGPUBufferReader F × GPUMemory :=
  if r.output_CLMemPtr && decide (r.pointsBufferSize < 3 * r.indicesNum * sizeofInt) then
    ({ r with output_CLMemPtr := false, pointsBufferSize := 0 },
      mem.releaseGPUMemory r.pointsBufferSize)
  else
    (r, mem)

/-- The allocation of the index buffer when there is none, or the write into the existing
one (GPUBufferReader.cpp 268-280).  The status of `clCreateBuffer` is passed to
`checkCLErrorStatus` and the status of `clEnqueueWriteBuffer` is assigned to `err`; neither
is read again.  `clCreateBuffer` returns a buffer exactly when it reports `CL_SUCCESS`. -/
def provideIndexBuffer {F : Type} (r : lsGPUBufferReader F) (mem : GPUMemory)
    (cl : CLCalls F) : lsGPUBufferReader F × GPUMemory :=
  if !r.fCLParameterIndices then
    ({ r with
        indexBufferSize := r.indicesNum * sizeofInt
        fCLParameterIndices := decide (cl.createIndexBuffer = CL_SUCCESS) },
      mem.holdGPUMemory (r.indicesNum * sizeofInt))
  else
    (r, mem)

/-- The allocation of the output buffer when there is none (GPUBufferReader.cpp 282-288). -/
def provideOutputBuffer {F : Type} (r : lsGPUBufferReader F) (mem : GPUMemory)
    (cl : CLCalls F) : lsGPUBufferReader F × GPUMemory :=
  if !r.output_CLMemPtr then
    ({ r with
        pointsBufferSize := 3 * r.indicesNum * sizeofInt
        output_CLMemPtr := decide (cl.createOutputBuffer = CL_SUCCESS) },
      mem.holdGPUMemory (3 * r.indicesNum * sizeofInt))
  else
    (r, mem)

/-- The function `lsGPUBufferReader::extractParameters` (GPUBufferReader.cpp 211-289).
The sizes are below `2^36` (`indicesNum` comes from an `unsigned int`), so `size_t` does
not wrap. -/
def lsGPUBufferReader.extractParameters {F : Type} [Zero F] (r : lsGPUBufferReader F)
    (mem : GPUMemory) (inp : FrameInput) (cl : CLCalls F) : lsGPUBufferReader F × GPUMemory :=
  if r.fCLParameterIndices && r.output_CLMemPtr && !inp.parametersModified &&
      !inp.indicesModified then
    (r, mem)
  else if !inp.parametersStatus then
    (r, mem)
  else
    match inp.indices with
    | none => (r, mem)
    | some indices =>
      let r := { r with indicesNum := indices.length }
      if r.indicesNum = 0 then
        (r, mem)
      else
        let r := { r with positions := resizeVec r.positions (r.indicesNum * 3) }
        let state := releaseSmallIndexBuffer r mem
        let state := releaseSmallOutputBuffer state.1 state.2
        let state := provideIndexBuffer state.1 state.2 cl
        provideOutputBuffer state.1 state.2 cl

/-- The function `lsGPUBufferReader::terminate` (GPUBufferReader.cpp 201-209). -/
def lsGPUBufferReader.terminate {F : Type} (r : lsGPUBufferReader F) (mem : GPUMemory) :
    lsGPUBufferReader F × GPUMemory :=
  let mem := mem.releaseGPUMemory r.indexBufferSize
  let r := { r with fCLParameterIndices := false }
  let mem := mem.releaseGPUMemory r.pointsBufferSize
  let r := { r with output_CLMemPtr := false }
  let r := { r with fKernel := false }
  (r, mem)

/-- The destructor of `lsGPUBufferReader` (GPUBufferReader.cpp 19-22): it calls
`terminate`. -/
def lsGPUBufferReader.destructor {F : Type} (r : lsGPUBufferReader F) (mem : GPUMemory) :
    lsGPUBufferReader F × GPUMemory :=
  r.terminate mem

/-- The local work size chosen by `enqueueComputeData` (GPUBufferReader.cpp 83-85). -/
def localWorkSize {F : Type} (cl : CLCalls F) : Nat :=
  if cl.retSize > 0 then cl.workGroupSize else 256

/-- The global work size computed by `enqueueComputeData` (GPUBufferReader.cpp 86). -/
def globalWorkSize (localWorkSize indicesNum : Nat) : Nat :=
  (localWorkSize - indicesNum % localWorkSize) + indicesNum

/-- The function `lsGPUBufferReader::enqueueComputeData` (GPUBufferReader.cpp 52-115):
the variable `err` is assigned the status of each call in turn (each is passed to
`checkCLErrorStatus`, which logs) and the last one is returned. -/
def enqueueComputeData {F : Type} (cl : CLCalls F) : Int :=
  [cl.setKernelArgOutput, cl.setKernelArgInput, cl.setKernelArgIndices, cl.setKernelArgCount,
    cl.getKernelWorkGroupInfo, cl.enqueueNDRangeKernel].foldl (fun _ status => status)
    CL_SUCCESS

/-- The effect of a successful `clEnqueueReadBuffer` of `n` values on `positions`: slot `i`
below `n` receives `data i`. -/
def readBack {F : Type} (data : Nat → F) (n : Nat) : Nat → List F → List F
  | _, [] => []
  | i, p :: ps => (if i < n then data i else p) :: readBack data n (i + 1) ps

/-- The function `lsGPUBufferReader::updatePositions` (GPUBufferReader.cpp 151-159) on the
deformer node found by `getDeformerNode` (`none` when the cast fails). -/
def lsGPUBufferReader.updatePositions {F G : Type} (setOutputs : G → Nat → F × F × F → G)
    (r : lsGPUBufferReader F) (node : Option (LSBufferReaderNode F G)) :
    Option (Option (LSBufferReaderNode F G)) :=
  match node with
  | none => some none
  | some pGPUReaderNode =>
    (pGPUReaderNode.updateBuffer setOutputs r.positions (r.indicesNum * 3)).map some

/-- The function `lsGPUBufferReader::enqueueReadBuffer` (GPUBufferReader.cpp 117-139). -/
def lsGPUBufferReader.enqueueReadBuffer {F G : Type} (setOutputs : G → Nat → F × F × F → G)
    (r : lsGPUBufferReader F) (node : Option (LSBufferReaderNode F G)) (cl : CLCalls F) :
    Option (Int × lsGPUBufferReader F × Option (LSBufferReaderNode F G)) := do
  let err := cl.enqueueReadBuffer
  let r :=
    if err = CL_SUCCESS then
      { r with positions := readBack cl.readData (r.indicesNum * 3) 0 r.positions }
    else r
  let node ← r.updatePositions setOutputs node
  some (err, r, node)

/-- The result of one call of `evaluate`: the returned status, the reader, the GPU memory
accounting and the deformer node. -/
structure Evaluated (F G : Type) where
  status : DeformerStatus
  reader : lsGPUBufferReader F
  memory : GPUMemory
  node : Option (LSBufferReaderNode F G)

/-- The function `lsGPUBufferReader::evaluate` (GPUBufferReader.cpp 161-199). -/
def lsGPUBufferReader.evaluate {F G : Type} [Zero F] (setOutputs : G → Nat → F × F × F → G)
    (r : lsGPUBufferReader F) (mem : GPUMemory) (node : Option (LSBufferReaderNode F G))
    (inp : FrameInput) (cl : CLCalls F) : Option (Evaluated F G) :=
  if !inp.inputPositionsValid then
    some ⟨DeformerStatus.kDeformerFailure, r, mem, node⟩
  else
    let (r, mem) := r.extractParameters mem inp cl
    if r.positions.isEmpty then
      some ⟨DeformerStatus.kDeformerSuccess, r, mem, node⟩
    else
      let r := if !r.fKernel then { r with fKernel := cl.getOpenCLKernel } else r
      if !r.fKernel then
        some ⟨DeformerStatus.kDeformerFailure, r, mem, node⟩
      else
        let err := enqueueComputeData cl
        if err ≠ CL_SUCCESS then
          some ⟨DeformerStatus.kDeformerFailure, r, mem, node⟩
        else do
          let (err, r, node) ← r.enqueueReadBuffer setOutputs node cl
          if err ≠ CL_SUCCESS then
            some ⟨DeformerStatus.kDeformerFailure, r, mem, node⟩
          else
            some ⟨DeformerStatus.kDeformerSuccess, r, mem, node⟩

/-! ## Concrete frames and call sequences of the GPU buffer reader -/

/-- An evaluation in which every OpenCL call reports `CL_SUCCESS`, the work group size is
`64`, the kernel loads, and the device returns `100 + i` for slot `i`. -/
def okCalls : CLCalls Int where
  setKernelArgOutput := CL_SUCCESS
  setKernelArgInput := CL_SUCCESS
  setKernelArgIndices := CL_SUCCESS
  setKernelArgCount := CL_SUCCESS
  getKernelWorkGroupInfo := CL_SUCCESS
  workGroupSize := 64
  retSize := 8
  enqueueNDRangeKernel := CL_SUCCESS
  createIndexBuffer := CL_SUCCESS
  createOutputBuffer := CL_SUCCESS
  enqueueWriteBuffer := CL_SUCCESS
  enqueueReadBuffer := CL_SUCCESS
  getOpenCLKernel := true
  readData := fun i => 100 + (i : Int)

/-- A frame with valid input positions, both attributes modified, and the given index
list. -/
def frameOf (indices : List Int) : FrameInput where
  inputPositionsValid := true
  parametersModified := true
  indicesModified := true
  parametersStatus := true
  indices := some indices

/-- One call on an `lsGPUBufferReader` in the life of the object. -/
inductive ReaderCall (F : Type) where
  | extractParameters (inp : FrameInput) (cl : CLCalls F)
  | terminate
  | destructor

/-- A sequence of calls on one reader, in order, with the GPU memory accounting. -/
def runCalls {F : Type} [Zero F] :
    List (ReaderCall F) → lsGPUBufferReader F × GPUMemory → lsGPUBufferReader F × GPUMemory
  | [], state => state
  | ReaderCall.extractParameters inp cl :: rest, state =>
    runCalls rest (state.1.extractParameters state.2 inp cl)
  | ReaderCall.terminate :: rest, state => runCalls rest (state.1.terminate state.2)
  | ReaderCall.destructor :: rest, state => runCalls rest (state.1.destructor state.2)

/-- A host write operation that records every write to the geometry-info outputs. -/
def recordOutputs (outputs : List (Nat × Int × Int × Int)) (index : Nat)
    (p : Int × Int × Int) : List (Nat × Int × Int × Int) :=
  outputs ++ [(index, p)]

/-! ## `LSGeometryInfo::compute` (GeometryInfo.cpp) -/

/-- The plug that `LSGeometryInfo::compute` is asked for, by the attribute that
`plug == attribute` finds; `logicalIndex` is `plug.logicalIndex()` converted to `int`.
Every attribute the function does not compare with is `otherAttribute`. -/
inductive GeometryPlug where
  | aIndices
  | aTranslate (logicalIndex : Int)
  | aRotate (logicalIndex : Int)
  | aMatrix (logicalIndex : Int)
  | otherAttribute
deriving DecidableEq

/-- The value of `meshHandle.type()` as far as `compute` tests it. -/
inductive TargetType where
  | kMesh
  | kNurbsSurface
  | kInvalid
deriving DecidableEq

/-- The part of the data block that `LSGeometryInfo::compute` reads and writes: the child
`index` of every element of `coordinate` in element order, the data of the output
attribute `indexList` (`none` while nothing was written), the type of `targetGeometry`,
the status that `elementCount` reports in the translate / rotate / matrix branch, and the
output arrays. -/
structure GeometryBlock (G : Type) where
  coordinate : List Int
  indices : Option (List Int)
  targetType : TargetType
  elementCountStatus : MStatus
  outputs : G

/-- The loop of `computeParameters` (GeometryInfo.cpp 145-150): `indices[i]` receives the
`index` child of the current element, then the array handle moves on. -/
def computeParametersLoop : List Int → Nat → List Int → List Int
  | [], _, indices => indices
  | index :: rest, i, indices => computeParametersLoop rest (i + 1) (indices.set i index)

/-- The function `LSGeometryInfo::computeParameters` (GeometryInfo.cpp 138-156); the host
call `outputHandle.set` stores the array. -/
def LSGeometryInfo.computeParameters {G : Type} (b : GeometryBlock G) :
    MStatus × GeometryBlock G :=
  let elementCount := b.coordinate.length
  let indices := computeParametersLoop b.coordinate 0 (List.replicate elementCount 0)
  (MStatus.kSuccess, { b with indices := some indices })

/-- The test `plug == aTranslate || plug == aRotate || plug == aMatrix`, with the logical
index of the plug. -/
def GeometryPlug.outputIndex : GeometryPlug → Option Int
  | GeometryPlug.aTranslate i => some i
  | GeometryPlug.aRotate i => some i
  | GeometryPlug.aMatrix i => some i
  | _ => none

/-- The element range `[elemlnmtBegin, elemlnmtEnd)` of `compute` (GeometryInfo.cpp
373-385). -/
def elementRange (logicalIndex elementCount : Int) : Int × Int :=
  if logicalIndex < 0 then (0, elementCount) else (logicalIndex, logicalIndex + 1)

/-- The function `LSGeometryInfo::compute` (GeometryInfo.cpp 358-415).  The host functions
`updateFromMesh` and `updateFromNurbs` are parameters acting on the output arrays; their
return value is not read. -/
def LSGeometryInfo.compute {G : Type} (updateFromMesh updateFromNurbs : Int → Int → G → G)
    (plug : GeometryPlug) (b : GeometryBlock G) : MStatus × GeometryBlock G :=
  let b := if plug = GeometryPlug.aIndices then (LSGeometryInfo.computeParameters b).2 else b
  match plug.outputIndex with
  | some logicalIndex =>
    let range := elementRange logicalIndex (b.coordinate.length : Int)
    if b.targetType = TargetType.kMesh ∧ b.elementCountStatus ≠ MStatus.kSuccess then
      (b.elementCountStatus, b)
    else
      let b :=
        if b.targetType = TargetType.kMesh then
          { b with outputs := updateFromMesh range.1 range.2 b.outputs }
        else b
      if b.targetType = TargetType.kNurbsSurface ∧
          b.elementCountStatus ≠ MStatus.kSuccess then
        (b.elementCountStatus, b)
      else
        let b :=
          if b.targetType = TargetType.kNurbsSurface then
            { b with outputs := updateFromNurbs range.1 range.2 b.outputs }
          else b
        (MStatus.kSuccess, b)
  | none => (MStatus.kUnknownParameter, b)

/-! ## The output array as a whole, and control sets under a common factor -/

/-- The control set with every control position multiplied by `k`. -/
def scaleControls (k : K) (inputList : List (ControlPoint K)) : List (ControlPoint K) :=
  inputList.map fun p =>
    { p with inputLocationX := k * p.inputLocationX, inputLocationY := k * p.inputLocationY }

/-! ## The tension mapping of the specification -/

/-- The mapping `f` of the specification from the stretch factor to the tension:
`1 - 1/d` for `d > 1`, `d - 1` otherwise. -/
def tensionOf (d : K) : K :=
  if 1 < d then 1 - 1 / d else d - 1

/-- The length of the edge from vertex `v` to vertex `u` in the mesh `M`, as
`updateTension` measures it. -/
def edgeLength (L : Libm K) (M : Mesh K) (v u : Nat) : K :=
  ((positionOf M u).sub (positionOf M v)).length L

/-- A mesh of one edge from the origin to `(a, 0, 0)`. -/
noncomputable def axisSegment (a : ℝ) : Mesh ℝ :=
  [⟨⟨0, 0, 0⟩, [1]⟩, ⟨⟨a, 0, 0⟩, [0]⟩]

/-! ## The `double` library near the closing angle

Values of type `double` are rationals.  `roundDouble` is the rounding of an exact result
to the nearest `double`; `doubleLibm` holds what the `double` library returns at the
arguments of the examples in which the angle of the location is just below the angle of
the first control point. -/

/-- Rounding of a rational to the nearest integer, ties to the even one. -/
def roundHalfEven (q : ℚ) : Int :=
  let n := ⌊q⌋
  let frac := q - n
  if frac < 1 / 2 then n
  else if 1 / 2 < frac then n + 1
  else if n % 2 = 0 then n else n + 1

/-- Rounding of a rational to the nearest `double`: 53 significant bits, ties to even
(no overflow, no subnormal values). -/
def roundDouble (x : ℚ) : ℚ :=
  let ulp : ℚ := (2 : ℚ) ^ (Int.log 2 |x| - 52)
  let m : ℚ := (roundHalfEven (|x| / ulp) : ℚ) * ulp
  if x = 0 then 0 else if 0 < x then m else -m

/-- The `double` library at the arguments used below.  `M_PI` is the `double`
`884279719003555 / 2^48`; `atan2(0, x)` is `0` for `x >= 0` and `M_PI` for `x < 0`;
`atan2(y, 1)` is `y` for `0 < |y| <= 2^-27` (the next term `y^3 / 3` of the series is below
half a unit in the last place of `y`); `sqrt(q)` is `1` for `1 <= q < 1 + 2^-52`; the sum
`radians + M_PI * 2.0` is the exact sum rounded to `double`.  At every other argument
`atan2` and `sqrt` return `0` and `pow` returns `NaN`; those values are not used. -/
def doubleLibm : Libm ℚ where
  pi := 884279719003555 / 281474976710656
  atan2 := fun y x =>
    if y = 0 then (if 0 ≤ x then 0 else 884279719003555 / 281474976710656)
    else if x = 1 ∧ |y| ≤ 1 / 2 ^ 27 then y else 0
  sqrt := fun q => if 1 ≤ q ∧ q < 1 + 1 / 2 ^ 52 then 1 else 0
  pow := fun _ _ => Dbl.nan
  addTwoPi := fun r => roundDouble (r + 884279719003555 / 281474976710656 * 2)

/-- The `y` coordinate `-2^-54` of a location just below the positive `x` axis. -/
def belowAxis : ℚ :=
  -(1 / 2 ^ 54)

namespace Dbl

@[simp] theorem fin_add_fin (a b : K) : (fin a + fin b : Dbl K) = fin (a + b) := rfl

@[simp] theorem fin_sub_fin (a b : K) : (fin a - fin b : Dbl K) = fin (a - b) := by
  show add (fin a) (neg (fin b)) = fin (a - b)
  simp [add, neg, sub_eq_add_neg]

@[simp] theorem fin_mul_fin (a b : K) : (fin a * fin b : Dbl K) = fin (a * b) := rfl

@[simp] theorem neg_fin (a : K) : (-(fin a) : Dbl K) = fin (-a) := rfl

theorem fin_div_fin (a b : K) (hb : b ≠ 0) : (fin a / fin b : Dbl K) = fin (a / b) := by
  show div (fin a) (fin b) = fin (a / b)
  simp [div, hb]

theorem zero_div_zero : (fin 0 / fin 0 : Dbl K) = nan := by
  show div (fin 0) (fin 0) = nan
  simp [div]

@[simp] theorem lt_fin_fin (a b : K) : lt (fin a) (fin b) = decide (a < b) := rfl

@[simp] theorem le_fin_fin (a b : K) : le (fin a) (fin b) = decide (a ≤ b) := rfl

end Dbl


/-! ## `tensionNode`: the tension mapping and the vertex colours -/

/-- On a finite stretch factor the stored tension is finite: `1 - 1/delta` above one,
`delta - 1` otherwise. -/
theorem tensionValue_fin (delta : K) :
    tensionValue (Dbl.fin delta) = Dbl.fin (if 1 < delta then 1 - 1 / delta else delta - 1) := by
  unfold tensionValue
  by_cases h : 1 < delta
  · have h0 : delta ≠ 0 := by intro h0; rw [h0] at h; exact absurd h (by norm_num)
    simp [h, Dbl.fin_div_fin _ _ h0]
  · simp [h]

/-- C7. For every stretch factor `delta >= 0` the tension stored by `updateTension` is a
finite value in `[-1, 1)`; it is `0` exactly when `delta = 1`, positive exactly when
`delta > 1` and negative exactly when `delta < 1`. -/
theorem tension_range_sign (delta : K) (hdelta : 0 ≤ delta) :
    ∃ t : K, tensionValue (Dbl.fin delta) = Dbl.fin t ∧ -1 ≤ t ∧ t < 1 ∧
      (t = 0 ↔ delta = 1) ∧ (0 < t ↔ 1 < delta) ∧ (t < 0 ↔ delta < 1) := by
  refine ⟨_, tensionValue_fin delta, ?_⟩
  by_cases h : 1 < delta
  · have hpos : 0 < delta := lt_trans one_pos h
    have hinv : 0 < 1 / delta := one_div_pos.mpr hpos
    have hlt : 1 / delta < 1 := (div_lt_one hpos).mpr h
    rw [if_pos h]
    refine ⟨by linarith, by linarith, ?_, ?_, ?_⟩
    · constructor
      · intro h1; linarith
      · intro h1; linarith
    · constructor
      · intro _; exact h
      · intro _; linarith
    · constructor
      · intro h1; linarith
      · intro h1; linarith
  · have hle : delta ≤ 1 := not_lt.mp h
    rw [if_neg h]
    refine ⟨by linarith, by linarith, ?_, ?_, ?_⟩
    · constructor
      · intro h1; linarith
      · intro h1; linarith
    · constructor
      · intro h1; linarith
      · intro h1; exact absurd h1 h
    · constructor
      · intro h1; linarith
      · intro h1; linarith

/-- Witness of C7 at `delta = 2`. -/
theorem tension_range_sign_witness :
    ∃ t : ℚ, tensionValue (Dbl.fin (2 : ℚ)) = Dbl.fin t ∧ -1 ≤ t ∧ t < 1 ∧
      (t = 0 ↔ (2 : ℚ) = 1) ∧ (0 < t ↔ 1 < (2 : ℚ)) ∧ (t < 0 ↔ (2 : ℚ) < 1) :=
  tension_range_sign (2 : ℚ) (by norm_num)

/-- C8. Over the reals the map from the stretch factor to the stored tension is the
function `1 - 1/delta` for `delta > 1`, `delta - 1` otherwise; it is continuous on
`[0, infinity)` and its two branches agree at `delta = 1`. -/
theorem tension_continuous :
    (∀ delta : ℝ, tensionValue (Dbl.fin delta) =
        Dbl.fin (if 1 < delta then 1 - 1 / delta else delta - 1)) ∧
      ContinuousOn (fun delta : ℝ => if 1 < delta then 1 - 1 / delta else delta - 1)
        (Set.Ici 0) ∧
      ((1 : ℝ) - 1 / 1 = 1 - 1) := by
  refine ⟨tensionValue_fin, ?_, by norm_num⟩
  have hmax : ∀ delta : ℝ, 0 ≤ delta →
      (if 1 < delta then 1 - 1 / delta else delta - 1) = min (delta - 1) (1 - 1 / max delta 1) := by
    intro delta _
    by_cases h : 1 < delta
    · have hpos : 0 < delta := lt_trans one_pos h
      have hm : max delta 1 = delta := max_eq_left h.le
      have hlt : 1 / delta < 1 := (div_lt_one hpos).mpr h
      have hle : 1 - 1 / delta ≤ delta - 1 := by
        have : 2 - delta ≤ 1 / delta := by
          rw [le_div_iff₀ hpos]; nlinarith [sq_nonneg (delta - 1)]
        linarith
      rw [hm, if_pos h, min_eq_right hle]
    · have hle : delta ≤ 1 := not_lt.mp h
      have hm : max delta 1 = 1 := max_eq_right hle
      rw [hm, if_neg h]
      norm_num
      linarith
  have hcont : ContinuousOn (fun delta : ℝ => min (delta - 1) (1 - 1 / max delta 1))
      (Set.Ici 0) := by
    apply Continuous.continuousOn
    have hne : ∀ delta : ℝ, max delta 1 ≠ 0 := fun delta =>
      ne_of_gt (lt_of_lt_of_le one_pos (le_max_right delta 1))
    have h1 : Continuous (fun delta : ℝ => max delta 1) := continuous_id.max continuous_const
    have h2 : Continuous (fun delta : ℝ => 1 / max delta 1) :=
      continuous_const.div h1 hne
    exact (continuous_id.sub continuous_const).min (continuous_const.sub h2)
  exact hcont.congr (fun delta hd => hmax delta hd)

/-- The colour of a vertex with a finite tension `t`. -/
theorem vertexColor_fin (t : K) :
    vertexColor (Dbl.fin t) =
      if 0 ≤ t then ⟨Dbl.fin 0, Dbl.fin t, Dbl.fin 0, Dbl.fin 1⟩
      else ⟨Dbl.fin (-t), Dbl.fin 0, Dbl.fin 0, Dbl.fin 1⟩ := by
  unfold vertexColor
  by_cases h : 0 ≤ t <;> simp [h]

/-- C10. For every finite tension value `t` at index `i` of `tensionArray`, the colour
passed to `setVertexColors` for vertex id `i` has green `t` and red `0` when `t >= 0`,
red `-t` and green `0` when `t < 0`, blue `0` and alpha `1`; with `t` in `[-1, 1)` the red
and green channels are finite values in `[0, 1]` and at most one of them is non-zero. -/
theorem vertex_colour_of_tension (tensionArray : List (Dbl K)) (i : Nat) (t : K)
    (ht : tensionArray[i]? = some (Dbl.fin t)) :
    ∃ vertColors vertIds r g,
      vertexColors tensionArray = some (vertColors, vertIds) ∧
      vertIds[i]? = some i ∧
      vertColors[i]? = some ⟨Dbl.fin r, Dbl.fin g, Dbl.fin 0, Dbl.fin 1⟩ ∧
      (if 0 ≤ t then g = t ∧ r = 0 else r = -t ∧ g = 0) ∧
      (r = 0 ∨ g = 0) ∧
      (if -1 ≤ t ∧ t < 1 then 0 ≤ r ∧ r ≤ 1 ∧ 0 ≤ g ∧ g ≤ 1 else True) := by
  have hi : i < tensionArray.length := by
    rcases Nat.lt_or_ge i tensionArray.length with h | h
    · exact h
    · rw [List.getElem?_eq_none h] at ht; cases ht
  have hpos : 0 < tensionArray.length := lt_of_le_of_lt (Nat.zero_le _) hi
  refine ⟨tensionArray.map vertexColor, List.range tensionArray.length,
    if 0 ≤ t then 0 else -t, if 0 ≤ t then t else 0, ?_, ?_, ?_, ?_, ?_, ?_⟩
  · simp [vertexColors, hpos]
  · simp [hi]
  · rw [List.getElem?_map, ht, Option.map_some', vertexColor_fin]
    by_cases h : 0 ≤ t <;> simp [h]
  · by_cases h : 0 ≤ t <;> simp [h]
  · by_cases h : 0 ≤ t <;> simp [h]
  · by_cases hr : -1 ≤ t ∧ t < 1
    · rw [if_pos hr]
      by_cases h : 0 ≤ t
      · simp only [if_pos h]
        exact ⟨le_refl _, zero_le_one, h, hr.2.le⟩
      · simp only [if_neg h]
        have : t < 0 := not_le.mp h
        exact ⟨by linarith, by linarith [hr.1], le_refl _, zero_le_one⟩
    · rw [if_neg hr]; trivial

/-- Witness of C10 on the tension array `[1/2, -1/3]` at index `1`. -/
theorem vertex_colour_of_tension_witness :
    ∃ vertColors vertIds, ∃ r g : ℚ,
      vertexColors [Dbl.fin (1 / 2 : ℚ), Dbl.fin (-1 / 3)] = some (vertColors, vertIds) ∧
      vertIds[1]? = some 1 ∧
      vertColors[1]? = some ⟨Dbl.fin r, Dbl.fin g, Dbl.fin 0, Dbl.fin 1⟩ ∧
      (if 0 ≤ (-1 / 3 : ℚ) then g = -1 / 3 ∧ r = 0 else r = -(-1 / 3) ∧ g = 0) ∧
      (r = 0 ∨ g = 0) ∧
      (if -1 ≤ (-1 / 3 : ℚ) ∧ (-1 / 3 : ℚ) < 1 then 0 ≤ r ∧ r ≤ 1 ∧ 0 ≤ g ∧ g ≤ 1 else True) :=
  vertex_colour_of_tension [Dbl.fin (1 / 2 : ℚ), Dbl.fin (-1 / 3)] 1 (-1 / 3) (by rfl)


/-! ## `tensionNode`: the vertex loop -/

theorem setLength_length (arr : List (Dbl K)) (n : Nat) : (setLength arr n).length = n := by
  simp only [setLength, List.length_append, List.length_take, List.length_replicate]
  omega

/-- The vertex loop overwrites exactly the entries `id .. id + remaining - 1`, each with the
tension of its vertex. -/
theorem vertexLoop_spec (L : Libm K) (neutral deformed : Mesh K) (f : Nat → Dbl K) :
    ∀ (remaining id : Nat) (arr : List (Dbl K)), id + remaining ≤ arr.length →
      (∀ i, id ≤ i → i < id + remaining → vertexTension L neutral deformed i = some (f i)) →
      ∃ res, vertexLoop L neutral deformed id remaining arr = some res ∧
        res.length = arr.length ∧
        ∀ i, res[i]? = if id ≤ i ∧ i < id + remaining then some (f i) else arr[i]? := by
  intro remaining
  induction remaining with
  | zero =>
    intro id arr _ _
    refine ⟨arr, rfl, rfl, ?_⟩
    intro i
    have : ¬(id ≤ i ∧ i < id + 0) := by omega
    rw [if_neg this]
  | succ n ih =>
    intro id arr hlen hf
    have hid : vertexTension L neutral deformed id = some (f id) := hf id (le_refl _) (by omega)
    obtain ⟨res, hres, hreslen, hget⟩ := ih (id + 1) (arr.set id (f id))
      (by rw [List.length_set]; omega)
      (fun i h1 h2 => hf i (by omega) (by omega))
    refine ⟨res, ?_, ?_, ?_⟩
    · simp only [vertexLoop, hid, Option.bind_eq_bind, Option.some_bind]
      exact hres
    · rw [hreslen, List.length_set]
    · intro i
      rw [hget i, List.getElem?_set]
      by_cases h1 : id + 1 ≤ i ∧ i < id + 1 + n
      · have h2 : id ≤ i ∧ i < id + (n + 1) := by omega
        rw [if_pos h1, if_pos h2]
      · rw [if_neg h1]
        by_cases h3 : id = i
        · subst h3
          have h2 : id ≤ id ∧ id < id + (n + 1) := by omega
          have h4 : id < arr.length := by omega
          rw [if_pos rfl, if_pos h4, if_pos h2]
        · have h2 : ¬(id ≤ i ∧ i < id + (n + 1)) := by omega
          rw [if_neg h3, if_neg h2]

/-- When every vertex has a tension, `updateTension` returns them in vertex order, one
entry per vertex of the neutral mesh, whatever `tensionArray` held before. -/
theorem updateTension_eq_map (L : Libm K) (tensionArray : List (Dbl K))
    (neutral deformed : Mesh K) (f : Nat → Dbl K)
    (hf : ∀ i, i < neutral.length → vertexTension L neutral deformed i = some (f i)) :
    updateTension L tensionArray neutral deformed =
      some ((List.range neutral.length).map f) := by
  obtain ⟨res, hres, hlen, hget⟩ := vertexLoop_spec L neutral deformed f neutral.length 0
    (setLength tensionArray neutral.length) (by rw [setLength_length]; omega)
    (fun i _ h => hf i (by omega))
  rw [setLength_length] at hlen
  unfold updateTension
  rw [hres]
  congr 1
  apply List.ext_getElem?
  intro i
  rw [hget i]
  by_cases h : i < neutral.length
  · have h2 : 0 ≤ i ∧ i < 0 + neutral.length := by omega
    rw [if_pos h2, List.getElem?_map, List.getElem?_range h, Option.map_some']
  · have h2 : ¬(0 ≤ i ∧ i < 0 + neutral.length) := by omega
    rw [if_neg h2, List.getElem?_eq_none (by rw [setLength_length]; omega),
      List.getElem?_eq_none (by simp; omega)]

/-- The edge loop when every edge ratio is the finite value `r`: the product grows by
`r` per edge. -/
theorem edgeLoop_const (L : Libm K) (neutral deformed : Mesh K) (id : Nat) (r : K)
    (v v2 : MeshVertex K) (hv : neutral[id]? = some v) (hv2 : deformed[id]? = some v2) :
    ∀ (cs : List Nat) (d : K),
      (∀ c, c ∈ cs → ∃ w w2, neutral[c]? = some w ∧ deformed[c]? = some w2 ∧
        (w.position.sub v.position).length L ≠ 0 ∧
        (w2.position.sub v2.position).length L =
          r * (w.position.sub v.position).length L) →
      edgeLoop L neutral deformed id cs (Dbl.fin d) = some (Dbl.fin (d * r ^ cs.length)) := by
  intro cs
  induction cs with
  | nil => intro d _; simp [edgeLoop]
  | cons c rest ih =>
    intro d h
    obtain ⟨w, w2, hw, hw2, hne, hlen⟩ := h c (List.mem_cons_self _ _)
    have hrest := ih (d * r) (fun c2 hc2 => h c2 (List.mem_cons_of_mem _ hc2))
    simp only [edgeLoop, hv, hv2, hw, hw2, Option.map_some', Option.bind_eq_bind,
      Option.some_bind]
    rw [hlen, Dbl.fin_div_fin _ _ hne, mul_div_assoc, div_self hne, mul_one, Dbl.fin_mul_fin,
      hrest, List.length_cons, pow_succ]
    congr 2
    ring


/-! ## `tensionNode`: rest pose and uniform scale -/

theorem realLibm_powOne : realLibm.PowOne := by
  intro y
  show realPow (Dbl.fin 1) y = Dbl.fin 1
  simp [realPow]

theorem realLibm_sqrtExact : realLibm.SqrtExact :=
  fun x hx => ⟨Real.sqrt_nonneg x, Real.mul_self_sqrt hx⟩

theorem realLibm_atan2Range : realLibm.Atan2Range :=
  ⟨Real.pi_pos, fun _ _ => ⟨Complex.neg_pi_lt_arg _, Complex.arg_le_pi _⟩,
    fun r h1 h2 => by
      change -(2 * Real.pi) < r at h1
      show 0 ≤ r + Real.pi * 2 ∧ r + Real.pi * 2 < 2 * Real.pi
      constructor <;> linarith⟩

/-- A library whose sum stays below `2 pi` is one whose sum stays in `[0, 2 pi]`. -/
theorem atan2Closed_of_range (L : Libm K) (hL : L.Atan2Range) : L.Atan2Closed :=
  ⟨hL.1, hL.2.1, fun r h1 h2 => ⟨(hL.2.2 r h1 h2).1, (hL.2.2 r h1 h2).2.le⟩⟩

theorem realLibm_atan2Closed : realLibm.Atan2Closed :=
  atan2Closed_of_range realLibm realLibm_atan2Range

theorem realLibm_powRoot : realLibm.PowRoot := by
  intro x n hx hn
  have hn0 : n ≠ 0 := Nat.pos_iff_ne_zero.mp hn
  have hpos : 0 < x ^ n := pow_pos hx n
  have hn1 : (1 / (n : ℝ)) ≠ 0 := by
    have : (0 : ℝ) < n := Nat.cast_pos.mpr hn
    positivity
  show realPow (Dbl.fin (x ^ n)) (Dbl.fin (1 / (n : ℝ))) = Dbl.fin x
  unfold realPow
  by_cases h1 : x ^ n = 1
  · have hx1 : x = 1 := (pow_eq_one_iff_of_nonneg hx.le hn0).mp h1
    simp [h1, hx1]
  · have hroot : (x ^ n) ^ (1 / (n : ℝ)) = x := by
      rw [one_div]; exact Real.pow_rpow_inv_natCast hx.le hn0
    have hc : ¬(Dbl.fin (x ^ n) = Dbl.fin 1 ∨ Dbl.fin (1 / (n : ℝ)) = Dbl.fin 0) := by
      intro h
      rcases h with h | h
      · exact h1 (Dbl.fin.inj h)
      · exact hn1 (Dbl.fin.inj h)
    rw [if_neg hc]
    simp only [hpos, if_true, hroot]

/-- The exact square root commutes with a non-negative scale factor. -/
theorem sqrt_scale (L : Libm K) (hsqrt : L.SqrtExact) (s q : K) (hs : 0 ≤ s) (hq : 0 ≤ q) :
    L.sqrt (s * s * q) = s * L.sqrt q := by
  have h1 := hsqrt (s * s * q) (mul_nonneg (mul_nonneg hs hs) hq)
  have h2 := hsqrt q hq
  have h3 : 0 ≤ s * L.sqrt q := mul_nonneg hs h2.1
  have h4 : L.sqrt (s * s * q) * L.sqrt (s * s * q) = (s * L.sqrt q) * (s * L.sqrt q) := by
    rw [h1.2]
    calc s * s * q = s * s * (L.sqrt q * L.sqrt q) := by rw [h2.2]
      _ = (s * L.sqrt q) * (s * L.sqrt q) := by ring
  exact (mul_self_inj h1.1 h3).mp h4

/-- The tension of a vertex whose edges are all stretched by the same finite factor
`r > 0`, through a library that returns the exact root. -/
theorem vertexTension_const (L : Libm K) (neutral deformed : Mesh K) (id : Nat) (r : K)
    (v v2 : MeshVertex K) (hv : neutral[id]? = some v) (hv2 : deformed[id]? = some v2)
    (h : ∀ c, c ∈ v.connectedVertices → ∃ w w2, neutral[c]? = some w ∧
        deformed[c]? = some w2 ∧ (w.position.sub v.position).length L ≠ 0 ∧
        (w2.position.sub v2.position).length L = r * (w.position.sub v.position).length L)
    (hpow : L.pow (Dbl.fin (r ^ v.connectedVertices.length))
        (Dbl.fin 1 / Dbl.fin (v.connectedVertices.length : K)) = Dbl.fin r) :
    vertexTension L neutral deformed id =
      some (Dbl.fin (if 1 < r then 1 - 1 / r else r - 1)) := by
  have hloop := edgeLoop_const L neutral deformed id r v v2 hv hv2 v.connectedVertices 1 h
  rw [one_mul] at hloop
  simp only [vertexTension, vertexDelta, hv, hloop, Option.bind_eq_bind, Option.some_bind,
    Option.map_some', hpow, tensionValue_fin]

/-- C5. For every mesh whose edges all have non-zero length (and a `pow` with
`pow(1, y) = 1`), `updateTension` with the mesh as both neutral and deformed mesh stores
exactly `0` at every vertex: the new `tensionArray` has one entry `0` per vertex. -/
theorem tension_at_rest (L : Libm K) (hpow : L.PowOne) (tensionArray : List (Dbl K))
    (M : Mesh K) (hM : EdgesNonZero L M) :
    updateTension L tensionArray M M = some (List.replicate M.length (Dbl.fin 0)) := by
  rw [updateTension_eq_map L tensionArray M M (fun _ => Dbl.fin 0), List.map_const',
    List.length_range]
  intro i hi
  obtain ⟨v, hv⟩ : ∃ v, M[i]? = some v := ⟨M[i], List.getElem?_eq_getElem hi⟩
  have h := vertexTension_const L M M i 1 v v hv hv
    (fun c hc => by
      obtain ⟨w, hw, hne⟩ := hM i c v hv hc
      exact ⟨w, w, hw, hw, hne, (one_mul _).symm⟩)
    (by rw [one_pow]; exact hpow _)
  rw [h]
  simp

/-- C6. For every neutral mesh with non-zero edge lengths in which every vertex has at
least one neighbour, and the deformed mesh equal to the neutral mesh with every position
multiplied by `s > 0` (exact `sqrt`, exact roots in `pow`), `updateTension` stores at
every vertex `1 - 1/s` when `s > 1` and `s - 1` otherwise (so `s - 1` when `s < 1`). -/
theorem tension_uniform_scale (L : Libm K) (hsqrt : L.SqrtExact) (hpow : L.PowRoot)
    (tensionArray : List (Dbl K)) (M : Mesh K) (s : K) (hs : 0 < s)
    (hM : EdgesNonZero L M) (hdeg : ∀ v, v ∈ M → v.connectedVertices ≠ []) :
    updateTension L tensionArray M (scaleMesh s M) =
      some (List.replicate M.length (Dbl.fin (if 1 < s then 1 - 1 / s else s - 1))) := by
  rw [updateTension_eq_map L tensionArray M (scaleMesh s M)
    (fun _ => Dbl.fin (if 1 < s then 1 - 1 / s else s - 1)), List.map_const',
    List.length_range]
  intro i hi
  obtain ⟨v, hv⟩ : ∃ v, M[i]? = some v := ⟨M[i], List.getElem?_eq_getElem hi⟩
  have hscaled : ∀ (j : Nat) (w : MeshVertex K), M[j]? = some w →
      (scaleMesh s M)[j]? = some { w with position :=
        ⟨s * w.position.x, s * w.position.y, s * w.position.z⟩ } := by
    intro j w hw
    simp [scaleMesh, List.getElem?_map, hw]
  have hdegv : 0 < v.connectedVertices.length :=
    List.length_pos.mpr (hdeg v (List.getElem?_mem hv))
  have hexp : (Dbl.fin 1 / Dbl.fin (v.connectedVertices.length : K) : Dbl K) =
      Dbl.fin (1 / (v.connectedVertices.length : K)) :=
    Dbl.fin_div_fin _ _ (Nat.cast_ne_zero.mpr (Nat.pos_iff_ne_zero.mp hdegv))
  exact vertexTension_const L M (scaleMesh s M) i s v _ hv (hscaled i v hv)
    (fun c hc => by
      obtain ⟨w, hw, hne⟩ := hM i c v hv hc
      refine ⟨w, _, hw, hscaled c w hw, hne, ?_⟩
      simp only [MPoint.sub, MVector.length]
      have hq : 0 ≤ (w.position.x - v.position.x) * (w.position.x - v.position.x) +
          (w.position.y - v.position.y) * (w.position.y - v.position.y) +
          (w.position.z - v.position.z) * (w.position.z - v.position.z) :=
        add_nonneg (add_nonneg (mul_self_nonneg _) (mul_self_nonneg _)) (mul_self_nonneg _)
      rw [← sqrt_scale L hsqrt s _ hs.le hq]
      congr 1
      ring)
    (by rw [hexp]; exact hpow s _ hs hdegv)


/-! ## `AngleSliceSolver`: the bracket search -/

/-- Exact hit: the loop returns at the first index whose split angle equals the current
angle, with both indices set to it. -/
theorem blendLoop_hit (t : K) :
    ∀ (l : List K) (k idx : Nat) (fa ca : K) (fi ci : Int),
      l[k]? = some t → (∀ j, j < k → l[j]? ≠ some t) →
      blendLoop t l idx fa ca fi ci = (((idx + k : Nat) : Int), ((idx + k : Nat) : Int)) := by
  intro l
  induction l with
  | nil => intro k idx fa ca fi ci hk _; simp at hk
  | cons a rest ih =>
    intro k idx fa ca fi ci hk hfirst
    cases k with
    | zero =>
      have ha : a = t := by simpa using hk
      simp [blendLoop, ha]
    | succ k =>
      have ha : a ≠ t := by
        have := hfirst 0 (Nat.succ_pos k)
        simpa using this
      have hk2 : rest[k]? = some t := by simpa using hk
      have hfirst2 : ∀ j, j < k → rest[j]? ≠ some t := by
        intro j hj
        have := hfirst (j + 1) (Nat.succ_lt_succ hj)
        simpa using this
      have e : idx + 1 + k = idx + (k + 1) := by omega
      unfold blendLoop
      rw [if_neg ha]
      split_ifs
      · have := ih k (idx + 1) fa a fi idx hk2 hfirst2
        rw [e] at this; exact this
      · have := ih k (idx + 1) a ca idx ci hk2 hfirst2
        rw [e] at this; exact this
      · have := ih k (idx + 1) fa ca fi ci hk2 hfirst2
        rw [e] at this; exact this

/-- No hit, floor side: the floor index is left alone when no remaining angle improves on
`fa`, otherwise it is the index of the largest remaining angle below the current angle. -/
theorem blendLoop_floor (t : K) :
    ∀ (l : List K) (idx : Nat) (fa ca : K) (fi ci : Int), (∀ a, a ∈ l → a ≠ t) →
      ((blendLoop t l idx fa ca fi ci).1 = fi ∧ ∀ b, b ∈ l → b < t → b ≤ fa) ∨
      ∃ (k : Nat) (a : K), (blendLoop t l idx fa ca fi ci).1 = ((idx + k : Nat) : Int) ∧
        l[k]? = some a ∧ a < t ∧ fa < a ∧ ∀ b, b ∈ l → b < t → b ≤ a := by
  intro l
  induction l with
  | nil =>
    intro idx fa ca fi ci _
    left
    exact ⟨rfl, fun b hb => absurd hb (List.not_mem_nil b)⟩
  | cons a rest ih =>
    intro idx fa ca fi ci hne
    have ha : a ≠ t := hne a (List.mem_cons_self _ _)
    have hrest : ∀ b, b ∈ rest → b ≠ t := fun b hb => hne b (List.mem_cons_of_mem _ hb)
    have shift : ∀ k : Nat, ((idx + 1 + k : Nat) : Int) = ((idx + (k + 1) : Nat) : Int) := by
      intro k; congr 1; omega
    unfold blendLoop
    rw [if_neg ha]
    split_ifs with h1 h2
    · -- the ceil side is updated, the floor side is untouched
      rcases ih (idx + 1) fa a fi idx hrest with ⟨hfi, hmax⟩ | ⟨k, a2, hk, hget, hlt, hgt, hmax⟩
      · left
        refine ⟨hfi, ?_⟩
        intro b hb hbt
        rcases List.mem_cons.mp hb with rfl | hb
        · exact absurd hbt (not_lt.mpr h1.1.le)
        · exact hmax b hb hbt
      · right
        refine ⟨k + 1, a2, by rw [hk, shift], by simpa using hget, hlt, hgt, ?_⟩
        intro b hb hbt
        rcases List.mem_cons.mp hb with rfl | hb
        · exact absurd hbt (not_lt.mpr h1.1.le)
        · exact hmax b hb hbt
    · -- the floor side is updated to `a` at `idx`
      rcases ih (idx + 1) a ca idx ci hrest with ⟨hfi, hmax⟩ | ⟨k, a2, hk, hget, hlt, hgt, hmax⟩
      · right
        refine ⟨0, a, by rw [hfi]; rfl, by simp, h2.1, h2.2, ?_⟩
        intro b hb hbt
        rcases List.mem_cons.mp hb with rfl | hb
        · exact le_refl _
        · exact hmax b hb hbt
      · right
        refine ⟨k + 1, a2, by rw [hk, shift], by simpa using hget, hlt, lt_trans h2.2 hgt, ?_⟩
        intro b hb hbt
        rcases List.mem_cons.mp hb with rfl | hb
        · exact hgt.le
        · exact hmax b hb hbt
    · -- nothing is updated
      have hskip : a < t → a ≤ fa := by
        intro hat
        by_contra hcon
        exact h2 ⟨hat, not_le.mp hcon⟩
      rcases ih (idx + 1) fa ca fi ci hrest with ⟨hfi, hmax⟩ | ⟨k, a2, hk, hget, hlt, hgt, hmax⟩
      · left
        refine ⟨hfi, ?_⟩
        intro b hb hbt
        rcases List.mem_cons.mp hb with rfl | hb
        · exact hskip hbt
        · exact hmax b hb hbt
      · right
        refine ⟨k + 1, a2, by rw [hk, shift], by simpa using hget, hlt, hgt, ?_⟩
        intro b hb hbt
        rcases List.mem_cons.mp hb with rfl | hb
        · exact le_trans (hskip hbt) hgt.le
        · exact hmax b hb hbt

/-- No hit, ceil side: the ceil index is left alone when no remaining angle improves on
`ca`, otherwise it is the index of the smallest remaining angle above the current angle. -/
theorem blendLoop_ceil (t : K) :
    ∀ (l : List K) (idx : Nat) (fa ca : K) (fi ci : Int), (∀ a, a ∈ l → a ≠ t) →
      ((blendLoop t l idx fa ca fi ci).2 = ci ∧ ∀ b, b ∈ l → t < b → ca ≤ b) ∨
      ∃ (k : Nat) (a : K), (blendLoop t l idx fa ca fi ci).2 = ((idx + k : Nat) : Int) ∧
        l[k]? = some a ∧ t < a ∧ a < ca ∧ ∀ b, b ∈ l → t < b → a ≤ b := by
  intro l
  induction l with
  | nil =>
    intro idx fa ca fi ci _
    left
    exact ⟨rfl, fun b hb => absurd hb (List.not_mem_nil b)⟩
  | cons a rest ih =>
    intro idx fa ca fi ci hne
    have ha : a ≠ t := hne a (List.mem_cons_self _ _)
    have hrest : ∀ b, b ∈ rest → b ≠ t := fun b hb => hne b (List.mem_cons_of_mem _ hb)
    have shift : ∀ k : Nat, ((idx + 1 + k : Nat) : Int) = ((idx + (k + 1) : Nat) : Int) := by
      intro k; congr 1; omega
    unfold blendLoop
    rw [if_neg ha]
    split_ifs with h1 h2
    · -- the ceil side is updated to `a` at `idx`
      rcases ih (idx + 1) fa a fi idx hrest with ⟨hci, hmin⟩ | ⟨k, a2, hk, hget, hgt, hlt, hmin⟩
      · right
        refine ⟨0, a, by rw [hci]; rfl, by simp, h1.1, h1.2, ?_⟩
        intro b hb hbt
        rcases List.mem_cons.mp hb with rfl | hb
        · exact le_refl _
        · exact hmin b hb hbt
      · right
        refine ⟨k + 1, a2, by rw [hk, shift], by simpa using hget, hgt, lt_trans hlt h1.2, ?_⟩
        intro b hb hbt
        rcases List.mem_cons.mp hb with rfl | hb
        · exact hlt.le
        · exact hmin b hb hbt
    · -- the floor side is updated, the ceil side is untouched
      rcases ih (idx + 1) a ca idx ci hrest with ⟨hci, hmin⟩ | ⟨k, a2, hk, hget, hgt, hlt, hmin⟩
      · left
        refine ⟨hci, ?_⟩
        intro b hb hbt
        rcases List.mem_cons.mp hb with rfl | hb
        · exact absurd hbt (not_lt.mpr h2.1.le)
        · exact hmin b hb hbt
      · right
        refine ⟨k + 1, a2, by rw [hk, shift], by simpa using hget, hgt, hlt, ?_⟩
        intro b hb hbt
        rcases List.mem_cons.mp hb with rfl | hb
        · exact absurd hbt (not_lt.mpr h2.1.le)
        · exact hmin b hb hbt
    · -- nothing is updated
      have hskip : t < a → ca ≤ a := by
        intro hat
        by_contra hcon
        exact h1 ⟨hat, not_le.mp hcon⟩
      rcases ih (idx + 1) fa ca fi ci hrest with ⟨hci, hmin⟩ | ⟨k, a2, hk, hget, hgt, hlt, hmin⟩
      · left
        refine ⟨hci, ?_⟩
        intro b hb hbt
        rcases List.mem_cons.mp hb with rfl | hb
        · exact hskip hbt
        · exact hmin b hb hbt
      · right
        refine ⟨k + 1, a2, by rw [hk, shift], by simpa using hget, hgt, hlt, ?_⟩
        intro b hb hbt
        rcases List.mem_cons.mp hb with rfl | hb
        · exact le_trans hlt.le (hskip hbt)
        · exact hmin b hb hbt


/-! ## `AngleSliceSolver`: the state built by `updateAttributes` -/

/-- With `atan2` in `(-pi, pi]` and a sum that is not rounded up to `2 pi`,
`computeRadians` returns an angle in `[0, 2 pi)`. -/
theorem computeRadians_range (L : Libm K) (hL : L.Atan2Range) (startDir dir : MVector K) :
    0 ≤ computeRadians L startDir dir ∧ computeRadians L startDir dir < 2 * L.pi := by
  obtain ⟨hpi, hr, hw⟩ := hL
  have h1 := hr dir.y dir.x
  have h2 := hr startDir.y startDir.x
  unfold computeRadians
  simp only
  split_ifs with h
  · exact hw _ (by linarith [h1.1, h2.2]) h
  · constructor
    · exact not_lt.mp h
    · linarith [h1.1, h1.2, h2.1, h2.2]

/-- With `atan2` in `(-pi, pi]` and a sum in `[0, 2 pi]`, `computeRadians` returns an angle
in `[0, 2 pi]`. -/
theorem computeRadians_closed (L : Libm K) (hL : L.Atan2Closed) (startDir dir : MVector K) :
    0 ≤ computeRadians L startDir dir ∧ computeRadians L startDir dir ≤ 2 * L.pi := by
  obtain ⟨hpi, hr, hw⟩ := hL
  have h1 := hr dir.y dir.x
  have h2 := hr startDir.y startDir.x
  unfold computeRadians
  simp only
  split_ifs with h
  · exact hw _ (by linarith [h1.1, h2.2]) h
  · constructor
    · exact not_lt.mp h
    · linarith [h1.1, h1.2, h2.1, h2.2]

/-- What `updateAttributes` establishes whatever the library returns: the sizes of the
sample arrays, the first and the closing sample angle, and the indices left by
`updateBlendIndices`. -/
theorem updateAttributes_shape (L : Libm K) (inputList : List (ControlPoint K)) (x y : K)
    (s : AngleSliceSolver K) (hs : updateAttributes L inputList x y = some s) :
    1 ≤ inputList.length ∧ s.elementNum = (inputList.length : Int) ∧
      s.splitAngles.length = inputList.length + 1 ∧
      s.splitMagnitudes.length = inputList.length + 1 ∧
      s.splitAngles[0]? = some 0 ∧ s.splitAngles[inputList.length]? = some (2 * L.pi) ∧
      blendLoop s.currentAngle s.splitAngles 0 (-L.pi) (3 * L.pi) (-1) (-1) =
        (s.floorIndex, s.ceilIndex) := by
  cases inputList with
  | nil => simp [updateAttributes] at hs
  | cons first rest =>
    simp only [updateAttributes, Option.some.injEq] at hs
    subst hs
    refine ⟨by simp, by simp [updateBlendIndices], by simp [updateBlendIndices],
      by simp [updateBlendIndices], by simp [updateBlendIndices], ?_, ?_⟩
    · simp only [updateBlendIndices, List.length_cons]
      rw [List.getElem?_append_right (by simp)]
      simp
    · simp [updateBlendIndices]

/-- The state returned by `updateAttributes` on a control set. -/
theorem updateAttributes_state (L : Libm K) (hL : L.Atan2Range)
    (inputList : List (ControlPoint K)) (x y : K) (s : AngleSliceSolver K)
    (hs : updateAttributes L inputList x y = some s) :
    SolverState L inputList.length s := by
  cases inputList with
  | nil => simp [updateAttributes] at hs
  | cons first rest =>
    simp only [updateAttributes, Option.some.injEq] at hs
    subst hs
    have hrange := computeRadians_range L hL first.dir ⟨x, y, 0⟩
    refine ⟨by simp, by simp [updateBlendIndices], by simp [updateBlendIndices],
      by simp [updateBlendIndices], by simp [updateBlendIndices], ?_, ?_, ?_, hL.1, ?_⟩
    · simp only [updateBlendIndices, List.length_cons]
      rw [List.getElem?_append_right (by simp)]
      simp
    · simpa [updateBlendIndices] using hrange.1
    · simpa [updateBlendIndices] using hrange.2
    · simp [updateBlendIndices]

/-- A list either contains `t`, at a first index, or does not contain it. -/
theorem first_index_or_absent (t : K) (l : List K) :
    (∃ k : Nat, l[k]? = some t ∧ ∀ j : Nat, j < k → l[j]? ≠ some t) ∨ ∀ a, a ∈ l → a ≠ t := by
  induction l with
  | nil => right; intro a ha; exact absurd ha (List.not_mem_nil a)
  | cons a rest ih =>
    by_cases ha : a = t
    · left
      exact ⟨0, by simp [ha], fun j hj => absurd hj (Nat.not_lt_zero j)⟩
    · rcases ih with ⟨k, hk, hfirst⟩ | habs
      · left
        refine ⟨k + 1, by simpa using hk, ?_⟩
        intro j hj
        cases j with
        | zero => simpa using ha
        | succ j => simpa using hfirst j (Nat.lt_of_succ_lt_succ hj)
      · right
        intro b hb
        rcases List.mem_cons.mp hb with rfl | hb
        · exact ha
        · exact habs b hb

/-- Exact hit on a solver state: both indices are the first index `k` holding the current
angle, and `k` is the index of a control point (not of the closing sample). -/
theorem bracket_hit (L : Libm K) (N : Nat) (s : AngleSliceSolver K) (hs : SolverState L N s)
    (k : Nat) (hk : s.splitAngles[k]? = some s.currentAngle)
    (hfirst : ∀ j, j < k → s.splitAngles[j]? ≠ some s.currentAngle) :
    s.floorIndex = (k : Int) ∧ s.ceilIndex = (k : Int) ∧ k < N := by
  have h := blendLoop_hit s.currentAngle s.splitAngles k 0 (-L.pi) (3 * L.pi) (-1) (-1)
    hk hfirst
  rw [hs.indices, Nat.zero_add] at h
  have hf : s.floorIndex = (k : Int) := congrArg Prod.fst h
  have hc : s.ceilIndex = (k : Int) := congrArg Prod.snd h
  refine ⟨hf, hc, ?_⟩
  have hklt : k < N + 1 := by
    rcases Nat.lt_or_ge k (N + 1) with h1 | h1
    · exact h1
    · rw [List.getElem?_eq_none (by rw [hs.angles_length]; exact h1)] at hk; cases hk
  rcases Nat.lt_or_ge k N with h1 | h1
  · exact h1
  · have hkN : k = N := by omega
    rw [hkN, hs.last] at hk
    have := hs.cur_lt
    rw [← Option.some.inj hk] at this
    exact absurd this (lt_irrefl _)

/-- No hit on a solver state: the floor index is below `N`, the ceil index is in `1..N`,
the two sample angles strictly bracket the current angle, and no sample angle lies strictly
inside the bracket. -/
theorem bracket_nohit (L : Libm K) (N : Nat) (s : AngleSliceSolver K) (hs : SolverState L N s)
    (hno : ∀ a, a ∈ s.splitAngles → a ≠ s.currentAngle) :
    ∃ (f c : Nat) (af ac : K), s.floorIndex = (f : Int) ∧ s.ceilIndex = (c : Int) ∧
      f < N ∧ 1 ≤ c ∧ c ≤ N ∧ f ≠ c ∧
      s.splitAngles[f]? = some af ∧ s.splitAngles[c]? = some ac ∧
      af < s.currentAngle ∧ s.currentAngle < ac ∧
      (∀ b, b ∈ s.splitAngles → b < s.currentAngle → b ≤ af) ∧
      (∀ b, b ∈ s.splitAngles → s.currentAngle < b → ac ≤ b) := by
  have hpi := hs.pi_pos
  have h0mem : (0 : K) ∈ s.splitAngles := List.getElem?_mem hs.first
  have hlastmem : 2 * L.pi ∈ s.splitAngles := List.getElem?_mem hs.last
  have ht0 : 0 < s.currentAngle :=
    lt_of_le_of_ne hs.cur_nonneg (fun h => hno 0 h0mem h)
  have hfloor := blendLoop_floor s.currentAngle s.splitAngles 0 (-L.pi) (3 * L.pi) (-1) (-1) hno
  have hceil := blendLoop_ceil s.currentAngle s.splitAngles 0 (-L.pi) (3 * L.pi) (-1) (-1) hno
  rw [hs.indices] at hfloor hceil
  rcases hfloor with ⟨_, hmax⟩ | ⟨f, af, hf, hfget, hflt, _, hfmax⟩
  · have := hmax 0 h0mem ht0
    linarith
  rcases hceil with ⟨_, hmin⟩ | ⟨c, ac, hc, hcget, hcgt, _, hcmin⟩
  · have := hmin (2 * L.pi) hlastmem hs.cur_lt
    linarith
  rw [Nat.zero_add] at hf hc
  have hf : s.floorIndex = (f : Int) := hf
  have hc : s.ceilIndex = (c : Int) := hc
  have inRange : ∀ (i : Nat) (a : K), s.splitAngles[i]? = some a → i < N + 1 := by
    intro i a hi
    rcases Nat.lt_or_ge i (N + 1) with h1 | h1
    · exact h1
    · rw [List.getElem?_eq_none (by rw [hs.angles_length]; exact h1)] at hi; cases hi
  have hfN : f ≠ N := by
    intro h
    rw [h, hs.last] at hfget
    rw [← Option.some.inj hfget] at hflt
    exact absurd hflt (not_lt.mpr hs.cur_lt.le)
  have hc0 : c ≠ 0 := by
    intro h
    rw [h, hs.first] at hcget
    rw [← Option.some.inj hcget] at hcgt
    exact absurd hcgt (not_lt.mpr ht0.le)
  have hfc : f ≠ c := by
    intro h
    rw [h, hcget] at hfget
    rw [Option.some.inj hfget] at hcgt
    exact absurd hcgt (not_lt.mpr hflt.le)
  have h1 := inRange f af hfget
  have h2 := inRange c ac hcget
  exact ⟨f, c, af, ac, hf, hc, by omega, by omega, by omega, hfc, hfget, hcget, hflt, hcgt,
    hfmax, hcmin⟩


/-! ## `AngleSliceSolver`: the output array -/

theorem zeroFill_apply (out : OutArray K) (n i : Nat) :
    zeroFill out n i = if i < n then some (Dbl.fin 0) else out i := by
  induction n with
  | zero => simp [zeroFill]
  | succ n ih =>
    simp only [zeroFill, Function.update_apply, ih]
    by_cases h1 : i = n
    · have h2 : i < n + 1 := by omega
      rw [if_pos h1, if_pos h2]
    · rw [if_neg h1]
      by_cases h2 : i < n
      · have h3 : i < n + 1 := by omega
        rw [if_pos h2, if_pos h3]
      · have h3 : ¬(i < n + 1) := by omega
        rw [if_neg h2, if_neg h3]

theorem setAt_nat (out : OutArray K) (k : Nat) (v : Dbl K) (h : (out k).isSome = true) :
    out.setAt (k : Int) v = some (Function.update out k (some v)) := by
  simp [OutArray.setAt, h]

theorem readAt_nat (arr : List K) (k : Nat) : readAt arr (k : Int) = arr[k]? := by
  simp [readAt]

/-- An index below the length of a list holds an element. -/
theorem getElem?_of_lt (arr : List K) (k : Nat) (h : k < arr.length) :
    ∃ a, arr[k]? = some a :=
  ⟨arr[k], List.getElem?_eq_getElem h⟩

/-- With both bracket indices inside the sample arrays, the pair of blend values is
computed (possibly as special values). -/
theorem bracketValues_isSome (s : AngleSliceSolver K) (clamp : Bool) (f c : Nat)
    (hf : s.floorIndex = (f : Int)) (hc : s.ceilIndex = (c : Int))
    (hfa : f < s.splitAngles.length) (hca : c < s.splitAngles.length)
    (hfm : f < s.splitMagnitudes.length) (hcm : c < s.splitMagnitudes.length) :
    ∃ fv cv, bracketValues s clamp = some (fv, cv) := by
  obtain ⟨af, haf⟩ := getElem?_of_lt _ f hfa
  obtain ⟨ac, hac⟩ := getElem?_of_lt _ c hca
  obtain ⟨mf, hmf⟩ := getElem?_of_lt _ f hfm
  obtain ⟨mc, hmc⟩ := getElem?_of_lt _ c hcm
  simp only [bracketValues, blendRatio, hf, hc, readAt_nat, haf, hac, hmf, hmc,
    Option.bind_eq_bind, Option.some_bind]
  split_ifs <;> exact ⟨_, _, rfl⟩

/-- The result of `compute` on an exact hit at sample index `k`: the zero-filled array
with the single value `currentMagnitude / splitMagnitudes[k]` at `k`. -/
theorem compute_hit_of_state (L : Libm K) (out : OutArray K)
    (inputList : List (ControlPoint K)) (x y : K) (clamp : Bool) (s : AngleSliceSolver K)
    (hs : updateAttributes L inputList x y = some s)
    (hst : SolverState L inputList.length s)
    (k : Nat) (hk : s.splitAngles[k]? = some s.currentAngle)
    (hfirst : ∀ j, j < k → s.splitAngles[j]? ≠ some s.currentAngle) :
    ∃ m, s.splitMagnitudes[k]? = some m ∧ k < inputList.length ∧
      compute L out inputList x y clamp =
        some (s, Function.update (zeroFill out inputList.length) k
          (some (Dbl.fin s.currentMagnitude / Dbl.fin m))) := by
  obtain ⟨hf, hc, hkN⟩ := bracket_hit L inputList.length s hst k hk hfirst
  obtain ⟨m, hm⟩ := getElem?_of_lt s.splitMagnitudes k (by rw [hst.mags_length]; omega)
  refine ⟨m, hm, hkN, ?_⟩
  have hsome : (zeroFill out inputList.length k).isSome = true := by
    rw [zeroFill_apply, if_pos hkN]; rfl
  have hfc : s.floorIndex = s.ceilIndex := by rw [hf, hc]
  simp only [compute, hs, Option.bind_eq_bind, Option.some_bind, computeOutputValues,
    if_pos hfc, hst.elementNum, Int.toNat_ofNat]
  rw [hf, readAt_nat, hm]
  simp only [Option.some_bind]
  rw [setAt_nat _ _ _ hsome]
  rfl

/-- The result of `compute` when no sample angle equals the current angle: the
zero-filled array with the floor value written at the floor index and then the ceil value
written at the ceil index, or at `0` when the ceil sample is the closing one. -/
theorem compute_nohit_of_state (L : Libm K) (out : OutArray K)
    (inputList : List (ControlPoint K)) (x y : K) (clamp : Bool) (s : AngleSliceSolver K)
    (hs : updateAttributes L inputList x y = some s)
    (hst : SolverState L inputList.length s)
    (hno : ∀ a, a ∈ s.splitAngles → a ≠ s.currentAngle) :
    ∃ (f c : Nat) (fv cv : Dbl K), s.floorIndex = (f : Int) ∧ s.ceilIndex = (c : Int) ∧
      f < inputList.length ∧ 1 ≤ c ∧ c ≤ inputList.length ∧ f ≠ c ∧
      bracketValues s clamp = some (fv, cv) ∧
      compute L out inputList x y clamp =
        some (s, Function.update
          (Function.update (zeroFill out inputList.length) f (some fv))
          (if c = inputList.length then 0 else c) (some cv)) := by
  obtain ⟨f, c, af, ac, hf, hc, hfN, hc1, hcN, hfc, _, _, _, _, _, _⟩ :=
    bracket_nohit L inputList.length s hst hno
  obtain ⟨fv, cv, hb⟩ := bracketValues_isSome s clamp f c hf hc
    (by rw [hst.angles_length]; omega) (by rw [hst.angles_length]; omega)
    (by rw [hst.mags_length]; omega) (by rw [hst.mags_length]; omega)
  refine ⟨f, c, fv, cv, hf, hc, hfN, hc1, hcN, hfc, hb, ?_⟩
  have hne : s.floorIndex ≠ s.ceilIndex := by
    rw [hf, hc]; intro h; exact hfc (Int.ofNat.inj h)
  have hsome1 : (zeroFill out inputList.length f).isSome = true := by
    rw [zeroFill_apply, if_pos hfN]; rfl
  have hsome2 : ∀ i, i < inputList.length →
      (Function.update (zeroFill out inputList.length) f (some fv) i).isSome = true := by
    intro i hi
    rw [Function.update_apply]
    split_ifs
    · rfl
    · rw [zeroFill_apply, if_pos hi]; rfl
  simp only [compute, hs, Option.bind_eq_bind, Option.some_bind, computeOutputValues,
    if_neg hne, hst.elementNum, Int.toNat_ofNat, hb]
  rw [hf, setAt_nat _ _ _ hsome1]
  simp only [Option.some_bind, hc]
  by_cases hcl : c = inputList.length
  · have h0 : 0 < inputList.length := by omega
    have := setAt_nat _ 0 cv (hsome2 0 h0)
    rw [if_pos (by rw [hcl]), if_pos hcl]
    simp only [Nat.cast_zero] at this
    rw [this]
    rfl
  · have hlt : c < inputList.length := by omega
    have hcl2 : ¬((c : Int) = (inputList.length : Int)) := by exact_mod_cast hcl
    rw [if_neg hcl2, if_neg hcl, setAt_nat _ c cv (hsome2 c hlt)]
    rfl


/-- The result of `compute` on an exact hit, for a library whose sum is not rounded up to
`2 pi`. -/
theorem compute_hit (L : Libm K) (hL : L.Atan2Range) (out : OutArray K)
    (inputList : List (ControlPoint K)) (x y : K) (clamp : Bool) (s : AngleSliceSolver K)
    (hs : updateAttributes L inputList x y = some s)
    (k : Nat) (hk : s.splitAngles[k]? = some s.currentAngle)
    (hfirst : ∀ j, j < k → s.splitAngles[j]? ≠ some s.currentAngle) :
    ∃ m, s.splitMagnitudes[k]? = some m ∧ k < inputList.length ∧
      compute L out inputList x y clamp =
        some (s, Function.update (zeroFill out inputList.length) k
          (some (Dbl.fin s.currentMagnitude / Dbl.fin m))) :=
  compute_hit_of_state L out inputList x y clamp s hs
    (updateAttributes_state L hL inputList x y s hs) k hk hfirst

/-- The result of `compute` when no sample angle equals the current angle, for a library
whose sum is not rounded up to `2 pi`. -/
theorem compute_nohit (L : Libm K) (hL : L.Atan2Range) (out : OutArray K)
    (inputList : List (ControlPoint K)) (x y : K) (clamp : Bool) (s : AngleSliceSolver K)
    (hs : updateAttributes L inputList x y = some s)
    (hno : ∀ a, a ∈ s.splitAngles → a ≠ s.currentAngle) :
    ∃ (f c : Nat) (fv cv : Dbl K), s.floorIndex = (f : Int) ∧ s.ceilIndex = (c : Int) ∧
      f < inputList.length ∧ 1 ≤ c ∧ c ≤ inputList.length ∧ f ≠ c ∧
      bracketValues s clamp = some (fv, cv) ∧
      compute L out inputList x y clamp =
        some (s, Function.update
          (Function.update (zeroFill out inputList.length) f (some fv))
          (if c = inputList.length then 0 else c) (some cv)) :=
  compute_nohit_of_state L out inputList x y clamp s hs
    (updateAttributes_state L hL inputList x y s hs) hno

/-! ## `AngleSliceSolver`: exact hit and output shape -/

/-- The length of a vector with a non-zero `x` or `y` component is positive. -/
theorem length_pos_of_ne (L : Libm K) (hsqrt : L.SqrtExact) (v : MVector K)
    (hv : v.x ≠ 0 ∨ v.y ≠ 0) : 0 < v.length L := by
  have hq : 0 < v.x * v.x + v.y * v.y + v.z * v.z := by
    rcases hv with h | h
    · have := mul_self_pos.mpr h
      nlinarith [mul_self_nonneg v.y, mul_self_nonneg v.z]
    · have := mul_self_pos.mpr h
      nlinarith [mul_self_nonneg v.x, mul_self_nonneg v.z]
  obtain ⟨h0, h1⟩ := hsqrt _ hq.le
  unfold MVector.length
  rcases lt_or_eq_of_le h0 with h | h
  · exact h
  · rw [← h] at h1; simp at h1; linarith

/-- With non-zero control positions every sample magnitude is positive. -/
theorem splitMagnitudes_pos (L : Libm K) (hsqrt : L.SqrtExact)
    (inputList : List (ControlPoint K)) (x y : K) (s : AngleSliceSolver K)
    (hpos : ∀ p, p ∈ inputList → p.inputLocationX ≠ 0 ∨ p.inputLocationY ≠ 0)
    (hs : updateAttributes L inputList x y = some s) (i : Nat) (m : K)
    (hm : s.splitMagnitudes[i]? = some m) : 0 < m := by
  cases inputList with
  | nil => simp [updateAttributes] at hs
  | cons first rest =>
    simp only [updateAttributes, Option.some.injEq] at hs
    subst hs
    have hmem := List.getElem?_mem hm
    simp only [updateBlendIndices, List.cons_append, List.mem_cons, List.mem_append,
      List.mem_map, List.mem_singleton, List.not_mem_nil, or_false] at hmem
    have hfirst : 0 < first.dir.length L :=
      length_pos_of_ne L hsqrt first.dir (hpos first (List.mem_cons_self _ _))
    rcases hmem with h | ⟨p, hp, h⟩ | h
    · rw [h]; exact hfirst
    · rw [← h]
      exact length_pos_of_ne L hsqrt p.dir (hpos p (List.mem_cons_of_mem _ hp))
    · rw [h]; exact hfirst

/-- A location that is a positive multiple of a control position has the angle of that
control point (the situation of evenly spaced control points and an aligned location). -/
theorem aligned_angle (L : Libm K) (hscale : L.Atan2Scale) (startDir : MVector K)
    (p : ControlPoint K) (c : K) (hc : 0 < c) :
    computeRadians L startDir ⟨c * p.inputLocationX, c * p.inputLocationY, 0⟩ =
      computeRadians L startDir p.dir := by
  simp only [computeRadians, ControlPoint.dir, hscale c _ _ hc]

/-- The blend ratio on a bracket of non-zero width. -/
theorem blendRatio_eval (s : AngleSliceSolver K) (f c : Nat) (af ac mf mc : K)
    (hb : Bracket s f c af ac mf mc) (hang : ac - af ≠ 0) :
    blendRatio s = some (Dbl.fin (ratioOf s.currentAngle af ac)) := by
  simp only [blendRatio, hb.floorIndex, hb.ceilIndex, readAt_nat, hb.floorAngle, hb.ceilAngle,
    Option.bind_eq_bind, Option.some_bind, Dbl.fin_sub_fin, Dbl.fin_div_fin _ _ hang, ratioOf]

/-- The unclamped pair when no divisor is zero. -/
theorem bracketValues_unclamped (s : AngleSliceSolver K) (f c : Nat) (af ac mf mc : K)
    (hb : Bracket s f c af ac mf mc) (hang : ac - af ≠ 0) (hmf : mf ≠ 0) (hmc : mc ≠ 0)
    (hmag : weightedCeil s.currentMagnitude mc (ratioOf s.currentAngle af ac) +
      weightedFloor s.currentMagnitude mf (ratioOf s.currentAngle af ac) ≠ 0) :
    bracketValues s false =
      some (Dbl.fin (renormFloor s.currentMagnitude mf mc (ratioOf s.currentAngle af ac)),
        Dbl.fin (renormCeil s.currentMagnitude mf mc (ratioOf s.currentAngle af ac))) := by
  have hr := blendRatio_eval s f c af ac mf mc hb hang
  simp only [weightedCeil, weightedFloor] at hmag
  simp only [bracketValues, hr, hb.floorIndex, hb.ceilIndex, readAt_nat, hb.floorMagnitude,
    hb.ceilMagnitude, Option.bind_eq_bind, Option.some_bind, Dbl.fin_sub_fin, Dbl.fin_mul_fin,
    Dbl.fin_add_fin, Dbl.fin_div_fin _ _ hmf, Dbl.fin_div_fin _ _ hmc,
    Dbl.fin_div_fin _ _ hmag, renormFloor, renormCeil, weightedCeil, weightedFloor]
  rfl

/-- The clamped pair when no divisor is zero: both values are multiplied by
`scale = 1 / (ceilValue + floorValue)` when `scale < 1`, and left alone otherwise. -/
theorem bracketValues_clamped (s : AngleSliceSolver K) (f c : Nat) (af ac mf mc : K)
    (hb : Bracket s f c af ac mf mc) (hang : ac - af ≠ 0) (hmf : mf ≠ 0) (hmc : mc ≠ 0)
    (hmag : weightedCeil s.currentMagnitude mc (ratioOf s.currentAngle af ac) +
      weightedFloor s.currentMagnitude mf (ratioOf s.currentAngle af ac) ≠ 0)
    (hsum : renormCeil s.currentMagnitude mf mc (ratioOf s.currentAngle af ac) +
      renormFloor s.currentMagnitude mf mc (ratioOf s.currentAngle af ac) ≠ 0) :
    bracketValues s true =
      if 1 / (renormCeil s.currentMagnitude mf mc (ratioOf s.currentAngle af ac) +
          renormFloor s.currentMagnitude mf mc (ratioOf s.currentAngle af ac)) < 1 then
        some (Dbl.fin (renormFloor s.currentMagnitude mf mc (ratioOf s.currentAngle af ac) *
            (1 / (renormCeil s.currentMagnitude mf mc (ratioOf s.currentAngle af ac) +
              renormFloor s.currentMagnitude mf mc (ratioOf s.currentAngle af ac)))),
          Dbl.fin (renormCeil s.currentMagnitude mf mc (ratioOf s.currentAngle af ac) *
            (1 / (renormCeil s.currentMagnitude mf mc (ratioOf s.currentAngle af ac) +
              renormFloor s.currentMagnitude mf mc (ratioOf s.currentAngle af ac)))))
      else
        some (Dbl.fin (renormFloor s.currentMagnitude mf mc (ratioOf s.currentAngle af ac)),
          Dbl.fin (renormCeil s.currentMagnitude mf mc (ratioOf s.currentAngle af ac))) := by
  have hr := blendRatio_eval s f c af ac mf mc hb hang
  simp only [weightedCeil, weightedFloor] at hmag
  simp only [renormCeil, renormFloor, weightedCeil, weightedFloor] at hsum
  simp only [bracketValues, hr, hb.floorIndex, hb.ceilIndex, readAt_nat, hb.floorMagnitude,
    hb.ceilMagnitude, Option.bind_eq_bind, Option.some_bind, Dbl.fin_sub_fin, Dbl.fin_mul_fin,
    Dbl.fin_add_fin, Dbl.fin_div_fin _ _ hmf, Dbl.fin_div_fin _ _ hmc,
    Dbl.fin_div_fin _ _ hmag, Dbl.fin_div_fin _ _ hsum, renormFloor, renormCeil, weightedCeil,
    weightedFloor, Dbl.lt_fin_fin, if_true, decide_eq_true_eq]

/-- The renormalised pair sums to the current magnitude. -/
theorem renorm_sum (cm mf mc r : K)
    (hmag : weightedCeil cm mc r + weightedFloor cm mf r ≠ 0) :
    renormFloor cm mf mc r + renormCeil cm mf mc r = cm := by
  unfold renormFloor renormCeil
  field_simp
  ring


/-- The bracket of a state built by `updateAttributes` from non-zero control positions when
the current angle is no sample angle: indices in range, angles strictly around the current
angle, positive magnitudes. -/
theorem bracket_of_state (L : Libm K) (hsqrt : L.SqrtExact) (hL : L.Atan2Range)
    (inputList : List (ControlPoint K)) (x y : K) (s : AngleSliceSolver K)
    (hpos : ∀ p, p ∈ inputList → p.inputLocationX ≠ 0 ∨ p.inputLocationY ≠ 0)
    (hs : updateAttributes L inputList x y = some s)
    (hno : ∀ a, a ∈ s.splitAngles → a ≠ s.currentAngle) :
    ∃ (f c : Nat) (af ac mf mc : K), Bracket s f c af ac mf mc ∧
      af < s.currentAngle ∧ s.currentAngle < ac ∧ 0 < mf ∧ 0 < mc := by
  have hst := updateAttributes_state L hL inputList x y s hs
  obtain ⟨f, c, af, ac, hf, hc, hfN, _, hcN, _, haf, hac, hlt, hgt, _, _⟩ :=
    bracket_nohit L inputList.length s hst hno
  obtain ⟨mf, hmf⟩ := getElem?_of_lt s.splitMagnitudes f (by rw [hst.mags_length]; omega)
  obtain ⟨mc, hmc⟩ := getElem?_of_lt s.splitMagnitudes c (by rw [hst.mags_length]; omega)
  exact ⟨f, c, af, ac, mf, mc, ⟨hf, hc, haf, hac, hmf, hmc⟩, hlt, hgt,
    splitMagnitudes_pos L hsqrt inputList x y s hpos hs f mf hmf,
    splitMagnitudes_pos L hsqrt inputList x y s hpos hs c mc hmc⟩

/-- Strictly inside the bracket the ratio is strictly between `0` and `1`. -/
theorem ratioOf_mem (t af ac : K) (h1 : af < t) (h2 : t < ac) :
    0 < ratioOf t af ac ∧ ratioOf t af ac < 1 := by
  have hw : 0 < ac - af := by linarith
  unfold ratioOf
  constructor
  · exact div_pos (by linarith) hw
  · rw [div_lt_one hw]; linarith

/-- With positive magnitudes and a ratio strictly between `0` and `1` both weighted values
are positive. -/
theorem weighted_pos (cm mf mc r : K) (hcm : 0 < cm) (hmf : 0 < mf) (hmc : 0 < mc)
    (hr0 : 0 < r) (hr1 : r < 1) :
    0 < weightedCeil cm mc r ∧ 0 < weightedFloor cm mf r := by
  unfold weightedCeil weightedFloor
  exact ⟨mul_pos (div_pos hcm hmc) hr0, mul_pos (div_pos hcm hmf) (by linarith)⟩

/-- C2. For every control set with non-zero control positions and every location with
`currentMagnitude > 0` whose angle is no sample angle (so it lies strictly between two of
them), with `clamp = false` the pair `(floorValue, ceilValue)` of `computeOutputValues`,
which `compute` writes at the floor index and at the ceil target, consists of two finite
values whose sum is exactly `currentMagnitude`. -/
theorem unclamped_sum (L : Libm K) (hsqrt : L.SqrtExact) (hL : L.Atan2Range)
    (out : OutArray K) (inputList : List (ControlPoint K)) (x y : K) (s : AngleSliceSolver K)
    (hpos : ∀ p, p ∈ inputList → p.inputLocationX ≠ 0 ∨ p.inputLocationY ≠ 0)
    (hs : updateAttributes L inputList x y = some s)
    (hcm : 0 < s.currentMagnitude)
    (hno : ∀ a, a ∈ s.splitAngles → a ≠ s.currentAngle) :
    ∃ (f c : Nat) (floorValue ceilValue : K),
      s.floorIndex = (f : Int) ∧ s.ceilIndex = (c : Int) ∧
      bracketValues s false = some (Dbl.fin floorValue, Dbl.fin ceilValue) ∧
      compute L out inputList x y false =
        some (s, Function.update
          (Function.update (zeroFill out inputList.length) f (some (Dbl.fin floorValue)))
          (if c = inputList.length then 0 else c) (some (Dbl.fin ceilValue))) ∧
      floorValue + ceilValue = s.currentMagnitude := by
  obtain ⟨f, c, af, ac, mf, mc, hb, hlt, hgt, hmf, hmc⟩ :=
    bracket_of_state L hsqrt hL inputList x y s hpos hs hno
  obtain ⟨hr0, hr1⟩ := ratioOf_mem s.currentAngle af ac hlt hgt
  obtain ⟨hwc, hwf⟩ := weighted_pos s.currentMagnitude mf mc _ hcm hmf hmc hr0 hr1
  have hmag : weightedCeil s.currentMagnitude mc (ratioOf s.currentAngle af ac) +
      weightedFloor s.currentMagnitude mf (ratioOf s.currentAngle af ac) ≠ 0 :=
    ne_of_gt (add_pos hwc hwf)
  have hun := bracketValues_unclamped s f c af ac mf mc hb (by linarith) (ne_of_gt hmf)
    (ne_of_gt hmc) hmag
  obtain ⟨f2, c2, fv, cv, hf2, hc2, _, _, _, _, hbv, hcomp⟩ :=
    compute_nohit L hL out inputList x y false s hs hno
  have hff : f2 = f := Int.ofNat.inj (hf2.symm.trans hb.floorIndex)
  have hcc : c2 = c := Int.ofNat.inj (hc2.symm.trans hb.ceilIndex)
  rw [hun] at hbv
  obtain ⟨h1, h2⟩ := Prod.mk.inj (Option.some.inj hbv)
  subst h1 h2
  rw [hff, hcc] at hcomp
  exact ⟨f, c, _, _, hb.floorIndex, hb.ceilIndex, hun, hcomp, renorm_sum _ _ _ _ hmag⟩

/-- C3. For every control set with non-zero control positions and every location with
`currentMagnitude > 0` whose angle is no sample angle, with `clamp = true` the two values
of the pair, which `compute` writes at the floor index and at the ceil target, are the
unclamped values multiplied by one common factor in `(0, 1]`, and their sum does not exceed
`currentMagnitude`. -/
theorem clamped_sum (L : Libm K) (hsqrt : L.SqrtExact) (hL : L.Atan2Range)
    (out : OutArray K) (inputList : List (ControlPoint K)) (x y : K) (s : AngleSliceSolver K)
    (hpos : ∀ p, p ∈ inputList → p.inputLocationX ≠ 0 ∨ p.inputLocationY ≠ 0)
    (hs : updateAttributes L inputList x y = some s)
    (hcm : 0 < s.currentMagnitude)
    (hno : ∀ a, a ∈ s.splitAngles → a ≠ s.currentAngle) :
    ∃ (f c : Nat) (floorValue0 ceilValue0 floorValue ceilValue factor : K),
      s.floorIndex = (f : Int) ∧ s.ceilIndex = (c : Int) ∧
      bracketValues s false = some (Dbl.fin floorValue0, Dbl.fin ceilValue0) ∧
      bracketValues s true = some (Dbl.fin floorValue, Dbl.fin ceilValue) ∧
      compute L out inputList x y true =
        some (s, Function.update
          (Function.update (zeroFill out inputList.length) f (some (Dbl.fin floorValue)))
          (if c = inputList.length then 0 else c) (some (Dbl.fin ceilValue))) ∧
      floorValue + ceilValue ≤ s.currentMagnitude ∧
      0 < factor ∧ factor ≤ 1 ∧
      floorValue = factor * floorValue0 ∧ ceilValue = factor * ceilValue0 := by
  obtain ⟨f, c, af, ac, mf, mc, hb, hlt, hgt, hmf, hmc⟩ :=
    bracket_of_state L hsqrt hL inputList x y s hpos hs hno
  obtain ⟨hr0, hr1⟩ := ratioOf_mem s.currentAngle af ac hlt hgt
  obtain ⟨hwc, hwf⟩ := weighted_pos s.currentMagnitude mf mc _ hcm hmf hmc hr0 hr1
  have hmag : weightedCeil s.currentMagnitude mc (ratioOf s.currentAngle af ac) +
      weightedFloor s.currentMagnitude mf (ratioOf s.currentAngle af ac) ≠ 0 :=
    ne_of_gt (add_pos hwc hwf)
  have hsum := renorm_sum s.currentMagnitude mf mc (ratioOf s.currentAngle af ac) hmag
  have hsum2 : renormCeil s.currentMagnitude mf mc (ratioOf s.currentAngle af ac) +
      renormFloor s.currentMagnitude mf mc (ratioOf s.currentAngle af ac) =
      s.currentMagnitude := by rw [add_comm]; exact hsum
  have hun := bracketValues_unclamped s f c af ac mf mc hb (by linarith) (ne_of_gt hmf)
    (ne_of_gt hmc) hmag
  have hcl := bracketValues_clamped s f c af ac mf mc hb (by linarith) (ne_of_gt hmf)
    (ne_of_gt hmc) hmag (by rw [hsum2]; exact ne_of_gt hcm)
  rw [hsum2] at hcl
  obtain ⟨f2, c2, fv, cv, hf2, hc2, _, _, _, _, hbv, hcomp⟩ :=
    compute_nohit L hL out inputList x y true s hs hno
  have hff : f2 = f := Int.ofNat.inj (hf2.symm.trans hb.floorIndex)
  have hcc : c2 = c := Int.ofNat.inj (hc2.symm.trans hb.ceilIndex)
  rw [hff, hcc] at hcomp
  by_cases hscale : 1 / s.currentMagnitude < 1
  · rw [if_pos hscale] at hcl
    rw [hcl] at hbv
    obtain ⟨h1, h2⟩ := Prod.mk.inj (Option.some.inj hbv)
    subst h1 h2
    refine ⟨f, c, _, _, _, _, 1 / s.currentMagnitude, hb.floorIndex, hb.ceilIndex, hun, hcl,
      hcomp, ?_, one_div_pos.mpr hcm, hscale.le, mul_comm _ _, mul_comm _ _⟩
    rw [← add_mul, hsum, mul_one_div, div_self (ne_of_gt hcm)]
    have h1 : 1 < s.currentMagnitude := by
      rw [div_lt_one hcm] at hscale; exact hscale
    exact h1.le
  · rw [if_neg hscale] at hcl
    rw [hcl] at hbv
    obtain ⟨h1, h2⟩ := Prod.mk.inj (Option.some.inj hbv)
    subst h1 h2
    refine ⟨f, c, _, _, _, _, 1, hb.floorIndex, hb.ceilIndex, hun, hcl, hcomp, hsum.le,
      one_pos, le_refl _, (one_mul _).symm, (one_mul _).symm⟩

/-- The halfway case on a bracket of non-zero width, for any solver state. -/
theorem halfway_of_bracket (s : AngleSliceSolver K) (f c : Nat) (af ac m : K)
    (hb : Bracket s f c af ac m m) (hang : af ≠ ac)
    (hmid : s.currentAngle = (af + ac) / 2) (hm : m ≠ 0) (hcm : s.currentMagnitude ≠ 0) :
    blendRatio s = some (Dbl.fin (1 / 2)) ∧
      bracketValues s false =
        some (Dbl.fin (s.currentMagnitude / 2), Dbl.fin (s.currentMagnitude / 2)) ∧
      ∃ v : K, bracketValues s true = some (Dbl.fin v, Dbl.fin v) := by
  have hw : ac - af ≠ 0 := sub_ne_zero.mpr (Ne.symm hang)
  have hr : ratioOf s.currentAngle af ac = 1 / 2 := by
    unfold ratioOf
    rw [hmid]
    field_simp
    ring
  have hwc : weightedCeil s.currentMagnitude m (1 / 2) = s.currentMagnitude / m / 2 := by
    unfold weightedCeil; ring
  have hwf : weightedFloor s.currentMagnitude m (1 / 2) = s.currentMagnitude / m / 2 := by
    unfold weightedFloor; ring
  have hmag : weightedCeil s.currentMagnitude m (ratioOf s.currentAngle af ac) +
      weightedFloor s.currentMagnitude m (ratioOf s.currentAngle af ac) ≠ 0 := by
    rw [hr, hwc, hwf]
    have : s.currentMagnitude / m ≠ 0 := div_ne_zero hcm hm
    intro h
    apply this
    linarith
  have hden : s.currentMagnitude / m / 2 + s.currentMagnitude / m / 2 =
      s.currentMagnitude / m := by ring
  have hfv : renormFloor s.currentMagnitude m m (1 / 2) = s.currentMagnitude / 2 := by
    unfold renormFloor
    rw [hwc, hwf, hden]
    field_simp
    ring
  have hcv : renormCeil s.currentMagnitude m m (1 / 2) = s.currentMagnitude / 2 := by
    unfold renormCeil
    rw [hwc, hwf, hden]
    field_simp
    ring
  have hun := bracketValues_unclamped s f c af ac m m hb hw hm hm hmag
  have hsum : renormCeil s.currentMagnitude m m (ratioOf s.currentAngle af ac) +
      renormFloor s.currentMagnitude m m (ratioOf s.currentAngle af ac) ≠ 0 := by
    rw [hr, hfv, hcv]
    intro h
    apply hcm
    linarith
  have hcl := bracketValues_clamped s f c af ac m m hb hw hm hm hmag hsum
  rw [hr, hfv, hcv] at hun hcl
  refine ⟨by rw [blendRatio_eval s f c af ac m m hb hw, hr], hun, ?_⟩
  split_ifs at hcl
  · exact ⟨_, hcl⟩
  · exact ⟨_, hcl⟩

/-- C4 (amended). On a state built by `updateAttributes`, whenever the bracket has two
different indices, the current angle is the midpoint of the floor and ceil sample angles,
the two bracketing samples have the same non-zero magnitude, and `currentMagnitude` is not
zero: the blend ratio is `1/2`, without clamp both values are `currentMagnitude / 2`, and
with clamp the two values are equal. -/
theorem halfway_equal (L : Libm K) (hL : L.Atan2Range) (inputList : List (ControlPoint K))
    (x y : K) (s : AngleSliceSolver K) (hs : updateAttributes L inputList x y = some s)
    (f c : Nat) (af ac m : K) (hb : Bracket s f c af ac m m) (hfc : f ≠ c)
    (hmid : s.currentAngle = (af + ac) / 2) (hm : m ≠ 0) (hcm : s.currentMagnitude ≠ 0) :
    blendRatio s = some (Dbl.fin (1 / 2)) ∧
      bracketValues s false =
        some (Dbl.fin (s.currentMagnitude / 2), Dbl.fin (s.currentMagnitude / 2)) ∧
      ∃ v : K, bracketValues s true = some (Dbl.fin v, Dbl.fin v) := by
  have hst := updateAttributes_state L hL inputList x y s hs
  have hang : af ≠ ac := by
    rcases first_index_or_absent s.currentAngle s.splitAngles with ⟨k, hk, hfirst⟩ | hno
    · obtain ⟨hf, hc, _⟩ := bracket_hit L inputList.length s hst k hk hfirst
      have h1 : f = k := Int.ofNat.inj (hb.floorIndex.symm.trans hf)
      have h2 : c = k := Int.ofNat.inj (hb.ceilIndex.symm.trans hc)
      exact absurd (h1.trans h2.symm) hfc
    · obtain ⟨f2, c2, af2, ac2, hf2, hc2, _, _, _, _, haf2, hac2, hlt, hgt, _, _⟩ :=
        bracket_nohit L inputList.length s hst hno
      have h1 : f2 = f := Int.ofNat.inj (hf2.symm.trans hb.floorIndex)
      have h2 : c2 = c := Int.ofNat.inj (hc2.symm.trans hb.ceilIndex)
      rw [h1, hb.floorAngle] at haf2
      rw [h2, hb.ceilAngle] at hac2
      have e1 : af = af2 := Option.some.inj haf2
      have e2 : ac = ac2 := Option.some.inj hac2
      rw [e1, e2]
      exact ne_of_lt (lt_trans hlt hgt)
  exact halfway_of_bracket s f c af ac m hb hang hmid hm hcm


/-! ## The exact real library on the coordinate axes -/

theorem realLibm_atan2Scale : realLibm.Atan2Scale := by
  intro c y x hc
  show Complex.arg ⟨c * x, c * y⟩ = Complex.arg ⟨x, y⟩
  have h : (⟨c * x, c * y⟩ : ℂ) = (c : ℂ) * ⟨x, y⟩ := by
    apply Complex.ext <;> simp
  rw [h, Complex.arg_real_mul _ hc]

theorem realLibm_atan2_zero_nonneg (x : ℝ) (hx : 0 ≤ x) : realLibm.atan2 0 x = 0 :=
  Complex.arg_eq_zero_iff.mpr ⟨hx, rfl⟩

theorem realLibm_atan2_zero_neg (x : ℝ) (hx : x < 0) : realLibm.atan2 0 x = Real.pi :=
  Complex.arg_eq_pi_iff.mpr ⟨hx, rfl⟩

theorem realLibm_atan2_pos_zero (y : ℝ) (hy : 0 < y) : realLibm.atan2 y 0 = Real.pi / 2 :=
  Complex.arg_eq_pi_div_two_iff.mpr ⟨rfl, hy⟩

theorem realLibm_atan2_neg_zero (y : ℝ) (hy : y < 0) :
    realLibm.atan2 y 0 = -(Real.pi / 2) :=
  Complex.arg_eq_neg_pi_div_two_iff.mpr ⟨rfl, hy⟩

/-- The exact length of a vector along the `x` axis. -/
theorem realLibm_length_x (a : ℝ) : MVector.length realLibm ⟨a, 0, 0⟩ = |a| := by
  show Real.sqrt (a * a + 0 * 0 + 0 * 0) = |a|
  rw [show a * a + 0 * 0 + 0 * 0 = a * a by ring, Real.sqrt_mul_self_eq_abs]

/-- The exact length of a vector along the `y` axis. -/
theorem realLibm_length_y (a : ℝ) : MVector.length realLibm ⟨0, a, 0⟩ = |a| := by
  show Real.sqrt (0 * 0 + a * a + 0 * 0) = |a|
  rw [show 0 * 0 + a * a + 0 * 0 = a * a by ring, Real.sqrt_mul_self_eq_abs]


theorem realLibm_pi : realLibm.pi = Real.pi := rfl

/-- One step of the bracket loop on an angle above the current one that improves the
ceil side. -/
theorem blendLoop_cons_ceil (t a : K) (rest : List K) (idx : Nat) (fa ca : K) (fi ci : Int)
    (h1 : t < a) (h2 : a < ca) :
    blendLoop t (a :: rest) idx fa ca fi ci = blendLoop t rest (idx + 1) fa a fi idx := by
  have hne : a ≠ t := ne_of_gt h1
  have hc : a > t ∧ a < ca := ⟨h1, h2⟩
  rw [blendLoop, if_neg hne, if_pos hc]

/-- One step of the bracket loop on an angle below the current one that improves the
floor side. -/
theorem blendLoop_cons_floor (t a : K) (rest : List K) (idx : Nat) (fa ca : K) (fi ci : Int)
    (h1 : a < t) (h2 : fa < a) :
    blendLoop t (a :: rest) idx fa ca fi ci = blendLoop t rest (idx + 1) a ca idx ci := by
  have hne : a ≠ t := ne_of_lt h1
  have hc : ¬(a > t ∧ a < ca) := fun h => absurd h.1 (not_lt.mpr h1.le)
  have hf : a < t ∧ a > fa := ⟨h1, h2⟩
  rw [blendLoop, if_neg hne, if_neg hc, if_pos hf]

/-- One step of the bracket loop on an angle above the current one that does not improve
the ceil side. -/
theorem blendLoop_cons_skip_above (t a : K) (rest : List K) (idx : Nat) (fa ca : K)
    (fi ci : Int) (h1 : t < a) (h2 : ca ≤ a) :
    blendLoop t (a :: rest) idx fa ca fi ci = blendLoop t rest (idx + 1) fa ca fi ci := by
  have hne : a ≠ t := ne_of_gt h1
  have hc : ¬(a > t ∧ a < ca) := fun h => absurd h.2 (not_lt.mpr h2)
  have hf : ¬(a < t ∧ a > fa) := fun h => absurd h.1 (not_lt.mpr h1.le)
  rw [blendLoop, if_neg hne, if_neg hc, if_neg hf]


theorem blendLoop_cons_hit (t : K) (rest : List K) (idx : Nat) (fa ca : K) (fi ci : Int) :
    blendLoop t (t :: rest) idx fa ca fi ci = ((idx : Int), (idx : Int)) := by
  rw [blendLoop, if_pos rfl]

/-! ## Concrete solver states over the reals -/

theorem realLibm_addTwoPi (r : ℝ) : realLibm.addTwoPi r = r + Real.pi * 2 := rfl

/-- The value of `computeRadians` over the reals from the two `atan2` values. -/
theorem realLibm_radians (startDir dir : MVector ℝ) (a b : ℝ)
    (ha : realLibm.atan2 dir.y dir.x = a) (hb : realLibm.atan2 startDir.y startDir.x = b) :
    computeRadians realLibm startDir dir =
      if a - b < 0 then a - b + Real.pi * 2 else a - b := by
  simp only [computeRadians, ha, hb, realLibm_addTwoPi]

theorem cross_state : updateAttributes realLibm crossControls 0 3 = some crossState := by
  have hpi := Real.pi_pos
  have hstart : realLibm.atan2 0 2 = 0 := realLibm_atan2_zero_nonneg 2 (by norm_num)
  have h1 : computeRadians realLibm ⟨2, 0, 0⟩ ⟨0, 2, 0⟩ = Real.pi / 2 := by
    rw [realLibm_radians _ _ _ _ (realLibm_atan2_pos_zero 2 (by norm_num)) hstart,
      if_neg (by linarith)]
    ring
  have h2 : computeRadians realLibm ⟨2, 0, 0⟩ ⟨-2, 0, 0⟩ = Real.pi := by
    rw [realLibm_radians _ _ _ _ (realLibm_atan2_zero_neg (-2) (by norm_num)) hstart,
      if_neg (by linarith)]
    ring
  have h3 : computeRadians realLibm ⟨2, 0, 0⟩ ⟨0, -2, 0⟩ = 3 * Real.pi / 2 := by
    rw [realLibm_radians _ _ _ _ (realLibm_atan2_neg_zero (-2) (by norm_num)) hstart,
      if_pos (by linarith)]
    ring
  have h4 : computeRadians realLibm ⟨2, 0, 0⟩ ⟨0, 3, 0⟩ = Real.pi / 2 := by
    rw [realLibm_radians _ _ _ _ (realLibm_atan2_pos_zero 3 (by norm_num)) hstart,
      if_neg (by linarith)]
    ring
  have l1 : MVector.length realLibm ⟨2, 0, 0⟩ = 2 := by rw [realLibm_length_x]; norm_num
  have l2 : MVector.length realLibm ⟨0, 2, 0⟩ = 2 := by rw [realLibm_length_y]; norm_num
  have l3 : MVector.length realLibm ⟨-2, 0, 0⟩ = 2 := by rw [realLibm_length_x]; norm_num
  have l4 : MVector.length realLibm ⟨0, -2, 0⟩ = 2 := by rw [realLibm_length_y]; norm_num
  have l5 : MVector.length realLibm ⟨0, 3, 0⟩ = 3 := by rw [realLibm_length_y]; norm_num
  have hloop : blendLoop (Real.pi / 2)
      [0, Real.pi / 2, Real.pi, 3 * Real.pi / 2, 2 * Real.pi] 0 (-Real.pi) (3 * Real.pi)
      (-1) (-1) = (1, 1) := by
    rw [blendLoop_cons_floor _ _ _ _ _ _ _ _ (by linarith) (by linarith), blendLoop_cons_hit]
    rfl
  simp only [updateAttributes, crossControls, ControlPoint.dir, List.map_cons, List.map_nil,
    h1, h2, h3, h4, l1, l2, l3, l4, l5, updateBlendIndices, List.cons_append, List.nil_append,
    List.length_cons, List.length_nil, realLibm_pi, hloop]
  rfl

theorem opposite_state :
    updateAttributes realLibm oppositeControls 0 3 = some oppositeState := by
  have hpi := Real.pi_pos
  have hstart : realLibm.atan2 0 2 = 0 := realLibm_atan2_zero_nonneg 2 (by norm_num)
  have h2 : computeRadians realLibm ⟨2, 0, 0⟩ ⟨-2, 0, 0⟩ = Real.pi := by
    rw [realLibm_radians _ _ _ _ (realLibm_atan2_zero_neg (-2) (by norm_num)) hstart,
      if_neg (by linarith)]
    ring
  have h4 : computeRadians realLibm ⟨2, 0, 0⟩ ⟨0, 3, 0⟩ = Real.pi / 2 := by
    rw [realLibm_radians _ _ _ _ (realLibm_atan2_pos_zero 3 (by norm_num)) hstart,
      if_neg (by linarith)]
    ring
  have l1 : MVector.length realLibm ⟨2, 0, 0⟩ = 2 := by rw [realLibm_length_x]; norm_num
  have l3 : MVector.length realLibm ⟨-2, 0, 0⟩ = 2 := by rw [realLibm_length_x]; norm_num
  have l5 : MVector.length realLibm ⟨0, 3, 0⟩ = 3 := by rw [realLibm_length_y]; norm_num
  have hloop : blendLoop (Real.pi / 2) [0, Real.pi, 2 * Real.pi] 0 (-Real.pi) (3 * Real.pi)
      (-1) (-1) = (0, 1) := by
    rw [blendLoop_cons_floor _ _ _ _ _ _ _ _ (by linarith) (by linarith),
      blendLoop_cons_ceil _ _ _ _ _ _ _ _ (by linarith) (by linarith),
      blendLoop_cons_skip_above _ _ _ _ _ _ _ _ (by linarith) (by linarith)]
    rfl
  simp only [updateAttributes, oppositeControls, ControlPoint.dir, List.map_cons, List.map_nil,
    h2, h4, l1, l3, l5, updateBlendIndices, List.cons_append, List.nil_append,
    List.length_cons, List.length_nil, realLibm_pi, hloop]
  rfl

theorem single_state : updateAttributes realLibm singleControl 0 0 = some singleState := by
  have hpi := Real.pi_pos
  have hrad : computeRadians realLibm ⟨-1, 0, 0⟩ ⟨0, 0, 0⟩ = Real.pi := by
    rw [realLibm_radians _ _ _ _ (realLibm_atan2_zero_nonneg 0 (le_refl _))
      (realLibm_atan2_zero_neg (-1) (by norm_num)), if_pos (by linarith)]
    ring
  have hlen : MVector.length realLibm ⟨-1, 0, 0⟩ = 1 := by
    rw [realLibm_length_x]; norm_num
  have hlen0 : MVector.length realLibm ⟨0, 0, 0⟩ = 0 := by
    rw [realLibm_length_x]; norm_num
  have hloop : blendLoop Real.pi [0, 2 * Real.pi] 0 (-Real.pi) (3 * Real.pi) (-1) (-1) =
      (0, 1) := by
    rw [blendLoop_cons_floor _ _ _ _ _ _ _ _ (by linarith) (by linarith),
      blendLoop_cons_ceil _ _ _ _ _ _ _ _ (by linarith) (by linarith)]
    rfl
  simp only [updateAttributes, singleControl, ControlPoint.dir, List.map_nil, hrad, hlen, hlen0,
    updateBlendIndices, List.cons_append, List.nil_append, List.length_cons, List.length_nil,
    realLibm_pi, hloop]
  rfl

/-- A zero current magnitude on a bracket of two indices: the renormalisation divides zero
by zero and both values are `NaN`, with or without clamp. -/
theorem bracketValues_zero_magnitude (s : AngleSliceSolver K) (f c : Nat) (af ac mf mc : K)
    (hb : Bracket s f c af ac mf mc) (hang : ac - af ≠ 0) (hmf : mf ≠ 0) (hmc : mc ≠ 0)
    (hcm : s.currentMagnitude = 0) (clamp : Bool) :
    bracketValues s clamp = some (Dbl.nan, Dbl.nan) := by
  have hr := blendRatio_eval s f c af ac mf mc hb hang
  simp only [bracketValues, hr, hb.floorIndex, hb.ceilIndex, readAt_nat, hb.floorMagnitude,
    hb.ceilMagnitude, Option.bind_eq_bind, Option.some_bind, Dbl.fin_sub_fin, Dbl.fin_mul_fin,
    Dbl.fin_add_fin, Dbl.fin_div_fin _ _ hmf, Dbl.fin_div_fin _ _ hmc, hcm, zero_div, zero_mul,
    mul_zero, add_zero, Dbl.zero_div_zero]
  cases clamp
  · rfl
  · rfl


/-! ## The theorems on concrete inputs -/

theorem oppositeControls_nonzero :
    ∀ p, p ∈ oppositeControls → p.inputLocationX ≠ 0 ∨ p.inputLocationY ≠ 0 := by
  intro p hp
  simp only [oppositeControls, List.mem_cons, List.mem_singleton, List.not_mem_nil,
    or_false] at hp
  rcases hp with rfl | rfl <;> norm_num

theorem oppositeState_no_hit :
    ∀ a, a ∈ oppositeState.splitAngles → a ≠ oppositeState.currentAngle := by
  intro a ha
  have hpi := Real.pi_pos
  simp only [oppositeState, List.mem_cons, List.mem_singleton, List.not_mem_nil,
    or_false] at ha
  show a ≠ Real.pi / 2
  rcases ha with rfl | rfl | rfl <;> intro h <;> linarith

theorem oppositeState_magnitude_pos : 0 < oppositeState.currentMagnitude := by
  show (0 : ℝ) < 3
  norm_num

/-- Witness of C2: two opposite control points, the location `(0, 3)` between them. -/
theorem unclamped_sum_witness :
    ∃ (f c : Nat) (floorValue ceilValue : ℝ),
      oppositeState.floorIndex = (f : Int) ∧ oppositeState.ceilIndex = (c : Int) ∧
      bracketValues oppositeState false = some (Dbl.fin floorValue, Dbl.fin ceilValue) ∧
      compute realLibm (emptyOut ℝ) oppositeControls 0 3 false =
        some (oppositeState, Function.update
          (Function.update (zeroFill (emptyOut ℝ) oppositeControls.length) f
            (some (Dbl.fin floorValue)))
          (if c = oppositeControls.length then 0 else c) (some (Dbl.fin ceilValue))) ∧
      floorValue + ceilValue = oppositeState.currentMagnitude :=
  unclamped_sum realLibm realLibm_sqrtExact realLibm_atan2Range (emptyOut ℝ) oppositeControls
    0 3 oppositeState oppositeControls_nonzero opposite_state oppositeState_magnitude_pos
    oppositeState_no_hit

/-- Witness of C3: two opposite control points, the location `(0, 3)` between them. -/
theorem clamped_sum_witness :
    ∃ (f c : Nat) (floorValue0 ceilValue0 floorValue ceilValue factor : ℝ),
      oppositeState.floorIndex = (f : Int) ∧ oppositeState.ceilIndex = (c : Int) ∧
      bracketValues oppositeState false = some (Dbl.fin floorValue0, Dbl.fin ceilValue0) ∧
      bracketValues oppositeState true = some (Dbl.fin floorValue, Dbl.fin ceilValue) ∧
      compute realLibm (emptyOut ℝ) oppositeControls 0 3 true =
        some (oppositeState, Function.update
          (Function.update (zeroFill (emptyOut ℝ) oppositeControls.length) f
            (some (Dbl.fin floorValue)))
          (if c = oppositeControls.length then 0 else c) (some (Dbl.fin ceilValue))) ∧
      floorValue + ceilValue ≤ oppositeState.currentMagnitude ∧
      0 < factor ∧ factor ≤ 1 ∧
      floorValue = factor * floorValue0 ∧ ceilValue = factor * ceilValue0 :=
  clamped_sum realLibm realLibm_sqrtExact realLibm_atan2Range (emptyOut ℝ) oppositeControls
    0 3 oppositeState oppositeControls_nonzero opposite_state oppositeState_magnitude_pos
    oppositeState_no_hit

/-- Witness of C4 (amended): the location `(0, 3)` halfway between two opposite control
points of magnitude `2`. -/
theorem halfway_equal_witness :
    blendRatio oppositeState = some (Dbl.fin (1 / 2)) ∧
      bracketValues oppositeState false =
        some (Dbl.fin (oppositeState.currentMagnitude / 2),
          Dbl.fin (oppositeState.currentMagnitude / 2)) ∧
      ∃ v : ℝ, bracketValues oppositeState true = some (Dbl.fin v, Dbl.fin v) :=
  halfway_equal realLibm realLibm_atan2Range oppositeControls 0 3 oppositeState opposite_state
    0 1 0 Real.pi 2 ⟨rfl, rfl, rfl, rfl, rfl, rfl⟩ (by decide)
    (by show Real.pi / 2 = (0 + Real.pi) / 2; ring)
    (by norm_num)
    (by show (3 : ℝ) ≠ 0; norm_num)

/-- C4, counterexample. One control point at `(-1, 0)` and the location `(0, 0)`: the
current angle `π` is the midpoint of the floor angle `0` and the ceil angle `2π`, both
samples have magnitude `1`, and yet both values are `NaN`, not `currentMagnitude / 2`. -/
theorem halfway_zero_magnitude :
    ∃ s, updateAttributes realLibm singleControl 0 0 = some s ∧
      Bracket s 0 1 0 (2 * Real.pi) 1 1 ∧
      s.currentAngle = (0 + 2 * Real.pi) / 2 ∧ (1 : ℝ) ≠ 0 ∧
      bracketValues s false = some (Dbl.nan, Dbl.nan) ∧
      bracketValues s true = some (Dbl.nan, Dbl.nan) ∧
      bracketValues s false ≠
        some (Dbl.fin (s.currentMagnitude / 2), Dbl.fin (s.currentMagnitude / 2)) := by
  have hb : Bracket singleState 0 1 0 (2 * Real.pi) 1 1 := ⟨rfl, rfl, rfl, rfl, rfl, rfl⟩
  have hang : 2 * Real.pi - 0 ≠ 0 := by
    have := Real.pi_pos
    intro h; linarith
  have hnan := bracketValues_zero_magnitude singleState 0 1 0 (2 * Real.pi) 1 1 hb hang
    one_ne_zero one_ne_zero rfl
  refine ⟨singleState, single_state, hb, ?_, one_ne_zero, hnan false, hnan true, ?_⟩
  · show Real.pi = (0 + 2 * Real.pi) / 2
    ring
  · rw [hnan false]
    intro h
    cases h

theorem pointedSegment_edges : EdgesNonZero realLibm pointedSegment := by
  intro id c v hv hc
  have hlen : ∀ a b : MPoint ℝ, 0 < (a.x - b.x) * (a.x - b.x) + (a.y - b.y) * (a.y - b.y) +
      (a.z - b.z) * (a.z - b.z) → (a.sub b).length realLibm ≠ 0 := by
    intro a b h
    exact ne_of_gt (Real.sqrt_pos.mpr h)
  rcases id with _ | _ | _ | id
  · simp only [pointedSegment, List.getElem?_cons_zero, Option.some.injEq] at hv
    subst hv
    simp only [List.mem_singleton] at hc
    subst hc
    exact ⟨⟨⟨3, 4, 0⟩, [0]⟩, rfl, hlen _ _ (by norm_num)⟩
  · simp only [pointedSegment, List.getElem?_cons_succ, List.getElem?_cons_zero,
      Option.some.injEq] at hv
    subst hv
    simp only [List.mem_singleton] at hc
    subst hc
    exact ⟨⟨⟨0, 0, 0⟩, [1]⟩, rfl, hlen _ _ (by norm_num)⟩
  · simp only [pointedSegment, List.getElem?_cons_succ, List.getElem?_cons_zero,
      Option.some.injEq] at hv
    subst hv
    simp at hc
  · simp [pointedSegment] at hv

theorem segmentMesh_edges : EdgesNonZero realLibm segmentMesh := by
  intro id c v hv hc
  have hlen : ∀ a b : MPoint ℝ, 0 < (a.x - b.x) * (a.x - b.x) + (a.y - b.y) * (a.y - b.y) +
      (a.z - b.z) * (a.z - b.z) → (a.sub b).length realLibm ≠ 0 := by
    intro a b h
    exact ne_of_gt (Real.sqrt_pos.mpr h)
  rcases id with _ | _ | id
  · simp only [segmentMesh, List.getElem?_cons_zero, Option.some.injEq] at hv
    subst hv
    simp only [List.mem_singleton] at hc
    subst hc
    exact ⟨⟨⟨3, 4, 0⟩, [0]⟩, rfl, hlen _ _ (by norm_num)⟩
  · simp only [segmentMesh, List.getElem?_cons_succ, List.getElem?_cons_zero,
      Option.some.injEq] at hv
    subst hv
    simp only [List.mem_singleton] at hc
    subst hc
    exact ⟨⟨⟨0, 0, 0⟩, [1]⟩, rfl, hlen _ _ (by norm_num)⟩
  · simp [segmentMesh] at hv

/-- Witness of C5: one edge and one isolated vertex, compared with itself. -/
theorem tension_at_rest_witness :
    updateTension realLibm [] pointedSegment pointedSegment =
      some (List.replicate pointedSegment.length (Dbl.fin 0)) :=
  tension_at_rest realLibm realLibm_powOne [] pointedSegment pointedSegment_edges

/-- Witness of C6: one edge, scaled by `2`. -/
theorem tension_uniform_scale_witness :
    updateTension realLibm [] segmentMesh (scaleMesh 2 segmentMesh) =
      some (List.replicate segmentMesh.length
        (Dbl.fin (if (1 : ℝ) < 2 then 1 - 1 / 2 else 2 - 1))) :=
  tension_uniform_scale realLibm realLibm_sqrtExact realLibm_powRoot [] segmentMesh 2
    (by norm_num) segmentMesh_edges
    (by
      intro v hv
      simp only [segmentMesh, List.mem_cons, List.mem_singleton, List.not_mem_nil,
        or_false] at hv
      rcases hv with rfl | rfl <;> simp)

/-! ## `AngleSliceSolver`: formula, bracket search, angles, sample order -/

/-- The renormalised floor value in the form weight over sum of weights. -/
theorem renormFloor_formula (cm mf mc r : K) (hcm : cm ≠ 0) (hmf : mf ≠ 0) (hmc : mc ≠ 0)
    (hsum : (1 - r) / mf + r / mc ≠ 0) :
    renormFloor cm mf mc r = cm * ((1 - r) / mf) / ((1 - r) / mf + r / mc) := by
  have h1 : weightedCeil cm mc r + weightedFloor cm mf r = cm * ((1 - r) / mf + r / mc) := by
    unfold weightedCeil weightedFloor; ring
  unfold renormFloor
  rw [h1]
  unfold weightedFloor
  rw [div_eq_div_iff (mul_ne_zero hcm hsum) hsum]
  field_simp
  ring

/-- The renormalised ceil value in the form weight over sum of weights. -/
theorem renormCeil_formula (cm mf mc r : K) (hcm : cm ≠ 0) (hmf : mf ≠ 0) (hmc : mc ≠ 0)
    (hsum : (1 - r) / mf + r / mc ≠ 0) :
    renormCeil cm mf mc r = cm * (r / mc) / ((1 - r) / mf + r / mc) := by
  have h1 : weightedCeil cm mc r + weightedFloor cm mf r = cm * ((1 - r) / mf + r / mc) := by
    unfold weightedCeil weightedFloor; ring
  unfold renormCeil
  rw [h1]
  unfold weightedCeil
  rw [div_eq_div_iff (mul_ne_zero hcm hsum) hsum]
  field_simp
  ring

/-- C14. For a bracket of two indices with floor sample `(af, mf)`, ceil sample `(ac, mc)`,
`mf > 0`, `mc > 0`, current angle `t` with `af < t < ac`, `r = (t - af) / (ac - af)` and
`currentMagnitude = c > 0`: `0 < r < 1`, the blend ratio is `r`, the unclamped values are
`floorValue = c * ((1-r)/mf) / ((1-r)/mf + r/mc)` and
`ceilValue = c * (r/mc) / ((1-r)/mf + r/mc)`, and both are strictly positive. -/
theorem interpolation_formula (s : AngleSliceSolver K) (f c : Nat) (af ac mf mc r : K)
    (hb : Bracket s f c af ac mf mc) (hlt : af < s.currentAngle) (hgt : s.currentAngle < ac)
    (hmf : 0 < mf) (hmc : 0 < mc) (hcm : 0 < s.currentMagnitude)
    (hr : r = (s.currentAngle - af) / (ac - af)) :
    0 < r ∧ r < 1 ∧ blendRatio s = some (Dbl.fin r) ∧
      bracketValues s false =
        some (Dbl.fin (s.currentMagnitude * ((1 - r) / mf) / ((1 - r) / mf + r / mc)),
          Dbl.fin (s.currentMagnitude * (r / mc) / ((1 - r) / mf + r / mc))) ∧
      0 < s.currentMagnitude * ((1 - r) / mf) / ((1 - r) / mf + r / mc) ∧
      0 < s.currentMagnitude * (r / mc) / ((1 - r) / mf + r / mc) := by
  have hrr : r = ratioOf s.currentAngle af ac := hr
  obtain ⟨hr0, hr1⟩ := ratioOf_mem s.currentAngle af ac hlt hgt
  rw [← hrr] at hr0 hr1
  have hw : ac - af ≠ 0 := by
    have : 0 < ac - af := by linarith
    exact ne_of_gt this
  have hA : 0 < (1 - r) / mf := div_pos (by linarith) hmf
  have hB : 0 < r / mc := div_pos hr0 hmc
  have hsum : (1 - r) / mf + r / mc ≠ 0 := ne_of_gt (add_pos hA hB)
  obtain ⟨hwc, hwf⟩ := weighted_pos s.currentMagnitude mf mc r hcm hmf hmc hr0 hr1
  have hmag : weightedCeil s.currentMagnitude mc (ratioOf s.currentAngle af ac) +
      weightedFloor s.currentMagnitude mf (ratioOf s.currentAngle af ac) ≠ 0 := by
    rw [← hrr]; exact ne_of_gt (add_pos hwc hwf)
  have hun := bracketValues_unclamped s f c af ac mf mc hb hw (ne_of_gt hmf) (ne_of_gt hmc) hmag
  rw [← hrr, renormFloor_formula _ _ _ _ (ne_of_gt hcm) (ne_of_gt hmf) (ne_of_gt hmc) hsum,
    renormCeil_formula _ _ _ _ (ne_of_gt hcm) (ne_of_gt hmf) (ne_of_gt hmc) hsum] at hun
  refine ⟨hr0, hr1, ?_, hun, ?_, ?_⟩
  · rw [blendRatio_eval s f c af ac mf mc hb hw, ← hrr]
  · exact div_pos (mul_pos hcm hA) (add_pos hA hB)
  · exact div_pos (mul_pos hcm hB) (add_pos hA hB)

/-- Witness of C14: the location `(0, 3)` between two opposite control points. -/
theorem interpolation_formula_witness :
    (0 : ℝ) < 1 / 2 ∧ (1 / 2 : ℝ) < 1 ∧ blendRatio oppositeState = some (Dbl.fin (1 / 2)) ∧
      bracketValues oppositeState false =
        some (Dbl.fin (oppositeState.currentMagnitude * ((1 - 1 / 2) / 2) /
            ((1 - 1 / 2) / 2 + 1 / 2 / 2)),
          Dbl.fin (oppositeState.currentMagnitude * (1 / 2 / 2) /
            ((1 - 1 / 2) / 2 + 1 / 2 / 2))) ∧
      0 < oppositeState.currentMagnitude * ((1 - 1 / 2) / 2) / ((1 - 1 / 2) / 2 + 1 / 2 / 2) ∧
      0 < oppositeState.currentMagnitude * (1 / 2 / 2) / ((1 - 1 / 2) / 2 + 1 / 2 / 2) :=
  interpolation_formula oppositeState 0 1 0 Real.pi 2 2 (1 / 2) ⟨rfl, rfl, rfl, rfl, rfl, rfl⟩
    (by show (0 : ℝ) < Real.pi / 2; linarith [Real.pi_pos])
    (by show Real.pi / 2 < Real.pi; linarith [Real.pi_pos])
    (by norm_num) (by norm_num) (by show (0 : ℝ) < 3; norm_num)
    (by
      show (1 / 2 : ℝ) = (Real.pi / 2 - 0) / (Real.pi - 0)
      have := Real.pi_pos
      field_simp)

/-- C15. On a state built by `updateAttributes` (sample angles `a_0 = 0, ..., a_N = 2 pi`,
current angle in `[0, 2 pi)`): if some sample angle equals the current angle then
`floorIndex = ceilIndex =` the first such index; otherwise
`a_floorIndex < t < a_ceilIndex`, `a_floorIndex` is the largest sample angle below `t`,
`a_ceilIndex` is the smallest sample angle above `t`, and no sample angle lies strictly
inside the bracket. -/
theorem bracket_search (L : Libm K) (hL : L.Atan2Range) (inputList : List (ControlPoint K))
    (x y : K) (s : AngleSliceSolver K) (hs : updateAttributes L inputList x y = some s) :
    (∀ k : Nat, s.splitAngles[k]? = some s.currentAngle →
        (∀ j : Nat, j < k → s.splitAngles[j]? ≠ some s.currentAngle) →
        s.floorIndex = (k : Int) ∧ s.ceilIndex = (k : Int)) ∧
      ((∀ a, a ∈ s.splitAngles → a ≠ s.currentAngle) →
        ∃ (f c : Nat) (af ac : K), s.floorIndex = (f : Int) ∧ s.ceilIndex = (c : Int) ∧
          s.splitAngles[f]? = some af ∧ s.splitAngles[c]? = some ac ∧
          af < s.currentAngle ∧ s.currentAngle < ac ∧
          (∀ b, b ∈ s.splitAngles → b < s.currentAngle → b ≤ af) ∧
          (∀ b, b ∈ s.splitAngles → s.currentAngle < b → ac ≤ b) ∧
          (∀ b, b ∈ s.splitAngles → ¬(af < b ∧ b < ac))) := by
  have hst := updateAttributes_state L hL inputList x y s hs
  constructor
  · intro k hk hfirst
    obtain ⟨hf, hc, _⟩ := bracket_hit L inputList.length s hst k hk hfirst
    exact ⟨hf, hc⟩
  · intro hno
    obtain ⟨f, c, af, ac, hf, hc, _, _, _, _, haf, hac, hlt, hgt, hmax, hmin⟩ :=
      bracket_nohit L inputList.length s hst hno
    refine ⟨f, c, af, ac, hf, hc, haf, hac, hlt, hgt, hmax, hmin, ?_⟩
    intro b hb hin
    rcases lt_trichotomy b s.currentAngle with h | h | h
    · exact absurd (hmax b hb h) (not_le.mpr hin.1)
    · exact hno b hb h
    · exact absurd (hmin b hb h) (not_le.mpr hin.2)

/-- Witness of C15: four control points spaced by `π/2` and the location `(0, 3)`. -/
theorem bracket_search_witness :
    (∀ k : Nat, crossState.splitAngles[k]? = some crossState.currentAngle →
        (∀ j : Nat, j < k → crossState.splitAngles[j]? ≠ some crossState.currentAngle) →
        crossState.floorIndex = (k : Int) ∧ crossState.ceilIndex = (k : Int)) ∧
      ((∀ a, a ∈ crossState.splitAngles → a ≠ crossState.currentAngle) →
        ∃ (f c : Nat) (af ac : ℝ), crossState.floorIndex = (f : Int) ∧
          crossState.ceilIndex = (c : Int) ∧
          crossState.splitAngles[f]? = some af ∧ crossState.splitAngles[c]? = some ac ∧
          af < crossState.currentAngle ∧ crossState.currentAngle < ac ∧
          (∀ b, b ∈ crossState.splitAngles → b < crossState.currentAngle → b ≤ af) ∧
          (∀ b, b ∈ crossState.splitAngles → crossState.currentAngle < b → ac ≤ b) ∧
          (∀ b, b ∈ crossState.splitAngles → ¬(af < b ∧ b < ac))) :=
  bracket_search realLibm realLibm_atan2Range crossControls 0 3 crossState cross_state

/-- C16 (amended). For every direction `dir` and every reference direction `startDir` (zero
vectors included), with `atan2` in `(-pi, pi]` and blind to a positive common factor, and
a sum `radians + M_PI * 2.0` that may be rounded up to `2 pi`: `computeRadians(dir)` lies
in `[0, 2 pi]`, it is `0` for `dir` a positive multiple of `startDir`, and it is unchanged
when `dir` is multiplied by a positive scalar. -/
theorem radians_normalised (L : Libm K) (hL : L.Atan2Closed) (hscale : L.Atan2Scale)
    (startDir dir : MVector K) (c : K) (hc : 0 < c) :
    0 ≤ computeRadians L startDir dir ∧ computeRadians L startDir dir ≤ 2 * L.pi ∧
      computeRadians L startDir ⟨c * startDir.x, c * startDir.y, c * startDir.z⟩ = 0 ∧
      computeRadians L startDir ⟨c * dir.x, c * dir.y, c * dir.z⟩ =
        computeRadians L startDir dir := by
  obtain ⟨h0, h1⟩ := computeRadians_closed L hL startDir dir
  refine ⟨h0, h1, ?_, ?_⟩
  · simp only [computeRadians, hscale c _ _ hc, sub_self, lt_irrefl, if_false]
  · simp only [computeRadians, hscale c _ _ hc]

/-- Witness of C16 (amended): reference direction `(2, 0, 0)`, direction `(0, 3, 0)`,
factor `5`. -/
theorem radians_normalised_witness :
    0 ≤ computeRadians realLibm ⟨2, 0, 0⟩ ⟨0, 3, 0⟩ ∧
      computeRadians realLibm ⟨2, 0, 0⟩ ⟨0, 3, 0⟩ ≤ 2 * realLibm.pi ∧
      computeRadians realLibm ⟨2, 0, 0⟩ ⟨5 * 2, 5 * 0, 5 * 0⟩ = 0 ∧
      computeRadians realLibm ⟨2, 0, 0⟩ ⟨5 * 0, 5 * 3, 5 * 0⟩ =
        computeRadians realLibm ⟨2, 0, 0⟩ ⟨0, 3, 0⟩ :=
  radians_normalised realLibm realLibm_atan2Closed realLibm_atan2Scale ⟨2, 0, 0⟩ ⟨0, 3, 0⟩ 5
    (by norm_num)

/-- The sample arrays built by `updateAttributes`, element by element. -/
theorem updateAttributes_samples (L : Libm K) (first : ControlPoint K)
    (rest : List (ControlPoint K)) (x y : K) (s : AngleSliceSolver K)
    (hs : updateAttributes L (first :: rest) x y = some s) :
    s.splitAngles = (0 :: rest.map (fun p => computeRadians L first.dir p.dir)) ++ [2 * L.pi] ∧
      s.splitMagnitudes =
        (first.dir.length L :: rest.map (fun p => p.dir.length L)) ++ [first.dir.length L] ∧
      s.values =
        (first.inputValue :: rest.map ControlPoint.inputValue) ++ [first.inputValue] := by
  simp only [updateAttributes, Option.some.injEq] at hs
  subst hs
  exact ⟨rfl, rfl, rfl⟩

/-- C17 (amended). For every control set, the sample sequence built by `updateAttributes`
has `N + 1` entries in each of `splitAngles`, `splitMagnitudes` and `values`; it keeps the
control points in input order (sample `i` is control point `i` for `0 < i < N`), starts at
angle `0` (index `0`) and ends at angle `2 pi` (index `N`), and every sample angle lies in
`[0, 2 pi]`.  The sum `radians + M_PI * 2.0` may be rounded up to `2 pi`. -/
theorem sample_bounds (L : Libm K) (hL : L.Atan2Closed) (inputList : List (ControlPoint K))
    (x y : K) (s : AngleSliceSolver K) (hs : updateAttributes L inputList x y = some s) :
    s.splitAngles.length = inputList.length + 1 ∧
      s.splitMagnitudes.length = inputList.length + 1 ∧
      s.values.length = inputList.length + 1 ∧
      s.splitAngles[0]? = some 0 ∧ s.splitAngles[inputList.length]? = some (2 * L.pi) ∧
      (∀ (i : Nat) (p : ControlPoint K), 0 < i → inputList[i]? = some p →
        s.splitAngles[i]? = some (computeRadians L s.startDir p.dir)) ∧
      (∀ (i : Nat) (a : K), s.splitAngles[i]? = some a → 0 ≤ a ∧ a ≤ 2 * L.pi) := by
  obtain ⟨_, _, hlenA, hlenM, hfirst, hlast, _⟩ := updateAttributes_shape L inputList x y s hs
  cases inputList with
  | nil => simp [updateAttributes] at hs
  | cons first rest =>
    obtain ⟨ha, hm, hv⟩ := updateAttributes_samples L first rest x y s hs
    have hstart : s.startDir = first.dir := by
      simp only [updateAttributes, Option.some.injEq] at hs
      subst hs
      rfl
    have hpi := hL.1
    refine ⟨hlenA, hlenM, by rw [hv]; simp, hfirst, hlast, ?_, ?_⟩
    · intro i p hi hp
      cases i with
      | zero => exact absurd hi (lt_irrefl 0)
      | succ i =>
        have hp2 : rest[i]? = some p := by simpa using hp
        have hlt : i < rest.length := by
          rcases Nat.lt_or_ge i rest.length with h | h
          · exact h
          · rw [List.getElem?_eq_none h] at hp2; cases hp2
        rw [ha, hstart, List.getElem?_append_left (by simp; omega), List.getElem?_cons_succ,
          List.getElem?_map, hp2]
        rfl
    · intro i a hia
      have hmem : a = 0 ∨ (∃ p, p ∈ rest ∧ computeRadians L first.dir p.dir = a) ∨
          a = 2 * L.pi := by
        have := List.getElem?_mem hia
        rw [ha] at this
        simpa [List.mem_append, List.mem_map] using this
      rcases hmem with h | ⟨p, _, h⟩ | h
      · rw [h]; exact ⟨le_refl _, by linarith⟩
      · rw [← h]
        exact computeRadians_closed L hL first.dir p.dir
      · rw [h]; exact ⟨by linarith, le_refl _⟩

/-- Witness of C17 (amended): four control points spaced by `π/2`. -/
theorem sample_bounds_witness :
    crossState.splitAngles.length = crossControls.length + 1 ∧
      crossState.splitMagnitudes.length = crossControls.length + 1 ∧
      crossState.values.length = crossControls.length + 1 ∧
      crossState.splitAngles[0]? = some 0 ∧
      crossState.splitAngles[crossControls.length]? = some (2 * realLibm.pi) ∧
      (∀ (i : Nat) (p : ControlPoint ℝ), 0 < i → crossControls[i]? = some p →
        crossState.splitAngles[i]? =
          some (computeRadians realLibm crossState.startDir p.dir)) ∧
      (∀ (i : Nat) (a : ℝ), crossState.splitAngles[i]? = some a →
        0 ≤ a ∧ a ≤ 2 * realLibm.pi) :=
  sample_bounds realLibm realLibm_atan2Closed crossControls 0 3 crossState cross_state

/-- C17, counterexample. The control points `(2, 0)`, `(0, -2)`, `(0, 2)` give the sample
angles `0, 3π/2, π/2, 2π`: the angle at index `1` is larger than the angle at index `2`,
so `splitAngles` is not non-decreasing. -/
theorem samples_not_sorted :
    ∃ s, updateAttributes realLibm unorderedControls 0 0 = some s ∧
      s.splitAngles = [0, 3 * Real.pi / 2, Real.pi / 2, 2 * Real.pi] ∧
      s.splitAngles[2]? = some (Real.pi / 2) ∧ s.splitAngles[1]? = some (3 * Real.pi / 2) ∧
      Real.pi / 2 < 3 * Real.pi / 2 ∧
      ¬ List.Pairwise (fun a b => a ≤ b) s.splitAngles := by
  have hpi := Real.pi_pos
  have hstart : realLibm.atan2 0 2 = 0 := realLibm_atan2_zero_nonneg 2 (by norm_num)
  have h1 : computeRadians realLibm ⟨2, 0, 0⟩ ⟨0, -2, 0⟩ = 3 * Real.pi / 2 := by
    rw [realLibm_radians _ _ _ _ (realLibm_atan2_neg_zero (-2) (by norm_num)) hstart,
      if_pos (by linarith)]
    ring
  have h2 : computeRadians realLibm ⟨2, 0, 0⟩ ⟨0, 2, 0⟩ = Real.pi / 2 := by
    rw [realLibm_radians _ _ _ _ (realLibm_atan2_pos_zero 2 (by norm_num)) hstart,
      if_neg (by linarith)]
    ring
  obtain ⟨s, hs⟩ : ∃ s, updateAttributes realLibm unorderedControls 0 0 = some s := ⟨_, rfl⟩
  have ha := (updateAttributes_samples realLibm ⟨2, 0, 10⟩ [⟨0, -2, 20⟩, ⟨0, 2, 30⟩] 0 0 s
    hs).1
  have hangles : s.splitAngles = [0, 3 * Real.pi / 2, Real.pi / 2, 2 * Real.pi] := by
    rw [ha]
    simp only [List.map_cons, List.map_nil, ControlPoint.dir, h1, h2, realLibm_pi,
      List.cons_append, List.nil_append]
  refine ⟨s, hs, hangles, by rw [hangles]; rfl, by rw [hangles]; rfl, by linarith, ?_⟩
  rw [hangles]
  intro h
  have h3 := (List.pairwise_cons.mp (List.pairwise_cons.mp h).2).1 (Real.pi / 2) (by simp)
  linarith

/-! ## `tensionNode`: isolated vertices and the reference definition -/

theorem realLibm_powNonnegRoot : realLibm.PowNonnegRoot := by
  intro x n hx hn
  rcases lt_or_eq_of_le hx with h | h
  · exact realLibm_powRoot x n h hn
  · subst h
    have hn0 : n ≠ 0 := Nat.pos_iff_ne_zero.mp hn
    have hn1 : (0 : ℝ) < 1 / (n : ℝ) := by
      have : (0 : ℝ) < n := Nat.cast_pos.mpr hn
      positivity
    show realPow (Dbl.fin ((0 : ℝ) ^ n)) (Dbl.fin (1 / (n : ℝ))) = Dbl.fin 0
    rw [zero_pow hn0]
    unfold realPow
    have hc : ¬(Dbl.fin (0 : ℝ) = Dbl.fin 1 ∨ Dbl.fin (1 / (n : ℝ)) = Dbl.fin 0) := by
      intro h
      rcases h with h | h
      · exact zero_ne_one (Dbl.fin.inj h)
      · exact (ne_of_gt hn1) (Dbl.fin.inj h)
    rw [if_neg hc]
    simp only [lt_irrefl, if_false, if_true, hn1]

/-- When the vertex loop returns, every vertex it visited has a tension. -/
theorem vertexLoop_some (L : Libm K) (neutral deformed : Mesh K) :
    ∀ (remaining id : Nat) (arr res : List (Dbl K)),
      vertexLoop L neutral deformed id remaining arr = some res →
      ∀ i, id ≤ i → i < id + remaining → ∃ t, vertexTension L neutral deformed i = some t := by
  intro remaining
  induction remaining with
  | zero => intro id arr res _ i h1 h2; omega
  | succ n ih =>
    intro id arr res h i h1 h2
    cases ht : vertexTension L neutral deformed id with
    | none => simp [vertexLoop, ht] at h
    | some t =>
      simp only [vertexLoop, ht, Option.bind_eq_bind, Option.some_bind] at h
      rcases Nat.eq_or_lt_of_le h1 with h3 | h3
      · rw [← h3]; exact ⟨t, ht⟩
      · exact ih (id + 1) _ res h i h3 (by omega)

/-- When `updateTension` returns, the new array has one entry per neutral-mesh vertex, and
the entry of every vertex is the tension of that vertex. -/
theorem updateTension_getElem (L : Libm K) (tensionArray : List (Dbl K))
    (neutral deformed : Mesh K) (res : List (Dbl K))
    (h : updateTension L tensionArray neutral deformed = some res) :
    res.length = neutral.length ∧
      ∀ i, i < neutral.length → ∃ t, vertexTension L neutral deformed i = some t ∧
        res[i]? = some t := by
  have hall : ∀ i, i < neutral.length →
      vertexTension L neutral deformed i =
        some ((vertexTension L neutral deformed i).getD Dbl.nan) := by
    intro i hi
    obtain ⟨t, ht⟩ := vertexLoop_some L neutral deformed neutral.length 0 _ res h i
      (Nat.zero_le _) (by omega)
    rw [ht]; rfl
  have hmap := updateTension_eq_map L tensionArray neutral deformed
    (fun i => (vertexTension L neutral deformed i).getD Dbl.nan) hall
  rw [h] at hmap
  have hres := Option.some.inj hmap
  constructor
  · rw [hres]; simp
  · intro i hi
    refine ⟨_, hall i hi, ?_⟩
    rw [hres, List.getElem?_map, List.getElem?_range hi]
    rfl

/-- The tension of a vertex with no neighbour, through a `pow` with `pow(1, y) = 1`. -/
theorem vertexTension_isolated (L : Libm K) (hpow : L.PowOne) (neutral deformed : Mesh K)
    (id : Nat) (v : MeshVertex K) (hv : neutral[id]? = some v)
    (hiso : v.connectedVertices = []) :
    vertexTension L neutral deformed id = some (Dbl.fin 0) := by
  simp only [vertexTension, vertexDelta, hv, hiso, edgeLoop, Option.bind_eq_bind,
    Option.some_bind, Option.map_some', hpow _, tensionValue_fin]
  simp

/-- The tension of every vertex of a mesh with non-zero edges compared with itself. -/
theorem vertexTension_rest (L : Libm K) (hpow : L.PowOne) (M : Mesh K)
    (hM : EdgesNonZero L M) (i : Nat) (hi : i < M.length) :
    vertexTension L M M i = some (Dbl.fin 0) := by
  obtain ⟨v, hv⟩ : ∃ v, M[i]? = some v := ⟨M[i], List.getElem?_eq_getElem hi⟩
  have h := vertexTension_const L M M i 1 v v hv hv
    (fun c hc => by
      obtain ⟨w, hw, hne⟩ := hM i c v hv hc
      exact ⟨w, w, hw, hw, hne, (one_mul _).symm⟩)
    (by rw [one_pow]; exact hpow _)
  rw [h]
  simp

/-- C11 (amended). For a vertex with zero neighbours (`edgeNum = 0`) the exponent
`1.0 / edgeNum` is a division by zero and is `+inf`; with `pow(1, y) = 1` for every `y`
the tension of the vertex is `0`, and `0` is what `updateTension` stores for it. -/
theorem isolated_vertex_tension (L : Libm K) (hpow : L.PowOne) (tensionArray : List (Dbl K))
    (neutral deformed : Mesh K) (id : Nat) (v : MeshVertex K) (hv : neutral[id]? = some v)
    (hiso : v.connectedVertices.length = 0) :
    (Dbl.fin 1 / Dbl.fin ((v.connectedVertices.length : Nat) : K) : Dbl K) = Dbl.pinf ∧
      vertexTension L neutral deformed id = some (Dbl.fin 0) ∧
      ∀ res, updateTension L tensionArray neutral deformed = some res →
        res[id]? = some (Dbl.fin 0) := by
  have hnil : v.connectedVertices = [] := List.length_eq_zero.mp hiso
  have ht := vertexTension_isolated L hpow neutral deformed id v hv hnil
  refine ⟨?_, ht, ?_⟩
  · rw [hiso]
    show Dbl.div (Dbl.fin 1) (Dbl.fin ((0 : Nat) : K)) = Dbl.pinf
    simp [Dbl.div]
  · intro res hres
    have hid : id < neutral.length := by
      rcases Nat.lt_or_ge id neutral.length with h | h
      · exact h
      · rw [List.getElem?_eq_none h] at hv; cases hv
    obtain ⟨t, h1, h2⟩ := (updateTension_getElem L tensionArray neutral deformed res hres).2
      id hid
    rw [ht] at h1
    rw [h2, ← Option.some.inj h1]

/-- Witness of C11 (amended): the isolated vertex `2` of `pointedSegment`. -/
theorem isolated_vertex_tension_witness :
    (Dbl.fin 1 / Dbl.fin ((([] : List Nat).length : Nat) : ℝ) : Dbl ℝ) = Dbl.pinf ∧
      vertexTension realLibm pointedSegment pointedSegment 2 = some (Dbl.fin 0) ∧
      ∀ res, updateTension realLibm [] pointedSegment pointedSegment = some res →
        res[2]? = some (Dbl.fin 0) :=
  isolated_vertex_tension realLibm realLibm_powOne [] pointedSegment pointedSegment 2
    ⟨⟨5, 5, 5⟩, []⟩ rfl rfl

/-- C11, counterexample. Vertex `2` of `pointedSegment` has no neighbour; with the mesh
as neutral and as deformed mesh `updateTension` returns an array whose entry `2` is the
finite value `0`, not `NaN`. -/
theorem isolated_vertex_not_nan :
    pointedSegment[2]? = some ⟨⟨5, 5, 5⟩, []⟩ ∧
      ∃ res, updateTension realLibm [] pointedSegment pointedSegment = some res ∧
        res[2]? = some (Dbl.fin 0) ∧ res[2]? ≠ some Dbl.nan := by
  refine ⟨rfl, List.replicate 3 (Dbl.fin 0), ?_, rfl, ?_⟩
  · rw [updateTension_eq_map realLibm [] pointedSegment pointedSegment (fun _ => Dbl.fin 0)
      (fun i hi => vertexTension_rest realLibm realLibm_powOne pointedSegment
        pointedSegment_edges i hi)]
    rfl
  · intro h
    have h2 : (some (Dbl.fin (0 : ℝ)) : Option (Dbl ℝ)) = some Dbl.nan := h
    cases h2

/-- The edge loop on a vertex whose neighbours exist in both meshes, with non-zero neutral
edge lengths: `delta` is multiplied by every edge ratio of the specification. -/
theorem edgeLoop_prod (L : Libm K) (neutral deformed : Mesh K) (id : Nat)
    (v v2 : MeshVertex K) (hv : neutral[id]? = some v) (hv2 : deformed[id]? = some v2) :
    ∀ (cs : List Nat) (d : K),
      (∀ c, c ∈ cs → ∃ w w2, neutral[c]? = some w ∧ deformed[c]? = some w2 ∧
        (w.position.sub v.position).length L ≠ 0) →
      edgeLoop L neutral deformed id cs (Dbl.fin d) =
        some (Dbl.fin (d * (cs.map (edgeRatio L neutral deformed id)).prod)) := by
  intro cs
  induction cs with
  | nil => intro d _; simp [edgeLoop]
  | cons c rest ih =>
    intro d h
    obtain ⟨w, w2, hw, hw2, hne⟩ := h c (List.mem_cons_self _ _)
    have hrest := ih (d * edgeRatio L neutral deformed id c)
      (fun c2 hc2 => h c2 (List.mem_cons_of_mem _ hc2))
    have hratio : edgeRatio L neutral deformed id c =
        (w2.position.sub v2.position).length L / (w.position.sub v.position).length L := by
      simp [edgeRatio, positionOf, hv, hv2, hw, hw2]
    simp only [edgeLoop, hv, hv2, hw, hw2, Option.map_some', Option.bind_eq_bind,
      Option.some_bind]
    rw [Dbl.fin_div_fin _ _ hne, Dbl.fin_mul_fin, ← hratio, hrest, List.map_cons,
      List.prod_cons, mul_assoc]

/-- The edge loop returns as soon as the vertex and its neighbours exist in both meshes. -/
theorem edgeLoop_isSome (L : Libm K) (neutral deformed : Mesh K) (id : Nat)
    (v v2 : MeshVertex K) (hv : neutral[id]? = some v) (hv2 : deformed[id]? = some v2) :
    ∀ (cs : List Nat) (d : Dbl K),
      (∀ c, c ∈ cs → ∃ w w2, neutral[c]? = some w ∧ deformed[c]? = some w2) →
      ∃ d2, edgeLoop L neutral deformed id cs d = some d2 := by
  intro cs
  induction cs with
  | nil => intro d _; exact ⟨d, rfl⟩
  | cons c rest ih =>
    intro d h
    obtain ⟨w, w2, hw, hw2⟩ := h c (List.mem_cons_self _ _)
    simp only [edgeLoop, hv, hv2, hw, hw2, Option.map_some', Option.bind_eq_bind,
      Option.some_bind]
    exact ih _ (fun c2 hc2 => h c2 (List.mem_cons_of_mem _ hc2))

/-- In a mesh with `EdgesNonZero` every neighbour index is a vertex of the mesh. -/
theorem EdgesNonZero.inRange (L : Libm K) (M : Mesh K) (hM : EdgesNonZero L M) :
    ∀ (i c : Nat) (v : MeshVertex K), M[i]? = some v → c ∈ v.connectedVertices →
      c < M.length := by
  intro i c v hv hc
  obtain ⟨w, hw, _⟩ := hM i c v hv hc
  rcases Nat.lt_or_ge c M.length with h | h
  · exact h
  · rw [List.getElem?_eq_none h] at hw; cases hw

/-- C18. For every pair of meshes with the same number of vertices and every neighbour
index a vertex of the mesh, `updateTension` returns a `tensionArray` with exactly one
entry per neutral-mesh vertex, and for every vertex `v` with `n >= 1` neighbours and
non-zero neutral edge lengths it stores `f(delta)` at index `v`, where `delta >= 0` is the
`n`-th root of the product of the edge ratios `|D(u_i) - D(v)| / |N(u_i) - N(v)|` and
`f(delta) = 1 - 1/delta` if `delta > 1`, else `delta - 1`. -/
theorem tension_reference (L : Libm K) (hpow : L.PowNonnegRoot)
    (tensionArray : List (Dbl K)) (neutral deformed : Mesh K)
    (hlen : deformed.length = neutral.length)
    (hwf : ∀ (i c : Nat) (v : MeshVertex K), neutral[i]? = some v →
      c ∈ v.connectedVertices → c < neutral.length) :
    ∃ res, updateTension L tensionArray neutral deformed = some res ∧
      res.length = neutral.length ∧
      ∀ (i : Nat) (v : MeshVertex K) (delta : K), neutral[i]? = some v →
        1 ≤ v.connectedVertices.length →
        (∀ u, u ∈ v.connectedVertices →
          ((positionOf neutral u).sub (positionOf neutral i)).length L ≠ 0) →
        0 ≤ delta →
        delta ^ v.connectedVertices.length = stretchProduct L neutral deformed i →
        res[i]? = some (Dbl.fin (if 1 < delta then 1 - 1 / delta else delta - 1)) := by
  have hgetN : ∀ i, i < neutral.length → ∃ w, neutral[i]? = some w := by
    intro i hi
    exact ⟨neutral[i], List.getElem?_eq_getElem hi⟩
  have hgetD : ∀ i, i < neutral.length → ∃ v2, deformed[i]? = some v2 := by
    intro i hi
    exact ⟨deformed[i], List.getElem?_eq_getElem (by omega)⟩
  have hlt : ∀ (i : Nat) (w : MeshVertex K), neutral[i]? = some w → i < neutral.length := by
    intro i w hw
    rcases Nat.lt_or_ge i neutral.length with h | h
    · exact h
    · rw [List.getElem?_eq_none h] at hw; cases hw
  have hall : ∀ i, i < neutral.length →
      vertexTension L neutral deformed i =
        some ((vertexTension L neutral deformed i).getD Dbl.nan) := by
    intro i hi
    obtain ⟨v, hv⟩ := hgetN i hi
    obtain ⟨v2, hv2⟩ := hgetD i hi
    obtain ⟨d2, hd2⟩ := edgeLoop_isSome L neutral deformed i v v2 hv hv2 v.connectedVertices
      (Dbl.fin 1)
      (fun c hc => by
        obtain ⟨w, hw⟩ := hgetN c (hwf i c v hv hc)
        obtain ⟨w2, hw2⟩ := hgetD c (hwf i c v hv hc)
        exact ⟨w, w2, hw, hw2⟩)
    simp only [vertexTension, vertexDelta, hv, hd2, Option.bind_eq_bind, Option.some_bind,
      Option.map_some', Option.getD_some]
  refine ⟨_, updateTension_eq_map L tensionArray neutral deformed _ hall, by simp, ?_⟩
  intro i v delta hv hn hne hd hroot
  have hi := hlt i v hv
  obtain ⟨v2, hv2⟩ := hgetD i hi
  have hpos : positionOf neutral i = v.position := by simp [positionOf, hv]
  have hloop := edgeLoop_prod L neutral deformed i v v2 hv hv2 v.connectedVertices 1
    (fun c hc => by
      obtain ⟨w, hw⟩ := hgetN c (hwf i c v hv hc)
      obtain ⟨w2, hw2⟩ := hgetD c (hwf i c v hv hc)
      have h := hne c hc
      rw [hpos] at h
      have hposc : positionOf neutral c = w.position := by simp [positionOf, hw]
      rw [hposc] at h
      exact ⟨w, w2, hw, hw2, h⟩)
  rw [one_mul] at hloop
  have hprod : stretchProduct L neutral deformed i =
      (v.connectedVertices.map (edgeRatio L neutral deformed i)).prod := by
    simp [stretchProduct, hv]
  have hexp : (Dbl.fin 1 / Dbl.fin (v.connectedVertices.length : K) : Dbl K) =
      Dbl.fin (1 / (v.connectedVertices.length : K)) :=
    Dbl.fin_div_fin _ _ (Nat.cast_ne_zero.mpr (by omega))
  rw [List.getElem?_map, List.getElem?_range hi, Option.map_some']
  simp only [vertexTension, vertexDelta, hv, hloop, Option.bind_eq_bind, Option.some_bind,
    Option.map_some', Option.getD_some]
  rw [← hprod, ← hroot, hexp, hpow delta _ hd (by omega), tensionValue_fin]

/-- Witness of C18: one edge, neutral against the mesh scaled by `2`. -/
theorem tension_reference_witness :
    ∃ res, updateTension realLibm [] segmentMesh (scaleMesh 2 segmentMesh) = some res ∧
      res.length = segmentMesh.length ∧
      ∀ (i : Nat) (v : MeshVertex ℝ) (delta : ℝ), segmentMesh[i]? = some v →
        1 ≤ v.connectedVertices.length →
        (∀ u, u ∈ v.connectedVertices →
          ((positionOf segmentMesh u).sub (positionOf segmentMesh i)).length realLibm ≠ 0) →
        0 ≤ delta →
        delta ^ v.connectedVertices.length =
          stretchProduct realLibm segmentMesh (scaleMesh 2 segmentMesh) i →
        res[i]? = some (Dbl.fin (if 1 < delta then 1 - 1 / delta else delta - 1)) :=
  tension_reference realLibm realLibm_powNonnegRoot [] segmentMesh (scaleMesh 2 segmentMesh)
    (by simp [scaleMesh]) (EdgesNonZero.inRange realLibm segmentMesh segmentMesh_edges)

/-! ## The GPU buffer reader: buffers and memory accounting -/

/-- The function `extractParameters` once it is past its early returns with a non-empty
index list.  A buffer is kept when it exists and its recorded size suffices; otherwise it
is released if it exists, and a new one of the required size is requested. -/
theorem extractParameters_run {F : Type} [Zero F] (r : lsGPUBufferReader F) (mem : GPUMemory)
    (inp : FrameInput) (cl : CLCalls F) (indices : List Int)
    (keepIndex keepOutput : Bool)
    (hguard : (r.fCLParameterIndices && r.output_CLMemPtr && !inp.parametersModified &&
      !inp.indicesModified) = false)
    (hstatus : inp.parametersStatus = true) (hind : inp.indices = some indices)
    (hnum : 0 < indices.length)
    (hki : keepIndex = (r.fCLParameterIndices &&
      !decide (r.indexBufferSize < indices.length * sizeofInt)))
    (hko : keepOutput = (r.output_CLMemPtr &&
      !decide (r.pointsBufferSize < 3 * indices.length * sizeofInt))) :
    r.extractParameters mem inp cl =
      ({ r with
          indicesNum := indices.length
          positions := resizeVec r.positions (indices.length * 3)
          fCLParameterIndices := keepIndex || decide (cl.createIndexBuffer = CL_SUCCESS)
          indexBufferSize :=
            if keepIndex then r.indexBufferSize else indices.length * sizeofInt
          output_CLMemPtr := keepOutput || decide (cl.createOutputBuffer = CL_SUCCESS)
          pointsBufferSize :=
            if keepOutput then r.pointsBufferSize else 3 * indices.length * sizeofInt },
        { held := mem.held + (if keepIndex then 0 else indices.length * sizeofInt) +
            (if keepOutput then 0 else 3 * indices.length * sizeofInt)
          released := mem.released +
            (if r.fCLParameterIndices && !keepIndex then r.indexBufferSize else 0) +
            (if r.output_CLMemPtr && !keepOutput then r.pointsBufferSize else 0) }) := by
  have hne : indices.length ≠ 0 := Nat.pos_iff_ne_zero.mp hnum
  subst hki hko
  simp only [lsGPUBufferReader.extractParameters, hguard, hstatus, hind, hne]
  cases h1 : r.fCLParameterIndices <;> cases h2 : r.output_CLMemPtr <;>
    by_cases h3 : r.indexBufferSize < indices.length * sizeofInt <;>
    by_cases h4 : r.pointsBufferSize < 3 * indices.length * sizeofInt <;>
    simp [releaseSmallIndexBuffer, releaseSmallOutputBuffer, provideIndexBuffer,
      provideOutputBuffer, h1, h2, h3, h4, GPUMemory.holdGPUMemory,
      GPUMemory.releaseGPUMemory]

/-- C19 (amended). Whenever `extractParameters` runs past its early returns with
`indicesNum > 0`, on exit `indexBufferSize >= indicesNum * sizeof(int)` and
`pointsBufferSize >= 3 * indicesNum * sizeof(int)`; a buffer is allocated on exit when the
`clCreateBuffer` call for it reports `CL_SUCCESS` or when it existed with a sufficient
recorded size (it is then kept, with its size); memory is released only for an existing
buffer whose recorded size is below the required size; and the recorded size of a buffer
that exists on entry does not decrease. -/
theorem buffer_capacity {F : Type} [Zero F] (r : lsGPUBufferReader F) (mem : GPUMemory)
    (inp : FrameInput) (cl : CLCalls F) (indices : List Int)
    (hguard : (r.fCLParameterIndices && r.output_CLMemPtr && !inp.parametersModified &&
      !inp.indicesModified) = false)
    (hstatus : inp.parametersStatus = true) (hind : inp.indices = some indices)
    (hnum : 0 < indices.length) :
    (r.extractParameters mem inp cl).1.indicesNum = indices.length ∧
      indices.length * sizeofInt ≤ (r.extractParameters mem inp cl).1.indexBufferSize ∧
      3 * indices.length * sizeofInt ≤ (r.extractParameters mem inp cl).1.pointsBufferSize ∧
      (cl.createIndexBuffer = CL_SUCCESS →
        (r.extractParameters mem inp cl).1.fCLParameterIndices = true) ∧
      (cl.createOutputBuffer = CL_SUCCESS →
        (r.extractParameters mem inp cl).1.output_CLMemPtr = true) ∧
      (r.fCLParameterIndices = true → indices.length * sizeofInt ≤ r.indexBufferSize →
        (r.extractParameters mem inp cl).1.fCLParameterIndices = true ∧
        (r.extractParameters mem inp cl).1.indexBufferSize = r.indexBufferSize) ∧
      (r.output_CLMemPtr = true → 3 * indices.length * sizeofInt ≤ r.pointsBufferSize →
        (r.extractParameters mem inp cl).1.output_CLMemPtr = true ∧
        (r.extractParameters mem inp cl).1.pointsBufferSize = r.pointsBufferSize) ∧
      (r.extractParameters mem inp cl).2.released = mem.released +
        (if r.fCLParameterIndices = true ∧ r.indexBufferSize < indices.length * sizeofInt
          then r.indexBufferSize else 0) +
        (if r.output_CLMemPtr = true ∧ r.pointsBufferSize < 3 * indices.length * sizeofInt
          then r.pointsBufferSize else 0) ∧
      (r.fCLParameterIndices = true →
        r.indexBufferSize ≤ (r.extractParameters mem inp cl).1.indexBufferSize) ∧
      (r.output_CLMemPtr = true →
        r.pointsBufferSize ≤ (r.extractParameters mem inp cl).1.pointsBufferSize) := by
  rw [extractParameters_run r mem inp cl indices _ _ hguard hstatus hind hnum rfl rfl]
  cases h1 : r.fCLParameterIndices <;> cases h2 : r.output_CLMemPtr <;>
    by_cases h3 : r.indexBufferSize < indices.length * sizeofInt <;>
    by_cases h4 : r.pointsBufferSize < 3 * indices.length * sizeofInt <;>
    simp [h1, h2, h3, h4] <;> omega

/-- Witness of C19 (amended): a new reader and a list of two indices. -/
theorem buffer_capacity_witness :
    ((lsGPUBufferReader.new Int).extractParameters ⟨0, 0⟩ (frameOf [3, 1])
        okCalls).1.indicesNum = [(3 : Int), 1].length ∧
      [(3 : Int), 1].length * sizeofInt ≤
        ((lsGPUBufferReader.new Int).extractParameters ⟨0, 0⟩ (frameOf [3, 1])
          okCalls).1.indexBufferSize ∧
      3 * [(3 : Int), 1].length * sizeofInt ≤
        ((lsGPUBufferReader.new Int).extractParameters ⟨0, 0⟩ (frameOf [3, 1])
          okCalls).1.pointsBufferSize :=
  have h := buffer_capacity (lsGPUBufferReader.new Int) ⟨0, 0⟩ (frameOf [3, 1]) okCalls [3, 1]
    (by decide) (by decide) (by decide) (by decide)
  ⟨h.1, h.2.1, h.2.2.1⟩

/-- C19, counterexample. On a new reader, `extractParameters` with ten indices and a
`clCreateBuffer` that fails for the index buffer runs past the early returns and leaves no
index buffer, with a recorded size of `40`; a second call with five indices, no
`terminate` in between, lowers the recorded size to `20`. -/
theorem buffer_size_decreases :
    (((lsGPUBufferReader.new Int).extractParameters ⟨0, 0⟩ (frameOf (List.replicate 10 0))
        { okCalls with createIndexBuffer := -4 }).1.fCLParameterIndices = false) ∧
      (((lsGPUBufferReader.new Int).extractParameters ⟨0, 0⟩ (frameOf (List.replicate 10 0))
        { okCalls with createIndexBuffer := -4 }).1.indicesNum = 10) ∧
      (runCalls [ReaderCall.extractParameters (frameOf (List.replicate 10 0))
          { okCalls with createIndexBuffer := -4 }]
        (lsGPUBufferReader.new Int, ⟨0, 0⟩)).1.indexBufferSize = 40 ∧
      (runCalls [ReaderCall.extractParameters (frameOf (List.replicate 10 0))
          { okCalls with createIndexBuffer := -4 },
          ReaderCall.extractParameters (frameOf (List.replicate 5 0)) okCalls]
        (lsGPUBufferReader.new Int, ⟨0, 0⟩)).1.indexBufferSize = 20 := by
  refine ⟨by decide, by decide, by decide, by decide⟩

/-- C20, the code at the failing input. A new reader, `extractParameters` with one index
(both `clCreateBuffer` calls succeed), then `terminate`, then the destructor: `16` bytes
were passed to `holdGPUMemory` and `32` to `releaseGPUMemory`, because `terminate` leaves
`indexBufferSize` and `pointsBufferSize` as they are and the destructor calls it again. -/
theorem double_release :
    (runCalls [ReaderCall.extractParameters (frameOf [7]) okCalls, ReaderCall.terminate,
        ReaderCall.destructor] (lsGPUBufferReader.new Int, ⟨0, 0⟩)).2.held = 16 ∧
      (runCalls [ReaderCall.extractParameters (frameOf [7]) okCalls, ReaderCall.terminate,
        ReaderCall.destructor] (lsGPUBufferReader.new Int, ⟨0, 0⟩)).2.released = 32 ∧
      (runCalls [ReaderCall.extractParameters (frameOf [7]) okCalls, ReaderCall.terminate]
        (lsGPUBufferReader.new Int, ⟨0, 0⟩)).1.indexBufferSize = 4 ∧
      (runCalls [ReaderCall.extractParameters (frameOf [7]) okCalls, ReaderCall.terminate]
        (lsGPUBufferReader.new Int, ⟨0, 0⟩)).1.pointsBufferSize = 12 := by
  refine ⟨by decide, by decide, by decide, by decide⟩

/-! ## The GPU buffer reader: statuses and the empty index list -/

theorem updateBufferLoop_isSome {F G : Type} (setOutputs : G → Nat → F × F × F → G)
    (positions : List F) (size : Nat) (hsize : size ≤ positions.length) :
    ∀ (coordinates : List Nat) (offset : Nat) (outputs : G),
      (updateBufferLoop setOutputs positions size coordinates offset outputs).isSome = true
  | [], _, _ => rfl
  | index :: rest, offset, outputs => by
    unfold updateBufferLoop
    by_cases h : offset + 3 > size
    · rw [if_pos h]; rfl
    · rw [if_neg h]
      have h0 : offset < positions.length := by omega
      have h1 : offset + 1 < positions.length := by omega
      have h2 : offset + 2 < positions.length := by omega
      simp only [List.getElem?_eq_getElem h0, List.getElem?_eq_getElem h1,
        List.getElem?_eq_getElem h2, Option.bind_eq_bind, Option.some_bind]
      exact updateBufferLoop_isSome setOutputs positions size hsize rest _ _

theorem updateBuffer_isSome {F G : Type} (setOutputs : G → Nat → F × F × F → G)
    (node : LSBufferReaderNode F G) (buffer : List F) (size : Nat)
    (hsize : size ≤ buffer.length) :
    ∃ node', node.updateBuffer setOutputs buffer size = some node' := by
  unfold LSBufferReaderNode.updateBuffer
  cases hg : node.geometryInfo with
  | none => exact ⟨node, rfl⟩
  | some g =>
    simp only [LSGeometryInfo.updateBuffer]
    cases hgpu : g.gpuOverride
    · exact ⟨_, rfl⟩
    · have h := updateBufferLoop_isSome setOutputs buffer size hsize g.coordinateIndices 0
        g.outputs
      obtain ⟨res, hres⟩ := Option.isSome_iff_exists.mp h
      simp [hres]

theorem readBack_length {F : Type} (data : Nat → F) (n : Nat) :
    ∀ (positions : List F) (i : Nat), (readBack data n i positions).length = positions.length
  | [], _ => rfl
  | _ :: ps, i => by simp [readBack, readBack_length data n ps (i + 1)]

theorem enqueueReadBuffer_some {F G : Type} (setOutputs : G → Nat → F × F × F → G)
    (r : lsGPUBufferReader F) (node : Option (LSBufferReaderNode F G)) (cl : CLCalls F)
    (hinv : r.indicesNum * 3 ≤ r.positions.length) :
    ∃ r' node', r.enqueueReadBuffer setOutputs node cl = some (cl.enqueueReadBuffer, r', node') := by
  unfold lsGPUBufferReader.enqueueReadBuffer lsGPUBufferReader.updatePositions
  cases node with
  | none => exact ⟨_, _, rfl⟩
  | some n =>
    by_cases herr : cl.enqueueReadBuffer = CL_SUCCESS
    · obtain ⟨node', hnode⟩ := updateBuffer_isSome setOutputs n
        (readBack cl.readData (r.indicesNum * 3) 0 r.positions) (r.indicesNum * 3)
        (by rw [readBack_length]; exact hinv)
      simp [herr, hnode]
    · obtain ⟨node', hnode⟩ := updateBuffer_isSome setOutputs n r.positions
        (r.indicesNum * 3) hinv
      simp [herr, hnode]

theorem resizeVec_length {F : Type} [Zero F] (v : List F) (n : Nat) :
    (resizeVec v n).length = n := by
  simp [resizeVec]; omega

/-- What `extractParameters` leaves in the fields that `evaluate` reads afterwards: the
kernel is untouched, and either the reader is the one on entry, or only `indicesNum` was
set to zero, or `positions` has `3 * indicesNum` entries. -/
theorem extractParameters_fields {F : Type} [Zero F] (r : lsGPUBufferReader F)
    (mem : GPUMemory) (inp : FrameInput) (cl : CLCalls F) :
    (r.extractParameters mem inp cl).1.fKernel = r.fKernel ∧
      ((r.extractParameters mem inp cl = (r, mem)) ∨
        (r.extractParameters mem inp cl = ({ r with indicesNum := 0 }, mem)) ∨
        ((r.extractParameters mem inp cl).1.positions.length =
          (r.extractParameters mem inp cl).1.indicesNum * 3 ∧
          0 < (r.extractParameters mem inp cl).1.indicesNum)) := by
  by_cases hguard : (r.fCLParameterIndices && r.output_CLMemPtr && !inp.parametersModified &&
      !inp.indicesModified) = true
  · simp [lsGPUBufferReader.extractParameters, hguard]
  · have hguard' := Bool.eq_false_iff.mpr hguard
    cases hstatus : inp.parametersStatus
    · simp [lsGPUBufferReader.extractParameters, hguard, hstatus]
    · cases hind : inp.indices with
      | none => simp [lsGPUBufferReader.extractParameters, hguard, hstatus, hind]
      | some indices =>
        by_cases hnum : indices.length = 0
        · refine ⟨?_, Or.inr (Or.inl ?_)⟩ <;>
            simp [lsGPUBufferReader.extractParameters, hguard, hstatus, hind, hnum]
        · rw [extractParameters_run r mem inp cl indices _ _ hguard' hstatus hind
            (Nat.pos_of_ne_zero hnum) rfl rfl]
          refine ⟨rfl, Or.inr (Or.inr ⟨?_, Nat.pos_of_ne_zero hnum⟩)⟩
          exact resizeVec_length _ _

/-- The invariant of the reader between calls: `positions` holds at least `3 * indicesNum`
values.  It holds for a new reader and `extractParameters` keeps it. -/
theorem extractParameters_invariant {F : Type} [Zero F] (r : lsGPUBufferReader F)
    (mem : GPUMemory) (inp : FrameInput) (cl : CLCalls F)
    (hinv : r.indicesNum * 3 ≤ r.positions.length) :
    (r.extractParameters mem inp cl).1.indicesNum * 3 ≤
      (r.extractParameters mem inp cl).1.positions.length := by
  rcases (extractParameters_fields r mem inp cl).2 with h | h | h
  · rw [h]; exact hinv
  · rw [h]; simp
  · rw [h.1]

/-- The status of `evaluate` once it reaches the kernel launch. -/
theorem evaluate_launched {F G : Type} [Zero F] (setOutputs : G → Nat → F × F × F → G)
    (r : lsGPUBufferReader F) (mem : GPUMemory) (node : Option (LSBufferReaderNode F G))
    (inp : FrameInput) (cl : CLCalls F)
    (hvalid : inp.inputPositionsValid = true)
    (hinv : r.indicesNum * 3 ≤ r.positions.length)
    (hpos : (r.extractParameters mem inp cl).1.positions ≠ [])
    (hkernel : r.fKernel = true ∨ cl.getOpenCLKernel = true) :
    ∃ e, r.evaluate setOutputs mem node inp cl = some e ∧
      e.status = (if cl.enqueueNDRangeKernel = CL_SUCCESS ∧ cl.enqueueReadBuffer = CL_SUCCESS
        then DeformerStatus.kDeformerSuccess else DeformerStatus.kDeformerFailure) := by
  have hk := (extractParameters_fields r mem inp cl).1
  have hinv' := extractParameters_invariant r mem inp cl hinv
  rcases hres : r.extractParameters mem inp cl with ⟨r1, m1⟩
  rw [hres] at hk hinv' hpos
  simp only at hk hinv' hpos
  have hempty : r1.positions.isEmpty = false := by
    cases hp : r1.positions with
    | nil => exact absurd hp hpos
    | cons _ _ => rfl
  have hcompute : enqueueComputeData cl = cl.enqueueNDRangeKernel := rfl
  cases h1 : r1.fKernel
  · have hg : cl.getOpenCLKernel = true := by
      rcases hkernel with h | h
      · rw [← hk, h1] at h; exact absurd h (by decide)
      · exact h
    obtain ⟨r2, node2, hread⟩ := enqueueReadBuffer_some setOutputs
      { r1 with fKernel := true } node cl hinv'
    by_cases hnd : cl.enqueueNDRangeKernel = CL_SUCCESS
    · by_cases hrd : cl.enqueueReadBuffer = CL_SUCCESS
      · simp [lsGPUBufferReader.evaluate, hvalid, hres, hempty, h1, hg, hcompute, hnd, hrd,
          hread]
      · simp [lsGPUBufferReader.evaluate, hvalid, hres, hempty, h1, hg, hcompute, hnd, hrd,
          hread]
    · simp [lsGPUBufferReader.evaluate, hvalid, hres, hempty, h1, hg, hcompute, hnd]
  · obtain ⟨r2, node2, hread⟩ := enqueueReadBuffer_some setOutputs r1 node cl hinv'
    by_cases hnd : cl.enqueueNDRangeKernel = CL_SUCCESS
    · by_cases hrd : cl.enqueueReadBuffer = CL_SUCCESS
      · simp [lsGPUBufferReader.evaluate, hvalid, hres, hempty, h1, hcompute, hnd, hrd,
          hread]
      · simp [lsGPUBufferReader.evaluate, hvalid, hres, hempty, h1, hcompute, hnd, hrd,
          hread]
    · simp [lsGPUBufferReader.evaluate, hvalid, hres, hempty, h1, hcompute, hnd]

/-- C12 (amended). An evaluation on valid input positions that reaches the kernel launch
(the position cache is not empty after `extractParameters`, a kernel is held or loads)
returns a result, and the result is `kDeformerFailure` exactly when `clEnqueueNDRangeKernel`
or `clEnqueueReadBuffer` reports a status other than `CL_SUCCESS`: the statuses of
`clSetKernelArg`, `clGetKernelWorkGroupInfo`, `clCreateBuffer` and `clEnqueueWriteBuffer`
do not enter the returned status. -/
theorem gpu_error_propagation {F G : Type} [Zero F] (setOutputs : G → Nat → F × F × F → G)
    (r : lsGPUBufferReader F) (mem : GPUMemory) (node : Option (LSBufferReaderNode F G))
    (inp : FrameInput) (cl : CLCalls F)
    (hvalid : inp.inputPositionsValid = true)
    (hinv : r.indicesNum * 3 ≤ r.positions.length)
    (hpos : (r.extractParameters mem inp cl).1.positions ≠ [])
    (hkernel : r.fKernel = true ∨ cl.getOpenCLKernel = true) :
    ∃ e, r.evaluate setOutputs mem node inp cl = some e ∧
      (e.status = DeformerStatus.kDeformerFailure ↔
        (cl.enqueueNDRangeKernel ≠ CL_SUCCESS ∨ cl.enqueueReadBuffer ≠ CL_SUCCESS)) := by
  obtain ⟨e, he, hs⟩ := evaluate_launched setOutputs r mem node inp cl hvalid hinv hpos
    hkernel
  refine ⟨e, he, ?_⟩
  rw [hs]
  by_cases hnd : cl.enqueueNDRangeKernel = CL_SUCCESS <;>
    by_cases hrd : cl.enqueueReadBuffer = CL_SUCCESS <;> simp [hnd, hrd]

/-- Witness of C12 (amended): the first frame of a new reader with two indices, every call
succeeding. -/
theorem gpu_error_propagation_witness :
    ∃ e, (lsGPUBufferReader.new Int).evaluate recordOutputs ⟨0, 0⟩ none (frameOf [3, 1])
        okCalls = some e ∧
      (e.status = DeformerStatus.kDeformerFailure ↔
        (okCalls.enqueueNDRangeKernel ≠ CL_SUCCESS ∨ okCalls.enqueueReadBuffer ≠ CL_SUCCESS)) :=
  gpu_error_propagation recordOutputs (lsGPUBufferReader.new Int) ⟨0, 0⟩ none (frameOf [3, 1])
    okCalls (by decide) (by decide) (by decide) (Or.inr (by decide))

/-- C12, counterexample. On the first frame of a new reader with two indices, an error
status of `clSetKernelArg`, of `clGetKernelWorkGroupInfo` or of `clCreateBuffer` leaves the
result `kDeformerSuccess`; so does an error status of `clEnqueueWriteBuffer` on the second
frame. -/
theorem ignored_call_errors :
    ((lsGPUBufferReader.new Int).evaluate recordOutputs ⟨0, 0⟩ none (frameOf [3, 1])
        { okCalls with setKernelArgCount := -51 }).map Evaluated.status =
        some DeformerStatus.kDeformerSuccess ∧
      ((lsGPUBufferReader.new Int).evaluate recordOutputs ⟨0, 0⟩ none (frameOf [3, 1])
        { okCalls with getKernelWorkGroupInfo := -30 }).map Evaluated.status =
        some DeformerStatus.kDeformerSuccess ∧
      ((lsGPUBufferReader.new Int).evaluate recordOutputs ⟨0, 0⟩ none (frameOf [3, 1])
        { okCalls with createOutputBuffer := -4 }).map Evaluated.status =
        some DeformerStatus.kDeformerSuccess ∧
      (((lsGPUBufferReader.new Int).evaluate recordOutputs ⟨0, 0⟩ none (frameOf [3, 1])
        okCalls).bind fun e => e.reader.evaluate recordOutputs e.memory e.node
          (frameOf [3, 1]) { okCalls with enqueueWriteBuffer := -5 }).map Evaluated.status =
        some DeformerStatus.kDeformerSuccess := by
  refine ⟨by decide, by decide, by decide, by decide⟩

/-- C21. For every `indicesNum` and every `localWorkSize > 0`, `globalWorkSize` is a
multiple of `localWorkSize`, strictly greater than `indicesNum` and at most
`indicesNum + localWorkSize`; when `indicesNum` is a multiple of `localWorkSize` it is
`indicesNum + localWorkSize`, one whole work group more.  With `indicesNum` below `2^32`
(it is read from an `unsigned int`) the computation stays below `2^64` and does not wrap
in `size_t`. -/
theorem work_size (localWorkSize indicesNum : Nat) (h : 0 < localWorkSize) :
    localWorkSize ∣ globalWorkSize localWorkSize indicesNum ∧
      indicesNum < globalWorkSize localWorkSize indicesNum ∧
      globalWorkSize localWorkSize indicesNum ≤ indicesNum + localWorkSize ∧
      (localWorkSize ∣ indicesNum →
        globalWorkSize localWorkSize indicesNum = indicesNum + localWorkSize) ∧
      (indicesNum < 2 ^ 32 → localWorkSize < 2 ^ 64 →
        globalWorkSize localWorkSize indicesNum < 2 ^ 64) := by
  have hmod : indicesNum % localWorkSize < localWorkSize := Nat.mod_lt _ h
  have hdiv : localWorkSize * (indicesNum / localWorkSize) + indicesNum % localWorkSize =
      indicesNum := Nat.div_add_mod _ _
  unfold globalWorkSize
  refine ⟨⟨indicesNum / localWorkSize + 1, ?_⟩, by omega, by omega, ?_, ?_⟩
  · rw [Nat.mul_add, Nat.mul_one]; omega
  · intro hd
    have h0 : indicesNum % localWorkSize = 0 := Nat.mod_eq_zero_of_dvd hd
    omega
  · intro hn hl
    rcases Nat.lt_or_ge indicesNum localWorkSize with hlt | hge
    · rw [Nat.mod_eq_of_lt hlt]; omega
    · have : (2 : Nat) ^ 33 < 2 ^ 64 := by norm_num
      have h32 : (2 : Nat) ^ 33 = 2 * 2 ^ 32 := by norm_num
      omega

/-- Witness of C21: `130` indices with a work group size of `64`. -/
theorem work_size_witness :
    64 ∣ globalWorkSize 64 130 ∧ 130 < globalWorkSize 64 130 ∧
      globalWorkSize 64 130 ≤ 130 + 64 ∧
      (64 ∣ 130 → globalWorkSize 64 130 = 130 + 64) ∧
      (130 < 2 ^ 32 → 64 < 2 ^ 64 → globalWorkSize 64 130 < 2 ^ 64) :=
  work_size 64 130 (by decide)

/-! ## `LSGeometryInfo::compute`: the returned status -/

/-- The first `i + 1` entries of an array after writing entry `i`. -/
theorem take_succ_set (a : Int) :
    ∀ (l : List Int) (i : Nat), i < l.length → (l.set i a).take (i + 1) = l.take i ++ [a]
  | [], _, h => by simp at h
  | _ :: _, 0, _ => by simp
  | x :: xs, i + 1, h => by
    have hi : i < xs.length := by simpa using h
    simp [take_succ_set a xs i hi]

/-- The loop of `computeParameters` overwrites the slots from `i` on with the `index`
children, in element order. -/
theorem computeParametersLoop_eq :
    ∀ (coordinate : List Int) (i : Nat) (indices : List Int),
      indices.length = i + coordinate.length →
      computeParametersLoop coordinate i indices = indices.take i ++ coordinate
  | [], i, indices, h => by
    simp only [computeParametersLoop, List.append_nil]
    exact (List.take_of_length_le (by simp at h; omega)).symm
  | index :: rest, i, indices, h => by
    simp only [computeParametersLoop]
    have hlen : (indices.set i index).length = (i + 1) + rest.length := by
      simp at h ⊢; omega
    have hi : i < indices.length := by simp at h; omega
    rw [computeParametersLoop_eq rest (i + 1) _ hlen, take_succ_set index indices i hi]
    simp

/-- C29. The function `LSGeometryInfo::compute` returns `kSuccess` only for a plug of
`translate`, `rotate` or `matrix`; for every other plug it returns `kUnknownParameter`.
For the `indexList` plug it stores the index list, which holds the `index` child of every
`coordinate` element in element order and has the length of the `coordinate` array,
changes nothing else, and returns `kUnknownParameter`. -/
theorem geometry_compute_status {G : Type} (updateFromMesh updateFromNurbs : Int → Int → G → G)
    (plug : GeometryPlug) (b : GeometryBlock G) :
    ((LSGeometryInfo.compute updateFromMesh updateFromNurbs plug b).1 = MStatus.kSuccess →
        ∃ i, plug = GeometryPlug.aTranslate i ∨ plug = GeometryPlug.aRotate i ∨
          plug = GeometryPlug.aMatrix i) ∧
      ((∀ i, plug ≠ GeometryPlug.aTranslate i ∧ plug ≠ GeometryPlug.aRotate i ∧
          plug ≠ GeometryPlug.aMatrix i) →
        (LSGeometryInfo.compute updateFromMesh updateFromNurbs plug b).1 =
          MStatus.kUnknownParameter) ∧
      LSGeometryInfo.compute updateFromMesh updateFromNurbs GeometryPlug.aIndices b =
        (MStatus.kUnknownParameter, { b with indices := some b.coordinate }) ∧
      ∀ indices, (LSGeometryInfo.compute updateFromMesh updateFromNurbs
          GeometryPlug.aIndices b).2.indices = some indices →
        indices.length = b.coordinate.length ∧
        ∀ i : Nat, i < b.coordinate.length → indices[i]? = b.coordinate[i]? := by
  have hloop : computeParametersLoop b.coordinate 0 (List.replicate b.coordinate.length 0) =
      b.coordinate := by
    rw [computeParametersLoop_eq _ _ _ (by simp)]; simp
  have hidx : LSGeometryInfo.compute updateFromMesh updateFromNurbs GeometryPlug.aIndices b =
      (MStatus.kUnknownParameter, { b with indices := some b.coordinate }) := by
    simp [LSGeometryInfo.compute, LSGeometryInfo.computeParameters, GeometryPlug.outputIndex,
      hloop]
  refine ⟨?_, ?_, hidx, ?_⟩
  · intro h
    cases plug with
    | aIndices => rw [hidx] at h; cases h
    | aTranslate i => exact ⟨i, Or.inl rfl⟩
    | aRotate i => exact ⟨i, Or.inr (Or.inl rfl)⟩
    | aMatrix i => exact ⟨i, Or.inr (Or.inr rfl)⟩
    | otherAttribute =>
      simp [LSGeometryInfo.compute, GeometryPlug.outputIndex] at h
  · intro h
    cases plug with
    | aIndices => rw [hidx]
    | aTranslate i => exact absurd rfl (h i).1
    | aRotate i => exact absurd rfl (h i).2.1
    | aMatrix i => exact absurd rfl (h i).2.2
    | otherAttribute => simp [LSGeometryInfo.compute, GeometryPlug.outputIndex]
  · intro indices h
    rw [hidx] at h
    simp only [Option.some.injEq] at h
    subst h
    exact ⟨rfl, fun _ _ => rfl⟩

/-! ## `AngleSliceSolver`: control values and index bounds -/

/-- The function `computeOutputValues` does not read the `values` array. -/
theorem computeOutputValues_values (s : AngleSliceSolver K) (v : List K) (out : OutArray K)
    (clamp : Bool) :
    computeOutputValues { s with values := v } out clamp = computeOutputValues s out clamp :=
  rfl

/-- Two control sets with the same positions give solver states that differ in the
`values` array only. -/
theorem updateAttributes_same_positions (L : Libm K) (l1 l2 : List (ControlPoint K))
    (x y : K)
    (hpos : l1.map (fun p => (p.inputLocationX, p.inputLocationY)) =
      l2.map (fun p => (p.inputLocationX, p.inputLocationY)))
    (s1 : AngleSliceSolver K) (h1 : updateAttributes L l1 x y = some s1) :
    ∃ v, updateAttributes L l2 x y = some { s1 with values := v } := by
  cases l1 with
  | nil => simp [updateAttributes] at h1
  | cons a r1 =>
    cases l2 with
    | nil => simp at hpos
    | cons b r2 =>
      simp only [List.map_cons, List.cons.injEq, Prod.mk.injEq] at hpos
      obtain ⟨⟨hx, hy⟩, hrest⟩ := hpos
      have hdir : b.dir = a.dir := by simp [ControlPoint.dir, hx, hy]
      have key : ∀ (β : Type) (G : K × K → β),
          r2.map (fun p => G (p.inputLocationX, p.inputLocationY)) =
            r1.map (fun p => G (p.inputLocationX, p.inputLocationY)) := by
        intro β G
        have h := congrArg (List.map G) hrest
        simp only [List.map_map] at h
        exact h.symm
      have hang : r2.map (fun p => computeRadians L a.dir p.dir) =
          r1.map (fun p => computeRadians L a.dir p.dir) :=
        key K (fun q => computeRadians L a.dir ⟨q.1, q.2, 0⟩)
      have hmag : r2.map (fun p => p.dir.length L) = r1.map (fun p => p.dir.length L) :=
        key K (fun q => MVector.length L ⟨q.1, q.2, 0⟩)
      have hlen : r2.length = r1.length := by
        have h := congrArg List.length hrest
        simpa using h.symm
      refine ⟨(b.inputValue :: r2.map ControlPoint.inputValue) ++ [b.inputValue], ?_⟩
      simp only [updateAttributes, Option.some.injEq] at h1 ⊢
      subst h1
      simp only [hdir, hang, hmag, List.length_cons, hlen, updateBlendIndices]

/-- C22. For two control sets with the same control positions (whatever their
`inputValue` scalars), the same location and the same clamp flag, `compute` produces the
same output array from the same previous array; with `atan2` in `(-pi, pi]` and a
non-empty control set both calls return an output array. -/
theorem values_ignored (L : Libm K) (out : OutArray K) (l1 l2 : List (ControlPoint K))
    (x y : K) (clamp : Bool)
    (hpos : l1.map (fun p => (p.inputLocationX, p.inputLocationY)) =
      l2.map (fun p => (p.inputLocationX, p.inputLocationY))) :
    (compute L out l1 x y clamp).map Prod.snd = (compute L out l2 x y clamp).map Prod.snd ∧
      (L.Atan2Range → l1 ≠ [] →
        ∃ out2, (compute L out l1 x y clamp).map Prod.snd = some out2 ∧
          (compute L out l2 x y clamp).map Prod.snd = some out2) := by
  have heq : (compute L out l1 x y clamp).map Prod.snd =
      (compute L out l2 x y clamp).map Prod.snd := by
    cases h1 : updateAttributes L l1 x y with
    | none =>
      cases l1 with
      | cons a r => simp [updateAttributes] at h1
      | nil =>
        cases l2 with
        | cons b r => simp at hpos
        | nil => rfl
    | some s1 =>
      obtain ⟨v, h2⟩ := updateAttributes_same_positions L l1 l2 x y hpos s1 h1
      simp only [compute, h1, h2, Option.bind_eq_bind, Option.some_bind]
      have hc := computeOutputValues_values s1 v (zeroFill out s1.elementNum.toNat) clamp
      simp only at hc
      rw [hc]
      cases computeOutputValues s1 (zeroFill out s1.elementNum.toNat) clamp <;> rfl
  refine ⟨heq, ?_⟩
  intro hL hne
  rw [← heq]
  cases l1 with
  | nil => exact absurd rfl hne
  | cons a r =>
    obtain ⟨s, hs⟩ : ∃ s, updateAttributes L (a :: r) x y = some s := ⟨_, rfl⟩
    rcases first_index_or_absent s.currentAngle s.splitAngles with ⟨k, hk, hfirst⟩ | hno
    · obtain ⟨m, _, _, hc⟩ := compute_hit L hL out (a :: r) x y clamp s hs k hk hfirst
      exact ⟨_, by rw [hc]; rfl, by rw [hc]; rfl⟩
    · obtain ⟨f, c, fv, cv, _, _, _, _, _, _, _, hc⟩ :=
        compute_nohit L hL out (a :: r) x y clamp s hs hno
      exact ⟨_, by rw [hc]; rfl, by rw [hc]; rfl⟩

/-- Witness of C22: the four control points of `crossControls` with other values. -/
theorem values_ignored_witness :
    (compute realLibm (emptyOut ℝ) crossControls 0 3 true).map Prod.snd =
        (compute realLibm (emptyOut ℝ)
          [⟨2, 0, -1⟩, ⟨0, 2, 0⟩, ⟨-2, 0, 55⟩, ⟨0, -2, 7⟩] 0 3 true).map Prod.snd ∧
      (realLibm.Atan2Range → crossControls ≠ [] →
        ∃ out2, (compute realLibm (emptyOut ℝ) crossControls 0 3 true).map Prod.snd =
            some out2 ∧
          (compute realLibm (emptyOut ℝ)
            [⟨2, 0, -1⟩, ⟨0, 2, 0⟩, ⟨-2, 0, 55⟩, ⟨0, -2, 7⟩] 0 3 true).map Prod.snd =
            some out2) :=
  values_ignored realLibm (emptyOut ℝ) crossControls
    [⟨2, 0, -1⟩, ⟨0, 2, 0⟩, ⟨-2, 0, 55⟩, ⟨0, -2, 7⟩] 0 3 true (by simp [crossControls])

/-- C24. For every control set with `N >= 1` elements, every location and every current
angle `a` in `[0, 2 pi)`, whatever the library returns: `updateAttributes` returns a state
`s` whose arrays `splitAngles` and `splitMagnitudes` have `N + 1` entries, and after
`updateBlendIndices` on these arrays with current angle `a` (the state `t`, which is `s`
itself when `a` is the angle of the location) neither index is `-1`,
`0 <= floorIndex <= N - 1` and `0 <= ceilIndex <= N`, so the four reads of
`computeOutputValues` at `floorIndex` and `ceilIndex` are inside the arrays. -/
theorem bracket_indices_valid (L : Libm K) (inputList : List (ControlPoint K)) (x y a : K)
    (hN : 1 ≤ inputList.length) (h0 : 0 ≤ a) (hlt : a < 2 * L.pi) :
    ∃ s t, updateAttributes L inputList x y = some s ∧
      t = updateBlendIndices L { s with currentAngle := a } ∧
      (a = s.currentAngle → t = s) ∧
      t.splitAngles.length = inputList.length + 1 ∧
      t.splitMagnitudes.length = inputList.length + 1 ∧
      t.floorIndex ≠ -1 ∧ t.ceilIndex ≠ -1 ∧
      0 ≤ t.floorIndex ∧ t.floorIndex ≤ (inputList.length : Int) - 1 ∧
      0 ≤ t.ceilIndex ∧ t.ceilIndex ≤ (inputList.length : Int) ∧
      (readAt t.splitMagnitudes t.floorIndex).isSome = true ∧
      (readAt t.splitMagnitudes t.ceilIndex).isSome = true ∧
      (readAt t.splitAngles t.floorIndex).isSome = true ∧
      (readAt t.splitAngles t.ceilIndex).isSome = true := by
  obtain ⟨s, hs⟩ : ∃ s, updateAttributes L inputList x y = some s := by
    cases inputList with
    | nil => simp at hN
    | cons a r => exact ⟨_, rfl⟩
  obtain ⟨h1, h2, h3, h4, h5, h6, h7⟩ := updateAttributes_shape L inputList x y s hs
  refine ⟨s, updateBlendIndices L { s with currentAngle := a }, hs, rfl, ?_, h3, h4, ?_⟩
  · intro ha
    subst ha
    cases s
    simp only [updateBlendIndices] at h7 ⊢
    simp only [h7]
  have hst : SolverState L inputList.length
      (updateBlendIndices L { s with currentAngle := a }) :=
    ⟨h1, h2, h3, h4, h5, h6, h0, hlt, by linarith, rfl⟩
  generalize updateBlendIndices L { s with currentAngle := a } = t at hst
  have h3 := hst.angles_length
  have h4 := hst.mags_length
  have hread : ∀ (arr : List K) (k : Nat), k < arr.length →
      (readAt arr (k : Int)).isSome = true := by
    intro arr k hk
    rw [readAt_nat, List.getElem?_eq_getElem hk]; rfl
  have hbounds : ∃ f c : Nat, t.floorIndex = (f : Int) ∧ t.ceilIndex = (c : Int) ∧
      f < inputList.length ∧ c ≤ inputList.length := by
    rcases first_index_or_absent t.currentAngle t.splitAngles with ⟨k, hk, hfirst⟩ | hno
    · obtain ⟨hf, hc, hkN⟩ := bracket_hit L inputList.length t hst k hk hfirst
      exact ⟨k, k, hf, hc, hkN, hkN.le⟩
    · obtain ⟨f, c, af, ac, hf, hc, hfN, _, hcN, _⟩ :=
        bracket_nohit L inputList.length t hst hno
      exact ⟨f, c, hf, hc, hfN, hcN⟩
  obtain ⟨f, c, hf, hc, hfN, hcN⟩ := hbounds
  refine ⟨?_, ?_, ?_, ?_, ?_, ?_, ?_, ?_, ?_, ?_⟩
  · rw [hf]; omega
  · rw [hc]; omega
  · rw [hf]; omega
  · rw [hf]; omega
  · rw [hc]; omega
  · rw [hc]; omega
  · rw [hf]; exact hread _ _ (by rw [h4]; omega)
  · rw [hc]; exact hread _ _ (by rw [h4]; omega)
  · rw [hf]; exact hread _ _ (by rw [h3]; omega)
  · rw [hc]; exact hread _ _ (by rw [h3]; omega)

/-- Witness of C24: the four control points of `crossControls`, the location `(0, 3)` and
its angle `π/2`, which lies in `[0, 2π)`. -/
theorem bracket_indices_valid_witness :
    1 ≤ crossControls.length ∧ (0 : ℝ) ≤ Real.pi / 2 ∧ Real.pi / 2 < 2 * realLibm.pi ∧
      ∃ s t, updateAttributes realLibm crossControls 0 3 = some s ∧
        t = updateBlendIndices realLibm { s with currentAngle := Real.pi / 2 } ∧
        (Real.pi / 2 = s.currentAngle → t = s) ∧
        t.splitAngles.length = crossControls.length + 1 ∧
        t.splitMagnitudes.length = crossControls.length + 1 ∧
        t.floorIndex ≠ -1 ∧ t.ceilIndex ≠ -1 ∧
        0 ≤ t.floorIndex ∧ t.floorIndex ≤ (crossControls.length : Int) - 1 ∧
        0 ≤ t.ceilIndex ∧ t.ceilIndex ≤ (crossControls.length : Int) ∧
        (readAt t.splitMagnitudes t.floorIndex).isSome = true ∧
        (readAt t.splitMagnitudes t.ceilIndex).isSome = true ∧
        (readAt t.splitAngles t.floorIndex).isSome = true ∧
        (readAt t.splitAngles t.ceilIndex).isSome = true :=
  have hpi := Real.pi_pos
  have h0 : (0 : ℝ) ≤ Real.pi / 2 := by linarith
  have hlt : Real.pi / 2 < 2 * realLibm.pi := by show Real.pi / 2 < 2 * Real.pi; linarith
  ⟨by simp [crossControls], h0, hlt,
    bracket_indices_valid realLibm crossControls 0 3 (Real.pi / 2) (by simp [crossControls])
      h0 hlt⟩

/-! ## `AngleSliceSolver`: the clamp bound and the wrap-around write -/

/-- C23. For a bracket of two indices with floor sample `(af, mf)`, ceil sample
`(ac, mc)`, current angle `t` with `af < t < ac`, non-zero sample magnitudes (magnitudes
are lengths, so they are not negative) and `currentMagnitude = c > 0`: with `clamp = true`
the two values are finite and their sum is `min(c, 1)`; for `c <= 1` they are the
unclamped values, for `c > 1` they are the unclamped values times `1 / c` and sum to
`1`. -/
theorem clamp_bound (s : AngleSliceSolver K) (f c : Nat) (af ac mf mc : K)
    (hb : Bracket s f c af ac mf mc) (hlt : af < s.currentAngle) (hgt : s.currentAngle < ac)
    (hmf : mf ≠ 0) (hmc : mc ≠ 0) (hmf0 : 0 ≤ mf) (hmc0 : 0 ≤ mc)
    (hcm : 0 < s.currentMagnitude) :
    ∃ floorValue0 ceilValue0 floorValue ceilValue : K,
      bracketValues s false = some (Dbl.fin floorValue0, Dbl.fin ceilValue0) ∧
      bracketValues s true = some (Dbl.fin floorValue, Dbl.fin ceilValue) ∧
      floorValue + ceilValue = min s.currentMagnitude 1 ∧
      (s.currentMagnitude ≤ 1 → floorValue = floorValue0 ∧ ceilValue = ceilValue0) ∧
      (1 < s.currentMagnitude → floorValue + ceilValue = 1 ∧
        floorValue = floorValue0 * (1 / s.currentMagnitude) ∧
        ceilValue = ceilValue0 * (1 / s.currentMagnitude)) := by
  have hmfp : 0 < mf := lt_of_le_of_ne hmf0 (Ne.symm hmf)
  have hmcp : 0 < mc := lt_of_le_of_ne hmc0 (Ne.symm hmc)
  obtain ⟨hr0, hr1⟩ := ratioOf_mem s.currentAngle af ac hlt hgt
  obtain ⟨hwc, hwf⟩ := weighted_pos s.currentMagnitude mf mc _ hcm hmfp hmcp hr0 hr1
  have hmag : weightedCeil s.currentMagnitude mc (ratioOf s.currentAngle af ac) +
      weightedFloor s.currentMagnitude mf (ratioOf s.currentAngle af ac) ≠ 0 :=
    ne_of_gt (add_pos hwc hwf)
  have hsum := renorm_sum s.currentMagnitude mf mc (ratioOf s.currentAngle af ac) hmag
  have hsum2 : renormCeil s.currentMagnitude mf mc (ratioOf s.currentAngle af ac) +
      renormFloor s.currentMagnitude mf mc (ratioOf s.currentAngle af ac) =
      s.currentMagnitude := by rw [add_comm]; exact hsum
  have hun := bracketValues_unclamped s f c af ac mf mc hb (by linarith) hmf hmc hmag
  have hcl := bracketValues_clamped s f c af ac mf mc hb (by linarith) hmf hmc hmag
    (by rw [hsum2]; exact ne_of_gt hcm)
  rw [hsum2] at hcl
  have hiff : 1 / s.currentMagnitude < 1 ↔ 1 < s.currentMagnitude := by
    rw [div_lt_one hcm]
  by_cases hscale : 1 < s.currentMagnitude
  · rw [if_pos (hiff.mpr hscale)] at hcl
    refine ⟨_, _, _, _, hun, hcl, ?_, fun h => absurd hscale (not_lt.mpr h),
      fun _ => ⟨?_, rfl, rfl⟩⟩
    · rw [min_eq_right hscale.le, ← add_mul, hsum, mul_one_div, div_self (ne_of_gt hcm)]
    · rw [← add_mul, hsum, mul_one_div, div_self (ne_of_gt hcm)]
  · rw [if_neg (fun h => hscale (hiff.mp h))] at hcl
    refine ⟨_, _, _, _, hun, hcl, ?_, fun _ => ⟨rfl, rfl⟩, fun h => absurd h hscale⟩
    rw [min_eq_left (not_lt.mp hscale), hsum]

/-- Witness of C23: the location `(0, 3)` between two opposite control points. -/
theorem clamp_bound_witness :
    ∃ floorValue0 ceilValue0 floorValue ceilValue : ℝ,
      bracketValues oppositeState false = some (Dbl.fin floorValue0, Dbl.fin ceilValue0) ∧
      bracketValues oppositeState true = some (Dbl.fin floorValue, Dbl.fin ceilValue) ∧
      floorValue + ceilValue = min oppositeState.currentMagnitude 1 ∧
      (oppositeState.currentMagnitude ≤ 1 →
        floorValue = floorValue0 ∧ ceilValue = ceilValue0) ∧
      (1 < oppositeState.currentMagnitude → floorValue + ceilValue = 1 ∧
        floorValue = floorValue0 * (1 / oppositeState.currentMagnitude) ∧
        ceilValue = ceilValue0 * (1 / oppositeState.currentMagnitude)) :=
  clamp_bound oppositeState 0 1 0 Real.pi 2 2 ⟨rfl, rfl, rfl, rfl, rfl, rfl⟩
    (by show (0 : ℝ) < Real.pi / 2; linarith [Real.pi_pos])
    (by show Real.pi / 2 < Real.pi; linarith [Real.pi_pos])
    (by norm_num) (by norm_num) (by norm_num) (by norm_num)
    (by show (0 : ℝ) < 3; norm_num)

/-- The quotient `c / 0` is a special value. -/
theorem Dbl.fin_div_zero (c : K) :
    (Dbl.fin c / Dbl.fin 0 : Dbl K) =
      if c = 0 then Dbl.nan else if 0 < c then Dbl.pinf else Dbl.ninf := by
  show Dbl.div (Dbl.fin c) (Dbl.fin 0) = _
  simp [Dbl.div]

/-- An infinity times a positive finite value. -/
theorem Dbl.inf_mul_pos (b : K) (hb : 0 < b) :
    (Dbl.pinf * Dbl.fin b : Dbl K) = Dbl.pinf ∧ (Dbl.ninf * Dbl.fin b : Dbl K) = Dbl.ninf := by
  constructor
  · show Dbl.mul Dbl.pinf (Dbl.fin b) = _
    simp [Dbl.mul, Dbl.infTimes, hb, ne_of_gt hb]
  · show Dbl.mul Dbl.ninf (Dbl.fin b) = _
    simp [Dbl.mul, Dbl.infTimes, hb, ne_of_gt hb]

/-- An infinity times a non-zero finite value is an infinity. -/
theorem Dbl.inf_mul_ne (b : K) (hb : b ≠ 0) :
    ((Dbl.pinf * Dbl.fin b : Dbl K) = Dbl.pinf ∨ (Dbl.pinf * Dbl.fin b : Dbl K) = Dbl.ninf) ∧
      ((Dbl.ninf * Dbl.fin b : Dbl K) = Dbl.pinf ∨
        (Dbl.ninf * Dbl.fin b : Dbl K) = Dbl.ninf) := by
  constructor
  · show Dbl.mul Dbl.pinf (Dbl.fin b) = _ ∨ Dbl.mul Dbl.pinf (Dbl.fin b) = _
    by_cases h : 0 < b <;> simp [Dbl.mul, Dbl.infTimes, h, hb]
  · show Dbl.mul Dbl.ninf (Dbl.fin b) = _ ∨ Dbl.mul Dbl.ninf (Dbl.fin b) = _
    by_cases h : 0 < b <;> simp [Dbl.mul, Dbl.infTimes, h, hb]

/-- With both samples of the bracket of magnitude `0`, the two values are `NaN`. -/
theorem bracketValues_zero_sample (s : AngleSliceSolver K) (f c : Nat) (af ac : K)
    (hb : Bracket s f c af ac 0 0) (hlt : af < s.currentAngle) (hgt : s.currentAngle < ac)
    (clamp : Bool) :
    bracketValues s clamp = some (Dbl.nan, Dbl.nan) := by
  have hr := blendRatio_eval s f c af ac 0 0 hb (by linarith)
  obtain ⟨hr0, hr1⟩ := ratioOf_mem s.currentAngle af ac hlt hgt
  have hr2 : 0 < 1 - ratioOf s.currentAngle af ac := by linarith
  simp only [bracketValues, hr, hb.floorIndex, hb.ceilIndex, readAt_nat, hb.floorMagnitude,
    hb.ceilMagnitude, Option.bind_eq_bind, Option.some_bind, Dbl.fin_sub_fin,
    Dbl.fin_div_zero]
  by_cases h0 : s.currentMagnitude = 0
  · rw [if_pos h0]
    cases clamp <;> rfl
  · rw [if_neg h0]
    by_cases hp : 0 < s.currentMagnitude
    · rw [if_pos hp, (Dbl.inf_mul_pos _ hr0).1, (Dbl.inf_mul_pos _ hr2).1]
      rw [(Dbl.inf_mul_pos _ hp).1]
      cases clamp <;> rfl
    · rw [if_neg hp, (Dbl.inf_mul_pos _ hr0).2, (Dbl.inf_mul_pos _ hr2).2]
      rcases (Dbl.inf_mul_ne _ h0).2 with h | h <;> rw [h] <;> cases clamp <;> rfl

/-- With both samples of the bracket of the same magnitude `m`, the two values are
computed and the ceil value is not `currentMagnitude`; for `m` and `currentMagnitude` not
zero the unclamped values are `c * (1 - r)` and `c * r`. -/
theorem bracketValues_equal (s : AngleSliceSolver K) (f c : Nat) (af ac m : K)
    (hb : Bracket s f c af ac m m) (hlt : af < s.currentAngle) (hgt : s.currentAngle < ac) :
    (∀ clamp, ∃ fv cv, bracketValues s clamp = some (fv, cv) ∧
        cv ≠ Dbl.fin s.currentMagnitude) ∧
      (m ≠ 0 → s.currentMagnitude ≠ 0 →
        bracketValues s false =
          some (Dbl.fin (s.currentMagnitude * (1 - ratioOf s.currentAngle af ac)),
            Dbl.fin (s.currentMagnitude * ratioOf s.currentAngle af ac))) := by
  obtain ⟨hr0, hr1⟩ := ratioOf_mem s.currentAngle af ac hlt hgt
  have hang : ac - af ≠ 0 := by linarith
  have hnan : (Dbl.nan : Dbl K) ≠ Dbl.fin s.currentMagnitude := fun h => by cases h
  by_cases hm : m = 0
  · subst hm
    exact ⟨fun clamp => ⟨_, _, bracketValues_zero_sample s f c af ac hb hlt hgt clamp, hnan⟩,
      fun h => absurd rfl h⟩
  by_cases hc : s.currentMagnitude = 0
  · exact ⟨fun clamp => ⟨_, _,
      bracketValues_zero_magnitude s f c af ac m m hb hang hm hm hc clamp, hnan⟩,
      fun _ h => absurd hc h⟩
  have hw : weightedCeil s.currentMagnitude m (ratioOf s.currentAngle af ac) +
      weightedFloor s.currentMagnitude m (ratioOf s.currentAngle af ac) =
      s.currentMagnitude / m := by
    unfold weightedCeil weightedFloor; ring
  have hmag : weightedCeil s.currentMagnitude m (ratioOf s.currentAngle af ac) +
      weightedFloor s.currentMagnitude m (ratioOf s.currentAngle af ac) ≠ 0 := by
    rw [hw]; exact div_ne_zero hc hm
  have hfl : renormFloor s.currentMagnitude m m (ratioOf s.currentAngle af ac) =
      s.currentMagnitude * (1 - ratioOf s.currentAngle af ac) := by
    unfold renormFloor; rw [hw]; unfold weightedFloor; field_simp
  have hce : renormCeil s.currentMagnitude m m (ratioOf s.currentAngle af ac) =
      s.currentMagnitude * ratioOf s.currentAngle af ac := by
    unfold renormCeil; rw [hw]; unfold weightedCeil; field_simp
  have hsum : renormCeil s.currentMagnitude m m (ratioOf s.currentAngle af ac) +
      renormFloor s.currentMagnitude m m (ratioOf s.currentAngle af ac) =
      s.currentMagnitude := by rw [hfl, hce]; ring
  have hun := bracketValues_unclamped s f c af ac m m hb hang hm hm hmag
  have hcl := bracketValues_clamped s f c af ac m m hb hang hm hm hmag
    (by rw [hsum]; exact hc)
  rw [hfl, hce] at hun
  rw [hsum, hfl, hce] at hcl
  have hne1 : s.currentMagnitude * ratioOf s.currentAngle af ac ≠ s.currentMagnitude := by
    intro h
    have h2 : s.currentMagnitude * (ratioOf s.currentAngle af ac - 1) = 0 := by
      rw [mul_sub, h, mul_one, sub_self]
    rcases mul_eq_zero.mp h2 with h3 | h3
    · exact hc h3
    · linarith
  refine ⟨fun clamp => ?_, fun _ _ => hun⟩
  cases clamp
  · exact ⟨_, _, hun, fun h => hne1 (Dbl.fin.inj h)⟩
  · by_cases hscale : 1 / s.currentMagnitude < 1
    · rw [if_pos hscale] at hcl
      refine ⟨_, _, hcl, fun h => ?_⟩
      have h2 := Dbl.fin.inj h
      rw [mul_comm s.currentMagnitude, mul_assoc, mul_one_div, div_self hc, mul_one] at h2
      have hcm1 : s.currentMagnitude < 1 := by rw [← h2]; exact hr1
      have hcm0 : 0 < s.currentMagnitude := by rw [← h2]; exact hr0
      rw [div_lt_one hcm0] at hscale
      linarith
    · rw [if_neg hscale] at hcl
      exact ⟨_, _, hcl, fun h => hne1 (Dbl.fin.inj h)⟩

/-- The length of a scaled control direction. -/
theorem length_scale (L : Libm K) (hsqrt : L.SqrtExact) (k : K) (hk : 0 < k) (a b : K) :
    MVector.length L ⟨k * a, k * b, 0⟩ = k * MVector.length L ⟨a, b, 0⟩ := by
  have h : k * a * (k * a) + k * b * (k * b) + 0 * 0 = k * k * (a * a + b * b + 0 * 0) := by
    ring
  unfold MVector.length
  simp only
  rw [h]
  exact sqrt_scale L hsqrt k _ hk.le
    (add_nonneg (add_nonneg (mul_self_nonneg a) (mul_self_nonneg b)) (mul_self_nonneg 0))

/-- The solver state of a control set multiplied by `k > 0`: angles and indices are those
of the original control set, the sample magnitudes are multiplied by `k`. -/
theorem updateAttributes_scale (L : Libm K) (hsqrt : L.SqrtExact) (hscale : L.Atan2Scale)
    (k : K) (hk : 0 < k) (inputList : List (ControlPoint K)) (x y : K)
    (s : AngleSliceSolver K) (hs : updateAttributes L inputList x y = some s) :
    ∃ s2, updateAttributes L (scaleControls k inputList) x y = some s2 ∧
      s2.splitAngles = s.splitAngles ∧ s2.currentAngle = s.currentAngle ∧
      s2.currentMagnitude = s.currentMagnitude ∧ s2.floorIndex = s.floorIndex ∧
      s2.ceilIndex = s.ceilIndex ∧
      s2.splitMagnitudes = s.splitMagnitudes.map (fun m => k * m) := by
  cases inputList with
  | nil => simp [updateAttributes] at hs
  | cons first rest =>
    have hA : (scaleControls k rest).map
        (fun p => computeRadians L ⟨k * first.inputLocationX, k * first.inputLocationY, 0⟩
          p.dir) = rest.map (fun p => computeRadians L first.dir p.dir) := by
      simp only [scaleControls, List.map_map]
      apply List.map_congr_left
      intro p _
      simp only [Function.comp, computeRadians, ControlPoint.dir, hscale k _ _ hk]
    have hT : computeRadians L ⟨k * first.inputLocationX, k * first.inputLocationY, 0⟩
        ⟨x, y, 0⟩ = computeRadians L first.dir ⟨x, y, 0⟩ := by
      simp only [computeRadians, ControlPoint.dir, hscale k _ _ hk]
    have hM : (scaleControls k rest).map (fun p => p.dir.length L) =
        (rest.map (fun p => p.dir.length L)).map (fun m => k * m) := by
      simp only [scaleControls, List.map_map]
      apply List.map_congr_left
      intro p _
      simp only [Function.comp, ControlPoint.dir]
      exact length_scale L hsqrt k hk _ _
    have hM0 : MVector.length L ⟨k * first.inputLocationX, k * first.inputLocationY, 0⟩ =
        k * first.dir.length L := length_scale L hsqrt k hk _ _
    simp only [updateAttributes, Option.some.injEq] at hs
    subst hs
    refine ⟨_, rfl, ?_, ?_, ?_, ?_, ?_, ?_⟩
    · simp only [scaleControls, List.map_cons, updateBlendIndices, ControlPoint.dir] at hA ⊢
      rw [hA]
    · simp only [scaleControls, List.map_cons, updateBlendIndices, ControlPoint.dir] at hT ⊢
      rw [hT]
    · rfl
    · simp only [scaleControls, List.map_cons, updateBlendIndices, ControlPoint.dir] at hA hT ⊢
      rw [hA, hT]
    · simp only [scaleControls, List.map_cons, updateBlendIndices, ControlPoint.dir] at hA hT ⊢
      rw [hA, hT]
    · simp only [scaleControls, List.map_cons, updateBlendIndices, ControlPoint.dir] at hM hM0 ⊢
      rw [hM, hM0]
      simp

/-- A bracket of the original control set is a bracket of the scaled control set, with the
sample magnitudes multiplied by `k`. -/
theorem Bracket.scale (s s2 : AngleSliceSolver K) (k : K) (f c : Nat) (af ac mf mc : K)
    (hb : Bracket s f c af ac mf mc) (hA : s2.splitAngles = s.splitAngles)
    (hf : s2.floorIndex = s.floorIndex) (hc : s2.ceilIndex = s.ceilIndex)
    (hM : s2.splitMagnitudes = s.splitMagnitudes.map (fun m => k * m)) :
    Bracket s2 f c af ac (k * mf) (k * mc) :=
  ⟨hf.trans hb.floorIndex, hc.trans hb.ceilIndex, by rw [hA]; exact hb.floorAngle,
    by rw [hA]; exact hb.ceilAngle,
    by rw [hM, List.getElem?_map, hb.floorMagnitude]; rfl,
    by rw [hM, List.getElem?_map, hb.ceilMagnitude]; rfl⟩

/-- C26 (amended). With an exact `sqrt` and `atan2` in `(-pi, pi]` and blind to a positive
common factor, let `s` be the state of a control set and `s2` the state of the same control
set with every position multiplied by `k > 0`, for the same location.  For a bracket with
`af < t < ac` whose two samples have the same magnitude `m > 0`, and `currentMagnitude = c`
not zero, the unclamped values are `c * (1 - r)` and `c * r`, for `s` and for `s2`.  On an
exact hit at the first sample `j` with that angle, of magnitude `m` not zero, `compute`
writes `c / m` for the original and `c / m / k` for the scaled control set.  The
interpolated value of a sample tends to `c` when the current angle tends to the sample
angle (`r` to `1` on the ceil side, `r` to `0` on the floor side), and `c / m = c` exactly
when `m = 1`. -/
theorem magnitude_blind (L : Libm K) (hsqrt : L.SqrtExact) (hL : L.Atan2Range)
    (hscale : L.Atan2Scale) (out : OutArray K) (inputList : List (ControlPoint K))
    (k x y : K) (clamp : Bool) (hk : 0 < k) (s : AngleSliceSolver K)
    (hs : updateAttributes L inputList x y = some s) :
    ∃ s2, updateAttributes L (scaleControls k inputList) x y = some s2 ∧
      (∀ (f c : Nat) (af ac m : K), Bracket s f c af ac m m → af < s.currentAngle →
        s.currentAngle < ac → 0 < m → s.currentMagnitude ≠ 0 →
        bracketValues s false =
          some (Dbl.fin (s.currentMagnitude * (1 - (s.currentAngle - af) / (ac - af))),
            Dbl.fin (s.currentMagnitude * ((s.currentAngle - af) / (ac - af)))) ∧
        bracketValues s2 false = bracketValues s false) ∧
      (∀ (j : Nat) (m : K), s.splitAngles[j]? = some s.currentAngle →
        (∀ i : Nat, i < j → s.splitAngles[i]? ≠ some s.currentAngle) →
        s.splitMagnitudes[j]? = some m → m ≠ 0 →
        ∃ out1 out2, compute L out inputList x y clamp = some (s, out1) ∧
          compute L out (scaleControls k inputList) x y clamp = some (s2, out2) ∧
          out1 j = some (Dbl.fin (s.currentMagnitude / m)) ∧
          out2 j = some (Dbl.fin (s.currentMagnitude / m / k))) ∧
      (∀ ε : K, 0 < ε → ∃ δ : K, 0 < δ ∧
        (∀ r : K, 1 - δ < r → r < 1 → |s.currentMagnitude * r - s.currentMagnitude| < ε) ∧
        (∀ r : K, 0 < r → r < δ →
          |s.currentMagnitude * (1 - r) - s.currentMagnitude| < ε)) ∧
      (∀ m : K, m ≠ 0 → s.currentMagnitude ≠ 0 →
        (s.currentMagnitude / m = s.currentMagnitude ↔ m = 1)) := by
  obtain ⟨s2, hs2, hA, hT, hC, hf, hc, hM⟩ :=
    updateAttributes_scale L hsqrt hscale k hk inputList x y s hs
  refine ⟨s2, hs2, ?_, ?_, ?_, ?_⟩
  · intro f c af ac m hb hlt hgt hm hcm
    have h1 := (bracketValues_equal s f c af ac m hb hlt hgt).2 (ne_of_gt hm) hcm
    have hb2 := Bracket.scale s s2 k f c af ac m m hb hA hf hc hM
    have h2 := (bracketValues_equal s2 f c af ac (k * m) hb2 (by rw [hT]; exact hlt)
      (by rw [hT]; exact hgt)).2 (ne_of_gt (mul_pos hk hm)) (by rw [hC]; exact hcm)
    rw [hT, hC] at h2
    simp only [ratioOf] at h1 h2
    exact ⟨h1, h2.trans h1.symm⟩
  · intro j m hj hfirst hm hm0
    obtain ⟨m1, hm1, _, hc1⟩ := compute_hit L hL out inputList x y clamp s hs j hj hfirst
    obtain ⟨m2, hm2, _, hc2⟩ := compute_hit L hL out (scaleControls k inputList) x y clamp s2
      hs2 j (by rw [hA, hT]; exact hj) (by rw [hA, hT]; exact hfirst)
    rw [hm] at hm1
    rw [hM, List.getElem?_map, hm] at hm2
    have e1 : m1 = m := (Option.some.inj hm1).symm
    have e2 : m2 = k * m := (Option.some.inj hm2).symm
    subst e1 e2
    refine ⟨_, _, hc1, hc2, ?_, ?_⟩
    · rw [Function.update_same, Dbl.fin_div_fin _ _ hm0]
    · rw [Function.update_same, hC, Dbl.fin_div_fin _ _ (mul_ne_zero (ne_of_gt hk) hm0)]
      congr 2
      rw [div_div, mul_comm m1 k]
  · intro ε hε
    have hpos : 0 < |s.currentMagnitude| + 1 := by
      have := abs_nonneg s.currentMagnitude
      linarith
    have hbound : ∀ d : K, 0 ≤ d → d < ε / (|s.currentMagnitude| + 1) →
        |s.currentMagnitude| * d < ε := by
      intro d hd0 hd
      have h1 : d * (|s.currentMagnitude| + 1) < ε := (lt_div_iff₀ hpos).mp hd
      have h2 : |s.currentMagnitude| * d ≤ d * (|s.currentMagnitude| + 1) := by
        nlinarith [abs_nonneg s.currentMagnitude]
      linarith
    refine ⟨ε / (|s.currentMagnitude| + 1), div_pos hε hpos, ?_, ?_⟩
    · intro r h1 h2
      have e : s.currentMagnitude * r - s.currentMagnitude = s.currentMagnitude * (r - 1) := by
        ring
      rw [e, abs_mul, abs_of_neg (by linarith : r - 1 < 0)]
      exact hbound _ (by linarith) (by linarith)
    · intro r h1 h2
      have e : s.currentMagnitude * (1 - r) - s.currentMagnitude =
          s.currentMagnitude * (-r) := by ring
      rw [e, abs_mul, abs_neg, abs_of_pos h1]
      exact hbound _ h1.le h2
  · intro m hm hcm
    constructor
    · intro h
      rw [div_eq_iff hm] at h
      have h2 : s.currentMagnitude * (m - 1) = 0 := by rw [mul_sub, ← h, mul_one, sub_self]
      rcases mul_eq_zero.mp h2 with h3 | h3
      · exact absurd h3 hcm
      · linarith
    · intro h
      rw [h, div_one]

/-- Witness of C26 (amended): `crossControls` with the location `(0, 3)`, factor `2`. -/
theorem magnitude_blind_witness :
    ∃ s2, updateAttributes realLibm (scaleControls 2 crossControls) 0 3 = some s2 ∧
      (∀ (j : Nat) (m : ℝ), crossState.splitAngles[j]? = some crossState.currentAngle →
        (∀ i : Nat, i < j → crossState.splitAngles[i]? ≠ some crossState.currentAngle) →
        crossState.splitMagnitudes[j]? = some m → m ≠ 0 →
        ∃ out1 out2, compute realLibm (emptyOut ℝ) crossControls 0 3 false =
            some (crossState, out1) ∧
          compute realLibm (emptyOut ℝ) (scaleControls 2 crossControls) 0 3 false =
            some (s2, out2) ∧
          out1 j = some (Dbl.fin (crossState.currentMagnitude / m)) ∧
          out2 j = some (Dbl.fin (crossState.currentMagnitude / m / 2))) :=
  have h := magnitude_blind realLibm realLibm_sqrtExact realLibm_atan2Range
    realLibm_atan2Scale (emptyOut ℝ) crossControls 2 0 3 false (by norm_num) crossState
    cross_state
  h.imp fun _ h2 => ⟨h2.1, h2.2.2.1⟩

/-- C26, counterexample. A single control point at `(-1, 0)` and the location `(0, 0)`:
the bracket has the two samples `(0, 1)` and `(2π, 1)` of the same magnitude `1` around
the current angle `π`, `currentMagnitude` is `0`, and the unclamped values are `NaN`, not
`c * (1 - r)` and `c * r`. -/
theorem interpolation_zero_magnitude :
    ∃ s, updateAttributes realLibm singleControl 0 0 = some s ∧
      Bracket s 0 1 0 (2 * Real.pi) 1 1 ∧ 0 < s.currentAngle ∧
      s.currentAngle < 2 * Real.pi ∧ (0 : ℝ) < 1 ∧ s.currentMagnitude = 0 ∧
      bracketValues s false = some (Dbl.nan, Dbl.nan) ∧
      ∀ r : ℝ, bracketValues s false ≠
        some (Dbl.fin (s.currentMagnitude * (1 - r)), Dbl.fin (s.currentMagnitude * r)) := by
  have hpi := Real.pi_pos
  have hb : Bracket singleState 0 1 0 (2 * Real.pi) 1 1 := ⟨rfl, rfl, rfl, rfl, rfl, rfl⟩
  have hang : 2 * Real.pi - 0 ≠ 0 := by
    intro h; linarith
  have hnan := bracketValues_zero_magnitude singleState 0 1 0 (2 * Real.pi) 1 1 hb hang
    one_ne_zero one_ne_zero rfl false
  refine ⟨singleState, single_state, hb, ?_, ?_, one_pos, rfl, hnan, ?_⟩
  · show (0 : ℝ) < Real.pi
    exact hpi
  · show Real.pi < 2 * Real.pi
    linarith
  · intro r h
    rw [hnan] at h
    cases h

/-! ## `tensionNode`: antisymmetry and monotonicity -/

/-- The code's mapping on a finite stretch factor is the mapping of the specification. -/
theorem tensionValue_tensionOf (d : K) : tensionValue (Dbl.fin d) = Dbl.fin (tensionOf d) :=
  tensionValue_fin d

/-- The mapping `f` changes sign under inversion of the stretch factor. -/
theorem tensionOf_inv (d : K) (hd : 0 < d) : tensionOf (1 / d) = -tensionOf d := by
  unfold tensionOf
  rcases lt_trichotomy d 1 with h | h | h
  · have h1 : 1 < 1 / d := by rw [lt_div_iff₀ hd]; linarith
    rw [if_pos h1, if_neg (not_lt.mpr h.le), one_div_one_div]
    ring
  · subst h
    simp
  · have h1 : ¬(1 < 1 / d) := by
      rw [not_lt, div_le_iff₀ hd]; linarith
    rw [if_neg h1, if_pos h]
    ring

/-- The mapping `f` is strictly increasing. -/
theorem tensionOf_strictMono (d1 d2 : K) (h : d1 < d2) :
    tensionOf d1 < tensionOf d2 := by
  unfold tensionOf
  by_cases h2 : 1 < d2
  · have hd2 : 0 < d2 := by linarith
    have hinv2 : 1 / d2 < 1 := by rw [div_lt_one hd2]; exact h2
    rw [if_pos h2]
    by_cases h1 : 1 < d1
    · rw [if_pos h1]
      have := one_div_lt_one_div_of_lt (by linarith : 0 < d1) h
      linarith
    · rw [if_neg h1]
      linarith
  · rw [if_neg h2, if_neg (fun h1 => h2 (lt_trans h1 h))]
    linarith

/-- The tension of a vertex with at least one neighbour, all neutral edges non-zero, when
`delta` is the non-negative root of the product of the edge ratios. -/
theorem vertexTension_root (L : Libm K) (hpow : L.PowNonnegRoot) (neutral deformed : Mesh K)
    (i : Nat) (v v2 : MeshVertex K) (delta : K)
    (hv : neutral[i]? = some v) (hv2 : deformed[i]? = some v2)
    (hn : 1 ≤ v.connectedVertices.length)
    (hedges : ∀ c, c ∈ v.connectedVertices → ∃ w w2, neutral[c]? = some w ∧
      deformed[c]? = some w2 ∧ (w.position.sub v.position).length L ≠ 0)
    (hd : 0 ≤ delta)
    (hroot : delta ^ v.connectedVertices.length =
      (v.connectedVertices.map (edgeRatio L neutral deformed i)).prod) :
    vertexTension L neutral deformed i = some (Dbl.fin (tensionOf delta)) := by
  have hloop := edgeLoop_prod L neutral deformed i v v2 hv hv2 v.connectedVertices 1 hedges
  rw [one_mul] at hloop
  have hexp : (Dbl.fin 1 / Dbl.fin (v.connectedVertices.length : K) : Dbl K) =
      Dbl.fin (1 / (v.connectedVertices.length : K)) :=
    Dbl.fin_div_fin _ _ (Nat.cast_ne_zero.mpr (by omega))
  simp only [vertexTension, vertexDelta, hv, hloop, Option.bind_eq_bind, Option.some_bind,
    Option.map_some']
  rw [← hroot, hexp, hpow delta _ hd (by omega), tensionValue_tensionOf]

/-- The product of the edge ratios of a vertex is the stretch product of the
specification. -/
theorem stretchProduct_eq (L : Libm K) (neutral deformed : Mesh K) (i : Nat)
    (v : MeshVertex K) (hv : neutral[i]? = some v) :
    stretchProduct L neutral deformed i =
      (v.connectedVertices.map (edgeRatio L neutral deformed i)).prod := by
  simp [stretchProduct, hv]

/-- Two lists of factors that are inverse to each other, entry by entry, have inverse
products. -/
theorem prod_mul_prod_eq_one (g h : Nat → K) :
    ∀ cs : List Nat, (∀ u, u ∈ cs → g u * h u = 1) → (cs.map g).prod * (cs.map h).prod = 1
  | [], _ => by simp
  | c :: rest, hh => by
    have ih := prod_mul_prod_eq_one g h rest (fun u hu => hh u (List.mem_cons_of_mem _ hu))
    have hc := hh c (List.mem_cons_self _ _)
    simp only [List.map_cons, List.prod_cons]
    calc g c * (rest.map g).prod * (h c * (rest.map h).prod)
        = (g c * h c) * ((rest.map g).prod * (rest.map h).prod) := by ring
      _ = 1 := by rw [hc, ih, mul_one]

/-- The product of non-negative factors grows with the factors. -/
theorem prod_le_prod (g h : Nat → K) :
    ∀ cs : List Nat, (∀ u, u ∈ cs → 0 ≤ g u ∧ g u ≤ h u) →
      0 ≤ (cs.map g).prod ∧ (cs.map g).prod ≤ (cs.map h).prod
  | [], _ => by simp
  | c :: rest, hh => by
    obtain ⟨ih0, ih⟩ := prod_le_prod g h rest (fun u hu => hh u (List.mem_cons_of_mem _ hu))
    obtain ⟨hc0, hc⟩ := hh c (List.mem_cons_self _ _)
    simp only [List.map_cons, List.prod_cons]
    exact ⟨mul_nonneg hc0 ih0, mul_le_mul hc ih ih0 (le_trans hc0 hc)⟩

/-- The product grows strictly when the factor of one entry `u0` of the list grows and
every other factor is the same and positive. -/
theorem prod_lt_prod (g h : Nat → K) (u0 : Nat) (h0 : 0 ≤ g u0) (hlt : g u0 < h u0) :
    ∀ cs : List Nat, u0 ∈ cs → (∀ u, u ∈ cs → u ≠ u0 → h u = g u ∧ 0 < g u) →
      (cs.map g).prod < (cs.map h).prod
  | [], hmem, _ => by simp at hmem
  | c :: rest, hmem, hh => by
    have hrest : ∀ u, u ∈ rest → 0 ≤ g u ∧ g u ≤ h u := by
      intro u hu
      by_cases hu0 : u = u0
      · subst hu0; exact ⟨h0, hlt.le⟩
      · obtain ⟨e, hp⟩ := hh u (List.mem_cons_of_mem _ hu) hu0
        exact ⟨hp.le, by rw [e]⟩
    have hposh : ∀ cs : List Nat, (∀ u, u ∈ cs → 0 < h u) → 0 < (cs.map h).prod := by
      intro cs
      induction cs with
      | nil => intro _; simp
      | cons a l ih =>
        intro ha
        simp only [List.map_cons, List.prod_cons]
        exact mul_pos (ha a (List.mem_cons_self _ _))
          (ih (fun u hu => ha u (List.mem_cons_of_mem _ hu)))
    have hhpos : ∀ u, u ∈ rest → 0 < h u := by
      intro u hu
      by_cases hu0 : u = u0
      · subst hu0; exact lt_of_le_of_lt h0 hlt
      · obtain ⟨e, hp⟩ := hh u (List.mem_cons_of_mem _ hu) hu0
        rw [e]; exact hp
    obtain ⟨ih0, ihle⟩ := prod_le_prod g h rest hrest
    simp only [List.map_cons, List.prod_cons]
    by_cases hc : c = u0
    · subst hc
      calc g c * (rest.map g).prod ≤ g c * (rest.map h).prod :=
            mul_le_mul_of_nonneg_left ihle h0
        _ < h c * (rest.map h).prod := mul_lt_mul_of_pos_right hlt (hposh rest hhpos)
    · obtain ⟨e, hp⟩ := hh c (List.mem_cons_self _ _) hc
      have hmem2 : u0 ∈ rest := by
        rcases List.mem_cons.mp hmem with h1 | h1
        · exact absurd h1.symm hc
        · exact h1
      have ih := prod_lt_prod g h u0 h0 hlt rest hmem2
        (fun u hu hu0 => hh u (List.mem_cons_of_mem _ hu) hu0)
      rw [e]
      exact mul_lt_mul_of_pos_left ih hp

/-- The position that `positionOf` reads at a vertex of the mesh. -/
theorem positionOf_eq (M : Mesh K) (i : Nat) (v : MeshVertex K) (hv : M[i]? = some v) :
    positionOf M i = v.position := by
  simp [positionOf, hv]

/-- The length of a vector is not negative. -/
theorem length_nonneg (L : Libm K) (hsqrt : L.SqrtExact) (v : MVector K) :
    0 ≤ v.length L :=
  (hsqrt _ (add_nonneg (add_nonneg (mul_self_nonneg _) (mul_self_nonneg _))
    (mul_self_nonneg _))).1

/-- C27. For two meshes `A` and `B` with the same connected-vertex lists, every vertex
of degree `>= 1`, all edge lengths non-zero in both, and a `pow` that returns the exact
root (the root of every stretch product exists in `K`): both calls of `updateTension`
return an array with one entry per vertex, every entry is finite, and the entry of
`updateTension(neutral = B, deformed = A)` at each vertex is the negation of the entry of
`updateTension(neutral = A, deformed = B)`; and `f(1/delta) = -f(delta)` for every
`delta > 0`. -/
theorem tension_antisymmetry (L : Libm K) (hpow : L.PowNonnegRoot)
    (arrayAB arrayBA : List (Dbl K)) (A B : Mesh K)
    (htop : A.map MeshVertex.connectedVertices = B.map MeshVertex.connectedVertices)
    (hA : EdgesNonZero L A) (hB : EdgesNonZero L B)
    (hdeg : ∀ v, v ∈ A → 1 ≤ v.connectedVertices.length)
    (hroot : ∀ (i : Nat) (v : MeshVertex K), A[i]? = some v →
      ∃ delta : K, 0 ≤ delta ∧
        delta ^ v.connectedVertices.length = stretchProduct L A B i) :
    (∃ resAB resBA, updateTension L arrayAB A B = some resAB ∧
        updateTension L arrayBA B A = some resBA ∧
        resAB.length = A.length ∧ resBA.length = A.length ∧
        ∀ i, i < A.length →
          ∃ t : K, resAB[i]? = some (Dbl.fin t) ∧ resBA[i]? = some (Dbl.fin (-t))) ∧
      ∀ delta : K, 0 < delta → tensionOf (1 / delta) = -tensionOf delta := by
  refine ⟨?_, tensionOf_inv⟩
  have hlen : B.length = A.length := by
    have h := congrArg List.length htop
    simpa using h.symm
  -- the stretch factor of every vertex
  have hvert : ∀ i, i < A.length → ∃ delta : K, 0 < delta ∧
      vertexTension L A B i = some (Dbl.fin (tensionOf delta)) ∧
      vertexTension L B A i = some (Dbl.fin (-tensionOf delta)) := by
    intro i hi
    have hvA : A[i]? = some A[i] := List.getElem?_eq_getElem hi
    have hiB : i < B.length := by omega
    have hvB : B[i]? = some B[i] := List.getElem?_eq_getElem hiB
    have hcv : (B[i]).connectedVertices = (A[i]).connectedVertices := by
      have h := congrArg (fun l => l[i]?) htop
      simp only [List.getElem?_map, hvA, hvB, Option.map_some', Option.some.injEq] at h
      exact h.symm
    obtain ⟨delta, hd0, hd⟩ := hroot i A[i] hvA
    have hn := hdeg A[i] (List.getElem_mem _)
    have hedge : ∀ c, c ∈ (A[i]).connectedVertices → ∃ w w2, A[c]? = some w ∧
        B[c]? = some w2 ∧ (w.position.sub (A[i]).position).length L ≠ 0 ∧
        (w2.position.sub (B[i]).position).length L ≠ 0 := by
      intro c hc
      obtain ⟨w, hw, hwne⟩ := hA i c A[i] hvA hc
      obtain ⟨w2, hw2, hw2ne⟩ := hB i c B[i] hvB (by rw [hcv]; exact hc)
      exact ⟨w, w2, hw, hw2, hwne, hw2ne⟩
    have hinv : ∀ u, u ∈ (A[i]).connectedVertices →
        edgeRatio L B A i u * edgeRatio L A B i u = 1 := by
      intro u hu
      obtain ⟨w, w2, hw, hw2, hne, hne2⟩ := hedge u hu
      simp only [edgeRatio, positionOf_eq A i _ hvA, positionOf_eq B i _ hvB,
        positionOf_eq A u _ hw, positionOf_eq B u _ hw2]
      field_simp
    have hprod := prod_mul_prod_eq_one (edgeRatio L B A i) (edgeRatio L A B i)
      (A[i]).connectedVertices hinv
    rw [stretchProduct_eq L A B i A[i] hvA] at hd
    have hPne : ((A[i]).connectedVertices.map (edgeRatio L A B i)).prod ≠ 0 := by
      intro h
      rw [h, mul_zero] at hprod
      exact zero_ne_one hprod
    have hdne : delta ≠ 0 := by
      intro h
      rw [h, zero_pow (by omega)] at hd
      exact hPne hd.symm
    have hdpos : 0 < delta := lt_of_le_of_ne hd0 (Ne.symm hdne)
    have h1 := vertexTension_root L hpow A B i A[i] B[i] delta hvA hvB hn
      (fun c hc => by
        obtain ⟨w, w2, hw, hw2, hne, _⟩ := hedge c hc
        exact ⟨w, w2, hw, hw2, hne⟩) hd0 hd
    have hd2 : (1 / delta) ^ (B[i]).connectedVertices.length =
        ((B[i]).connectedVertices.map (edgeRatio L B A i)).prod := by
      rw [hcv, one_div, inv_pow, hd]
      exact (eq_inv_of_mul_eq_one_left hprod).symm
    have h2 := vertexTension_root L hpow B A i B[i] A[i] (1 / delta) hvB hvA
      (by rw [hcv]; exact hn)
      (fun c hc => by
        obtain ⟨w, w2, hw, hw2, _, hne2⟩ := hedge c (by rw [← hcv]; exact hc)
        exact ⟨w2, w, hw2, hw, hne2⟩) (by positivity) hd2
    rw [tensionOf_inv delta hdpos] at h2
    exact ⟨delta, hdpos, h1, h2⟩
  -- the two arrays
  have hAB : ∀ i, i < A.length → vertexTension L A B i =
      some ((vertexTension L A B i).getD Dbl.nan) := by
    intro i hi
    obtain ⟨delta, _, h1, _⟩ := hvert i hi
    rw [h1]; rfl
  have hBA : ∀ i, i < B.length → vertexTension L B A i =
      some ((vertexTension L B A i).getD Dbl.nan) := by
    intro i hi
    obtain ⟨delta, _, _, h2⟩ := hvert i (by omega)
    rw [h2]; rfl
  refine ⟨_, _, updateTension_eq_map L arrayAB A B _ hAB,
    updateTension_eq_map L arrayBA B A _ hBA, by simp, by simp [hlen], ?_⟩
  intro i hi
  obtain ⟨delta, _, h1, h2⟩ := hvert i hi
  refine ⟨tensionOf delta, ?_, ?_⟩
  · rw [List.getElem?_map, List.getElem?_range hi, Option.map_some', h1]; rfl
  · rw [List.getElem?_map, List.getElem?_range (by omega), Option.map_some', h2]; rfl

/-- The length of the edge of `axisSegment a`, measured from vertex `0`. -/
theorem axisSegment_length (a : ℝ) : edgeLength realLibm (axisSegment a) 0 1 = |a| := by
  have h : (positionOf (axisSegment a) 1).sub (positionOf (axisSegment a) 0) = ⟨a, 0, 0⟩ := by
    simp [positionOf, axisSegment, MPoint.sub]
  rw [edgeLength, h, realLibm_length_x]

/-- The edges of `axisSegment a` have non-zero length when `a` is not zero. -/
theorem axisSegment_edges (a : ℝ) (ha : a ≠ 0) : EdgesNonZero realLibm (axisSegment a) := by
  intro id c v hv hc
  rcases id with _ | _ | id
  · simp only [axisSegment, List.getElem?_cons_zero, Option.some.injEq] at hv
    subst hv
    simp only [List.mem_singleton] at hc
    subst hc
    refine ⟨⟨⟨a, 0, 0⟩, [0]⟩, rfl, ?_⟩
    have h : (MPoint.sub ⟨a, 0, 0⟩ ⟨0, 0, 0⟩ : MVector ℝ) = ⟨a, 0, 0⟩ := by simp [MPoint.sub]
    rw [h, realLibm_length_x]
    exact abs_ne_zero.mpr ha
  · simp only [axisSegment, List.getElem?_cons_succ, List.getElem?_cons_zero,
      Option.some.injEq] at hv
    subst hv
    simp only [List.mem_singleton] at hc
    subst hc
    refine ⟨⟨⟨0, 0, 0⟩, [1]⟩, rfl, ?_⟩
    have h : (MPoint.sub ⟨0, 0, 0⟩ ⟨a, 0, 0⟩ : MVector ℝ) = ⟨-a, 0, 0⟩ := by simp [MPoint.sub]
    rw [h, realLibm_length_x]
    exact abs_ne_zero.mpr (neg_ne_zero.mpr ha)
  · simp [axisSegment] at hv

/-- The stretch product of a vertex is not negative. -/
theorem stretchProduct_nonneg (L : Libm K) (hsqrt : L.SqrtExact) (neutral deformed : Mesh K)
    (i : Nat) : 0 ≤ stretchProduct L neutral deformed i := by
  unfold stretchProduct
  apply List.prod_nonneg
  intro a ha
  obtain ⟨u, _, rfl⟩ := List.mem_map.mp ha
  exact div_nonneg (length_nonneg L hsqrt _) (length_nonneg L hsqrt _)

/-- Every vertex of `axisSegment a` has one neighbour, so its stretch product is its own
root. -/
theorem axisSegment_root (a b : ℝ) (i : Nat) (v : MeshVertex ℝ)
    (hv : (axisSegment a)[i]? = some v) :
    ∃ delta : ℝ, 0 ≤ delta ∧ delta ^ v.connectedVertices.length =
      stretchProduct realLibm (axisSegment a) (axisSegment b) i := by
  have hdeg : v.connectedVertices.length = 1 := by
    rcases i with _ | _ | i
    · simp only [axisSegment, List.getElem?_cons_zero, Option.some.injEq] at hv
      subst hv; rfl
    · simp only [axisSegment, List.getElem?_cons_succ, List.getElem?_cons_zero,
        Option.some.injEq] at hv
      subst hv; rfl
    · simp [axisSegment] at hv
  exact ⟨_, stretchProduct_nonneg realLibm realLibm_sqrtExact _ _ i, by rw [hdeg, pow_one]⟩

/-- Witness of C27: the segments of length `1` and of length `2`. -/
theorem tension_antisymmetry_witness :
    (∃ resAB resBA, updateTension realLibm [] (axisSegment 1) (axisSegment 2) = some resAB ∧
        updateTension realLibm [] (axisSegment 2) (axisSegment 1) = some resBA ∧
        resAB.length = (axisSegment 1).length ∧ resBA.length = (axisSegment 1).length ∧
        ∀ i, i < (axisSegment 1).length →
          ∃ t : ℝ, resAB[i]? = some (Dbl.fin t) ∧ resBA[i]? = some (Dbl.fin (-t))) ∧
      ∀ delta : ℝ, 0 < delta → tensionOf (1 / delta) = -tensionOf delta :=
  tension_antisymmetry realLibm realLibm_powNonnegRoot [] [] (axisSegment 1) (axisSegment 2)
    rfl (axisSegment_edges 1 one_ne_zero) (axisSegment_edges 2 two_ne_zero)
    (by simp [axisSegment]) (axisSegment_root 1 2)

/-- C28. The mapping `f` (`1 - 1/d` for `d > 1`, `d - 1` otherwise) is strictly increasing
on `[0, ∞)` and is what the code stores for a finite stretch factor.  For a vertex `i`
with non-zero neutral edges and two deformed meshes that differ, at `i`, in the length of
the edge to the neighbour `u0` only, which is longer in the second, the other deformed
edges being non-zero: with exact `sqrt` and `pow`, the stretch factor and the tension
stored for `i` are strictly larger for the second mesh. -/
theorem tension_monotone (L : Libm K) (hsqrt : L.SqrtExact) (hpow : L.PowNonnegRoot)
    (neutral deformed1 deformed2 : Mesh K) (i u0 : Nat) (v : MeshVertex K)
    (delta1 delta2 : K)
    (hv : neutral[i]? = some v)
    (hlen1 : deformed1.length = neutral.length) (hlen2 : deformed2.length = neutral.length)
    (hwf : ∀ u, u ∈ v.connectedVertices → u < neutral.length)
    (hu0 : u0 ∈ v.connectedVertices)
    (hneutral : ∀ u, u ∈ v.connectedVertices → edgeLength L neutral i u ≠ 0)
    (hfixed : ∀ u, u ∈ v.connectedVertices → u ≠ u0 →
      edgeLength L deformed2 i u = edgeLength L deformed1 i u ∧
      edgeLength L deformed1 i u ≠ 0)
    (hlonger : edgeLength L deformed1 i u0 < edgeLength L deformed2 i u0)
    (hd1 : 0 ≤ delta1)
    (hr1 : delta1 ^ v.connectedVertices.length = stretchProduct L neutral deformed1 i)
    (hd2 : 0 ≤ delta2)
    (hr2 : delta2 ^ v.connectedVertices.length = stretchProduct L neutral deformed2 i) :
    (∀ d1 d2 : K, 0 ≤ d1 → d1 < d2 → tensionOf d1 < tensionOf d2 ∧
        tensionValue (Dbl.fin d1) = Dbl.fin (tensionOf d1) ∧
        tensionValue (Dbl.fin d2) = Dbl.fin (tensionOf d2)) ∧
      delta1 < delta2 ∧
      vertexTension L neutral deformed1 i = some (Dbl.fin (tensionOf delta1)) ∧
      vertexTension L neutral deformed2 i = some (Dbl.fin (tensionOf delta2)) ∧
      tensionOf delta1 < tensionOf delta2 ∧
      ∀ array1 array2 res1 res2, updateTension L array1 neutral deformed1 = some res1 →
        updateTension L array2 neutral deformed2 = some res2 →
        res1[i]? = some (Dbl.fin (tensionOf delta1)) ∧
        res2[i]? = some (Dbl.fin (tensionOf delta2)) := by
  have hi : i < neutral.length := by
    rcases Nat.lt_or_ge i neutral.length with h | h
    · exact h
    · rw [List.getElem?_eq_none h] at hv; cases hv
  have hn : 1 ≤ v.connectedVertices.length := List.length_pos_of_mem hu0
  have hnonneg : ∀ (M : Mesh K) (u : Nat), 0 ≤ edgeLength L M i u :=
    fun M u => length_nonneg L hsqrt _
  have hNpos : ∀ u, u ∈ v.connectedVertices → 0 < edgeLength L neutral i u :=
    fun u hu => lt_of_le_of_ne (hnonneg neutral u) (Ne.symm (hneutral u hu))
  have hratio : ∀ (D : Mesh K) (u : Nat),
      edgeRatio L neutral D i u = edgeLength L D i u / edgeLength L neutral i u :=
    fun _ _ => rfl
  have hprod := prod_lt_prod (edgeRatio L neutral deformed1 i) (edgeRatio L neutral deformed2 i)
    u0 (by rw [hratio]; exact div_nonneg (hnonneg _ _) (hnonneg _ _))
    (by rw [hratio, hratio]; exact div_lt_div_of_pos_right hlonger (hNpos u0 hu0))
    v.connectedVertices hu0
    (fun u hu hne => by
      obtain ⟨e, hne1⟩ := hfixed u hu hne
      rw [hratio, hratio, e]
      exact ⟨rfl, div_pos (lt_of_le_of_ne (hnonneg _ _) (Ne.symm hne1)) (hNpos u hu)⟩)
  rw [stretchProduct_eq L neutral _ i v hv] at hr1 hr2
  have hlt : delta1 < delta2 := by
    by_contra hcon
    have h := pow_le_pow_left₀ hd2 (not_lt.mp hcon) v.connectedVertices.length
    rw [hr1, hr2] at h
    exact absurd hprod (not_lt.mpr h)
  have hedges : ∀ (D : Mesh K), D.length = neutral.length → ∃ v2, D[i]? = some v2 ∧
      ∀ c, c ∈ v.connectedVertices → ∃ w w2, neutral[c]? = some w ∧
        D[c]? = some w2 ∧ (w.position.sub v.position).length L ≠ 0 := by
    intro D hD
    refine ⟨D[i], List.getElem?_eq_getElem (by omega), ?_⟩
    intro c hc
    have hcN := hwf c hc
    have hw : neutral[c]? = some neutral[c] := List.getElem?_eq_getElem hcN
    refine ⟨neutral[c], D[c], hw, List.getElem?_eq_getElem (by omega), ?_⟩
    have h := hneutral c hc
    rw [edgeLength, positionOf_eq neutral c _ hw, positionOf_eq neutral i _ hv] at h
    exact h
  obtain ⟨v1, hv1, he1⟩ := hedges deformed1 hlen1
  obtain ⟨v2, hv2, he2⟩ := hedges deformed2 hlen2
  have ht1 := vertexTension_root L hpow neutral deformed1 i v v1 delta1 hv hv1 hn he1 hd1 hr1
  have ht2 := vertexTension_root L hpow neutral deformed2 i v v2 delta2 hv hv2 hn he2 hd2 hr2
  refine ⟨fun d1 d2 _ h => ⟨tensionOf_strictMono d1 d2 h, tensionValue_tensionOf d1,
    tensionValue_tensionOf d2⟩, hlt, ht1, ht2, tensionOf_strictMono _ _ hlt, ?_⟩
  intro array1 array2 res1 res2 h1 h2
  obtain ⟨t1, hvt1, hres1⟩ := (updateTension_getElem L array1 neutral deformed1 res1 h1).2 i hi
  obtain ⟨t2, hvt2, hres2⟩ := (updateTension_getElem L array2 neutral deformed2 res2 h2).2 i hi
  rw [ht1] at hvt1
  rw [ht2] at hvt2
  rw [hres1, hres2, ← Option.some.inj hvt1, ← Option.some.inj hvt2]
  exact ⟨rfl, rfl⟩

/-- The stretch product at vertex `0` of one axis segment against another. -/
theorem axisSegment_stretch (a b : ℝ) :
    stretchProduct realLibm (axisSegment a) (axisSegment b) 0 = |b| / |a| := by
  rw [stretchProduct_eq realLibm (axisSegment a) (axisSegment b) 0 ⟨⟨0, 0, 0⟩, [1]⟩ rfl]
  simp only [List.map_cons, List.map_nil, List.prod_cons, List.prod_nil, mul_one]
  show edgeLength realLibm (axisSegment b) 0 1 / edgeLength realLibm (axisSegment a) 0 1 = _
  rw [axisSegment_length, axisSegment_length]

/-- Witness of C28: the neutral segment of length `1`, deformed to length `2` and to
length `3`. -/
theorem tension_monotone_witness :
    (2 : ℝ) < 3 ∧
      vertexTension realLibm (axisSegment 1) (axisSegment 2) 0 =
        some (Dbl.fin (tensionOf 2)) ∧
      vertexTension realLibm (axisSegment 1) (axisSegment 3) 0 =
        some (Dbl.fin (tensionOf 3)) ∧
      tensionOf (2 : ℝ) < tensionOf 3 :=
  have h := tension_monotone realLibm realLibm_sqrtExact realLibm_powNonnegRoot
    (axisSegment 1) (axisSegment 2) (axisSegment 3) 0 1 ⟨⟨0, 0, 0⟩, [1]⟩ 2 3 rfl rfl rfl
    (by simp [axisSegment]) (by simp)
    (by
      intro u hu
      simp only [List.mem_singleton] at hu
      subst hu
      rw [axisSegment_length]; norm_num)
    (by
      intro u hu hne
      simp only [List.mem_singleton] at hu
      exact absurd hu hne)
    (by rw [axisSegment_length, axisSegment_length]; norm_num)
    (by norm_num) (by rw [axisSegment_stretch]; simp)
    (by norm_num) (by rw [axisSegment_stretch]; simp)
  ⟨h.2.1, h.2.2.1, h.2.2.2.1, h.2.2.2.2.1⟩

/-! ## The closing angle in `double` arithmetic -/

/-- A rational within half a unit of an integer is rounded to it. -/
theorem roundHalfEven_eq (q : ℚ) (n : Int) (h : |q - n| < 1 / 2) : roundHalfEven q = n := by
  obtain ⟨h1, h2⟩ := abs_lt.mp h
  unfold roundHalfEven
  simp only
  by_cases hq : (n : ℚ) ≤ q
  · have hf : ⌊q⌋ = n := Int.floor_eq_iff.mpr ⟨hq, by linarith⟩
    rw [hf, if_pos (by linarith)]
  · have hf : ⌊q⌋ = n - 1 :=
      Int.floor_eq_iff.mpr ⟨by push_cast; linarith, by push_cast; linarith⟩
    rw [hf]
    have h3 : ¬(q - ((n - 1 : Int) : ℚ) < 1 / 2) := by push_cast; linarith
    have h4 : 1 / 2 < q - ((n - 1 : Int) : ℚ) := by push_cast; linarith
    rw [if_neg h3, if_pos h4]
    ring

/-- The `double` nearest to a positive rational `x` with `2^e <= x < 2^(e+1)` that lies
within half a unit in the last place of `n * 2^(e-52)`. -/
theorem roundDouble_eq (x : ℚ) (e n : Int) (hx : 0 < x) (h1 : (2 : ℚ) ^ e ≤ x)
    (h2 : x < (2 : ℚ) ^ (e + 1)) (hn : |x / (2 : ℚ) ^ (e - 52) - n| < 1 / 2) :
    roundDouble x = n * (2 : ℚ) ^ (e - 52) := by
  have hlog : Int.log 2 x = e := by
    have ha : e ≤ Int.log 2 x :=
      (Int.zpow_le_iff_le_log (by norm_num) hx).mp (by exact_mod_cast h1)
    have hb : Int.log 2 x < e + 1 :=
      (Int.lt_zpow_iff_log_lt (by norm_num) hx).mp (by exact_mod_cast h2)
    omega
  unfold roundDouble
  simp only [abs_of_pos hx, hlog, if_neg (ne_of_gt hx), if_pos hx]
  rw [roundHalfEven_eq _ n hn]

/-- In `double` arithmetic `-2^-54 + M_PI * 2.0` is `M_PI * 2.0`: the exact sum is within
`2^-54` of it, less than half a unit in the last place (`2^-51`). -/
theorem doubleLibm_addTwoPi_belowAxis : doubleLibm.addTwoPi belowAxis = 2 * doubleLibm.pi := by
  show roundDouble (belowAxis + 884279719003555 / 281474976710656 * 2) =
    2 * (884279719003555 / 281474976710656)
  rw [roundDouble_eq _ 2 7074237752028440 (by norm_num [belowAxis])
    (by norm_num [belowAxis]) (by norm_num [belowAxis]) (by norm_num [belowAxis, abs_lt])]
  norm_num

/-- The angle of the location `(1, -2^-54)` relative to the direction `(1, 0)` is
`2 * M_PI` in `double` arithmetic. -/
theorem doubleLibm_radians_belowAxis :
    computeRadians doubleLibm ⟨1, 0, 0⟩ ⟨1, belowAxis, 0⟩ = 2 * doubleLibm.pi := by
  have h1 : doubleLibm.atan2 belowAxis 1 = belowAxis := by
    have hne : belowAxis ≠ 0 := by norm_num [belowAxis]
    have hle : |belowAxis| ≤ 1 / 2 ^ 27 := by norm_num [belowAxis, abs_le]
    simp only [doubleLibm]
    rw [if_neg hne, if_pos ⟨trivial, hle⟩]
  have h2 : doubleLibm.atan2 0 1 = 0 := by
    simp [doubleLibm]
  have hneg : belowAxis - 0 < 0 := by norm_num [belowAxis]
  simp only [computeRadians, h1, h2]
  rw [if_pos hneg, sub_zero]
  exact doubleLibm_addTwoPi_belowAxis

/-- C16, counterexample. With the `double` library, reference direction `(1, 0)` and
direction `(1, -2^-54)`: the difference of the two `atan2` values is `-2^-54`, the sum
`-2^-54 + M_PI * 2.0` is rounded to `M_PI * 2.0`, and `computeRadians` returns `2 * M_PI`,
which is not below `2 * M_PI`. -/
theorem radians_reach_two_pi :
    doubleLibm.atan2 belowAxis 1 - doubleLibm.atan2 0 1 = -(1 / 2 ^ 54) ∧
      computeRadians doubleLibm ⟨1, 0, 0⟩ ⟨1, belowAxis, 0⟩ = 2 * doubleLibm.pi ∧
      ¬(computeRadians doubleLibm ⟨1, 0, 0⟩ ⟨1, belowAxis, 0⟩ < 2 * doubleLibm.pi) := by
  refine ⟨?_, doubleLibm_radians_belowAxis, ?_⟩
  · have hne : belowAxis ≠ 0 := by norm_num [belowAxis]
    have hle : |belowAxis| ≤ 1 / 2 ^ 27 := by norm_num [belowAxis, abs_le]
    have h1 : doubleLibm.atan2 belowAxis 1 = belowAxis := by
      simp only [doubleLibm]
      rw [if_neg hne, if_pos ⟨trivial, hle⟩]
    have h2 : doubleLibm.atan2 0 1 = 0 := by
      simp [doubleLibm]
    rw [h1, h2, sub_zero]
    rfl
  · rw [doubleLibm_radians_belowAxis]
    exact lt_irrefl _

/-- Rounding to the nearest integer does not pass an integer bound. -/
theorem roundHalfEven_le (q : ℚ) (M : Int) (h : q ≤ M) : roundHalfEven q ≤ M := by
  have hfl : ⌊q⌋ ≤ M := Int.floor_le_iff.mpr (by linarith)
  have hq := Int.floor_le q
  unfold roundHalfEven
  simp only
  by_cases hM : ⌊q⌋ = M
  · have hfrac : q - ((⌊q⌋ : Int) : ℚ) < 1 / 2 := by
      rw [hM]; linarith
    rw [if_pos hfrac, hM]
  · have hlt : ⌊q⌋ + 1 ≤ M := by omega
    split_ifs <;> omega

/-- Rounding a non-negative rational to the nearest integer gives a non-negative integer. -/
theorem roundHalfEven_nonneg (q : ℚ) (h : 0 ≤ q) : 0 ≤ roundHalfEven q := by
  have hfl : 0 ≤ ⌊q⌋ := Int.floor_nonneg.mpr h
  unfold roundHalfEven
  simp only
  split_ifs <;> omega

/-- The `double` nearest to a rational in `(0, 2 * M_PI)` lies in `[0, 2 * M_PI]`. -/
theorem roundDouble_le_two_pi (x : ℚ) (h0 : 0 < x) (hx : x < 2 * doubleLibm.pi) :
    0 ≤ roundDouble x ∧ roundDouble x ≤ 2 * doubleLibm.pi := by
  have hpi : 2 * doubleLibm.pi = 884279719003555 * (2 : ℚ) ^ (-47 : Int) := by
    show 2 * (884279719003555 / 281474976710656 : ℚ) = _
    norm_num
  have hlog : Int.log 2 x < 3 := by
    refine (Int.lt_zpow_iff_log_lt (by norm_num) h0).mp ?_
    rw [hpi] at hx
    have h8 : (884279719003555 : ℚ) * (2 : ℚ) ^ (-47 : Int) < ((2 : ℕ) : ℚ) ^ (3 : Int) := by
      norm_num
    linarith
  have hulp : (0 : ℚ) < (2 : ℚ) ^ (Int.log 2 x - 52) := zpow_pos (by norm_num) _
  have hexp : 0 ≤ 5 - Int.log 2 x := by omega
  -- `2 * M_PI` is the multiple `M` of the unit in the last place of `x`
  have hM : (((884279719003555 * 2 ^ (5 - Int.log 2 x).toNat : Int)) : ℚ) *
      (2 : ℚ) ^ (Int.log 2 x - 52) = 2 * doubleLibm.pi := by
    rw [hpi]
    push_cast
    rw [← zpow_natCast, Int.toNat_of_nonneg hexp, mul_assoc, ← zpow_add₀ (by norm_num)]
    congr 2
    omega
  unfold roundDouble
  simp only [abs_of_pos h0, if_neg (ne_of_gt h0), if_pos h0]
  have hq0 : 0 ≤ x / (2 : ℚ) ^ (Int.log 2 x - 52) := div_nonneg h0.le hulp.le
  have hqM : x / (2 : ℚ) ^ (Int.log 2 x - 52) ≤
      ((884279719003555 * 2 ^ (5 - Int.log 2 x).toNat : Int) : ℚ) := by
    rw [div_le_iff₀ hulp, hM]
    exact hx.le
  constructor
  · exact mul_nonneg (by exact_mod_cast roundHalfEven_nonneg _ hq0) hulp.le
  · rw [← hM]
    exact mul_le_mul_of_nonneg_right (by exact_mod_cast roundHalfEven_le _ _ hqM) hulp.le

/-- The `double` library has `atan2` in `(-pi, pi]` and a sum in `[0, 2 pi]`. -/
theorem doubleLibm_atan2Closed : doubleLibm.Atan2Closed := by
  have hpi : (0 : ℚ) < doubleLibm.pi := by
    show (0 : ℚ) < 884279719003555 / 281474976710656
    norm_num
  have hpi3 : (3 : ℚ) < doubleLibm.pi := by
    show (3 : ℚ) < 884279719003555 / 281474976710656
    norm_num
  refine ⟨hpi, ?_, ?_⟩
  · intro y x
    show -doubleLibm.pi < (if y = 0 then (if 0 ≤ x then 0 else doubleLibm.pi)
      else if x = 1 ∧ |y| ≤ 1 / 2 ^ 27 then y else 0) ∧
      (if y = 0 then (if 0 ≤ x then 0 else doubleLibm.pi)
      else if x = 1 ∧ |y| ≤ 1 / 2 ^ 27 then y else 0) ≤ doubleLibm.pi
    split_ifs with h1 h2 h3
    · constructor <;> linarith
    · constructor <;> linarith
    · obtain ⟨ha, hb⟩ := abs_le.mp h3.2
      have : (1 : ℚ) / 2 ^ 27 < 1 := by norm_num
      constructor <;> linarith
    · constructor <;> linarith
  · intro r h1 h2
    show 0 ≤ roundDouble (r + doubleLibm.pi * 2) ∧
      roundDouble (r + doubleLibm.pi * 2) ≤ 2 * doubleLibm.pi
    exact roundDouble_le_two_pi _ (by linarith) (by linarith)

end Mhy
